import Mathlib

/-!
# my_stl::vector over an explicit heap, and my_stl::stack

A shallow embedding of `src/vector/vector.h`, `src/allocator/allocator.h` and
`src/stack/stack.h`.

* The free store is a list of blocks indexed by their address.  A block is either released
  (`none`) or live, and a live block is a list of slots; a slot holds a value of `T` or nothing
  (raw storage, an object that was never given a value, or one whose destructor has run).
* A `vector` object is its three data members: `data_` (null or the base of a block),
  `current_size_`, `capacity_`, together with a record of where `data_` came from, a `new T[n]`
  expression or the allocator.  Member functions take the heap and the object and give back
  both.
* `size_type` is a `size_t` of 64 bits, its values are natural numbers.  The two products the
  code forms in that type, `n * sizeof(value_type)` in `allocate` and
  `capacity() * MULTIPLY_CONST` in `grow`, are taken modulo `2 ^ 64`.  The free store hands out a
  block for every request: it does not run out of memory.
* The element type is described by an `Elem`: its size, its copy constructor
  (`copy x = some e` says that copy-constructing from the value `x` throws `e`; a copy that does
  not throw yields an equal value), whether it has a destructor, and what initialisation leaves
  in an object.  Assignment `data_[i] = x` is a store into the slot.
* An argument of type `const T&` is a reference (`Arg`): the object it refers to is read when
  the callee uses it, not when the call is made.
* Touching memory outside a live block (through a null, dangling or out-of-block pointer) has no
  defined behaviour; it is a result of its own, `undefined`, and no exception.  So are the
  release, as an array of `char`, of an array that a `new T[n]` expression made for an element
  type with a destructor, and a subtraction that overflows `int`.
* A loop that counts up to a bound is a recursion on the number of iterations left.  The loop of
  `shrink_to_fit` has no such bound and is followed for a given number of iterations (`fuel`);
  `timeout` says it was still running then.
* Some places of the source do not type-check as written once instantiated and are read by what
  the neighbouring code does: `construct(proxy_data[pos], ...)` in `shrink_to_fit` and
  `construct(data_[size()], ...)` in `emplace_back` as taking the address of that slot, and
  `~vector();` in `operator=` as the destructor call on `*this`.  The two-argument `std::move`
  of the move assignment has no counterpart in the standard library; both readings its name
  allows are modelled (`Move2`).
* The container of a `stack` is a parameter: its member functions (`Container`) and the
  sequence contract they have to meet.

Theorems named `C<n>_...` are about the numbered properties of the specification; those ending
in `_witness` apply one of them to a concrete vector or stack.
-/

namespace my_stl

/-! ## Results -/

/-- Exceptions that leave a member function: `std::out_of_range`, or whatever the copy
constructor of the element type threw. -/
inductive Fault (ε : Type) where
  | out_of_range : Fault ε
  | element (e : ε) : Fault ε
  deriving DecidableEq, Repr

/-- How a piece of code that works on a state `σ` ends: it returns, it throws (the state at the
point where the exception leaves is kept), it runs into undefined behaviour, or it is still
running when the iteration budget is used up. -/
inductive Outcome (ε σ : Type) where
  | ret (s : σ) : Outcome ε σ
  | throw (e : Fault ε) (s : σ) : Outcome ε σ
  | undefined : Outcome ε σ
  | timeout : Outcome ε σ
  deriving DecidableEq, Repr

/-! ## Memory -/

/-- A block of element slots. -/
abbrev Block (T : Type) := List (Option T)

/-- The free store: entry `b` is the block at address `b`, `none` once it is released. -/
abbrev Heap (T : Type) := List (Option (Block T))

/-- A `T*`: `base + off`, where `base` is null or the address of a block. -/
structure Ptr where
  base : Option Nat
  off : Nat
  deriving DecidableEq, Repr

/-- The test `if (p)` negated: only `nullptr + 0` is null. -/
def Ptr.is_null (p : Ptr) : Bool :=
  match p.base, p.off with
  | none, 0 => true
  | _, _ => false

/-- The slot `p` points to: `none` when `p` does not point into a live block,
`some none` for a slot without an object, `some (some x)` for a slot holding `x`. -/
def Heap.slot {T : Type} (h : Heap T) (p : Ptr) : Option (Option T) :=
  match p.base with
  | none => none
  | some b =>
    match h[b]? with
    | some (some blk) => blk[p.off]?
    | _ => none

/-- Overwrite the slot `p` points to. -/
def Heap.store {T : Type} (h : Heap T) (p : Ptr) (c : Option T) : Heap T :=
  match p.base with
  | none => h
  | some b =>
    match h[b]? with
    | some (some blk) => h.set b (some (blk.set p.off c))
    | _ => h

/-- The lvalue `data_[pos]`: defined only if the slot lies in a live block. -/
def lvalue {T : Type} (h : Heap T) (data_ : Option Nat) (pos : Nat) : Option Ptr :=
  match h.slot ⟨data_, pos⟩ with
  | some _ => some ⟨data_, pos⟩
  | none => none

/-- Reading the value of an lvalue: the slot has to hold an object. -/
def load {T : Type} (h : Heap T) (p : Ptr) : Option T :=
  match h.slot p with
  | some (some x) => some x
  | _ => none

/-- The assignment `data_[pos] = value`. -/
def assign_slot {T : Type} (h : Heap T) (data_ : Option Nat) (pos : Nat) (value : T) :
    Option (Heap T) :=
  match lvalue h data_ pos with
  | some p => some (h.store p (some value))
  | none => none

/-! ## Element types and arguments -/

/-- What the code depends on in its element type `T`: its size, whether its copy constructor
throws, whether it has a destructor that does anything, and what initialisation leaves in an
object. -/
structure Elem (T ε : Type) where
  /-- The value of `sizeof(T)`, at least 1 and within `size_t`. -/
  sizeof : Nat
  sizeof_pos : 0 < sizeof
  sizeof_lt : sizeof < 2 ^ 64
  /-- The copy constructor: `copy x = some e` says that copy-constructing from `x` throws `e`;
  a copy that does not throw yields an equal value. -/
  copy : T → Option ε
  /-- Whether `T` has a destructor that does anything; `false` for a trivially destructible
  type such as `int`, for which `p->~T()` has no effect. -/
  has_destructor : Bool
  /-- The value of a default-initialised object (`T item;`, the elements of `new T[n]`); `none`
  for a scalar type, which default-initialisation leaves without a value. -/
  default_init : Option T
  /-- The value of `T()`. -/
  value_init : T

/-- An argument of type `const T&`: a reference to an object outside the free store (a
temporary, a local variable), given by the value it holds, or a reference to a slot of a block,
such as `v[0]`.  Nothing is read when the reference is bound. -/
inductive Arg (T : Type) where
  | temp (x : T) : Arg T
  | slot (p : Ptr) : Arg T
  deriving DecidableEq, Repr

/-- Reading the object an argument refers to, at the time the callee uses it: a slot has to lie
in a live block and hold an object then. -/
def Arg.read {T : Type} (h : Heap T) : Arg T → Option T
  | .temp x => some x
  | .slot p => load h p

/-- The block an argument refers into; `none` for an object outside the free store. -/
def Arg.base {T : Type} : Arg T → Option Nat
  | .temp _ => none
  | .slot p => p.base

/-- The assignment `data_[pos] = value` with `value` of type `const T&`. -/
def assign_arg {T : Type} (h : Heap T) (data_ : Option Nat) (pos : Nat) (value : Arg T) :
    Option (Heap T) :=
  match value.read h with
  | some x => assign_slot h data_ pos x
  | none => none

/-- The value a `size_t` of 64 bits holds after an operation whose exact result is `n`. -/
def size_t (n : Nat) : Nat := n % 2 ^ 64

/-! ## allocator.h -/

/-- `DefaultAllocator::allocate(n)`: `new char[charsCount]` with
`charsCount = n * sizeof(value_type)` computed in `size_t`; the fresh block has the raw slots
that `charsCount` bytes hold. -/
def allocate {T ε : Type} (E : Elem T ε) (h : Heap T) (n : Nat) : Heap T × Option Nat :=
  let charsCount := size_t (n * E.sizeof)
  (h ++ [some (List.replicate (charsCount / E.sizeof) none)], some h.length)

/-- `DefaultAllocator::deallocate(p)`: nothing for a null pointer, else
`delete[] static_cast<char*>(p)`.  `from_new` says that `p` is the result of a `new T[n]`
expression and not of `allocate`: for an element type with a destructor such an array starts
after the stored element count, `p` is not the address the free store handed out, and releasing
it as a `char` array has no defined behaviour. -/
def deallocate {T ε : Type} (E : Elem T ε) (h : Heap T) (p : Option Nat) (from_new : Bool) :
    Option (Heap T) :=
  match p with
  | none => some h
  | some b =>
    if from_new && E.has_destructor then none
    else
      match h[b]? with
      | some (some _) => some (h.set b none)
      | _ => none

/-- `DefaultAllocator::construct(p, value)`: nothing for a null pointer, else
`new (p) T(value)`, which reads the object `value` refers to. -/
def construct {T ε : Type} (E : Elem T ε) (h : Heap T) (p : Ptr) (value : Arg T) :
    Outcome ε (Heap T) :=
  if p.is_null then .ret h
  else
    match h.slot p with
    | none => .undefined
    | some _ =>
      match value.read h with
      | none => .undefined
      | some x =>
        match E.copy x with
        | some e => .throw (.element e) h
        | none => .ret (h.store p (some x))

/-- `DefaultAllocator::destroy(p)`: nothing for a null pointer, else `p->~T()`.  For a type
without a destructor this call has no effect and touches no memory; a destructor runs on the
slot `p` points to, which has to lie in a live block. -/
def destroy {T ε : Type} (E : Elem T ε) (h : Heap T) (p : Ptr) : Option (Heap T) :=
  if p.is_null then some h
  else if E.has_destructor then
    match h.slot p with
    | none => none
    | some _ => some (h.store p none)
  else some h

/-! ## vector.h -/

/-- The data members of `my_stl::vector`.  The field `data_from_new` is no member of the class:
it records where the value of `data_` came from, `true` for the result of a `new T[n]`
expression (the constructors with arguments), `false` for null and for the result of
`allocate`; it travels with `data_`. -/
structure vector where
  data_ : Option Nat
  current_size_ : Nat
  capacity_ : Nat
  data_from_new : Bool := false
  deriving DecidableEq, Repr

/-- The constant `MULTIPLY_CONST`. -/
def MULTIPLY_CONST : Nat := 2

/-- `vector::size()`. -/
def vector.size (v : vector) : Nat := v.current_size_

/-- `vector::capacity()`. -/
def vector.capacity (v : vector) : Nat := v.capacity_

/-- `vector::empty()`. -/
def vector.empty (v : vector) : Bool := v.current_size_ == 0

/-- `vector::swap(other)`: the three members change places. -/
def vector.swap (v other : vector) : vector × vector :=
  ({ data_ := other.data_, current_size_ := other.current_size_, capacity_ := other.capacity_,
     data_from_new := other.data_from_new },
   { data_ := v.data_, current_size_ := v.current_size_, capacity_ := v.capacity_,
     data_from_new := v.data_from_new })

/-- `vector::vector()`. -/
def vector.default_ctor : vector :=
  { data_ := none, current_size_ := 0, capacity_ := 0 }

/-- The loop `for (i = 0; i < size(); ++i) allocator.destroy(data_ + i);` with `n` iterations
left, the next one at index `i`. -/
def destroy_up {T ε : Type} (E : Elem T ε) (data_ : Option Nat) :
    Nat → Nat → Heap T → Option (Heap T)
  | 0, _, h => some h
  | n + 1, i, h =>
    match destroy E h ⟨data_, i⟩ with
    | some h1 => destroy_up E data_ n (i + 1) h1
    | none => none

/-- `vector::~vector()`. -/
def vector.dtor {T ε : Type} (E : Elem T ε) (h : Heap T) (v : vector) :
    Option (Heap T × vector) :=
  match destroy_up E v.data_ v.size 0 h with
  | none => none
  | some h1 =>
    match deallocate E h1 v.data_ v.data_from_new with
    | none => none
    | some h2 => some (h2, { v with current_size_ := 0, capacity_ := 0 })

/-- `static_cast<int>(pos)` for a 32-bit `int`. -/
def static_cast_int (pos : Nat) : Int :=
  if pos % 2 ^ 32 < 2 ^ 31 then (pos % 2 ^ 32 : Nat) else ((pos % 2 ^ 32 : Nat) : Int) - 2 ^ 32

/-- The subtraction `i - 1` on a 32-bit `int`: no result when it overflows. -/
def int_pred (i : Int) : Option Int :=
  if i = -(2 ^ 31) then none else some (i - 1)

/-- The loop `for (int i = ...; i >= 0; --i) allocator.destroy(proxy_data + i);` with `n`
iterations left; the next one is at index `n - 1`. -/
def destroy_down {T ε : Type} (E : Elem T ε) (proxy_data : Option Nat) :
    Nat → Heap T → Option (Heap T)
  | 0, h => some h
  | n + 1, h =>
    match destroy E h ⟨proxy_data, n⟩ with
    | some h1 => destroy_down E proxy_data n h1
    | none => none

/-- How the copy loop of `reserve` ends: all iterations done, or a copy threw at index `pos`. -/
inductive CopyResult (ε T : Type) where
  | done (h : Heap T) : CopyResult ε T
  | threw (e : Fault ε) (h : Heap T) (pos : Nat) : CopyResult ε T
  | undefined : CopyResult ε T
  | timeout : CopyResult ε T
  deriving DecidableEq, Repr

/-- The body `allocator.construct(&proxy_data[pos], data_[pos])` of the copy loops. -/
def copy_element {T ε : Type} (E : Elem T ε) (h : Heap T) (data_ proxy_data : Option Nat)
    (pos : Nat) : Outcome ε (Heap T) :=
  match lvalue h proxy_data pos, lvalue h data_ pos with
  | some dst, some src => construct E h dst (.slot src)
  | _, _ => .undefined

/-- The loop of `reserve`,
`while (pos < size()) { allocator.construct(&proxy_data[pos], data_[pos]); ++pos; }`,
with `n = size() - pos` iterations left. -/
def reserve_loop {T ε : Type} (E : Elem T ε) (data_ proxy_data : Option Nat) :
    Nat → Nat → Heap T → CopyResult ε T
  | 0, _, h => .done h
  | n + 1, pos, h =>
    match copy_element E h data_ proxy_data pos with
    | .ret h1 => reserve_loop E data_ proxy_data n (pos + 1) h1
    | .throw e h1 => .threw e h1 pos
    | .undefined => .undefined
    | .timeout => .timeout

/-- The handler `catch (...)` of `reserve`: the loop starts at
`i = static_cast<int>(pos) - 1` and runs `i + 1` times when that is not negative; then the block
is released and the caller rethrows. -/
def reserve_catch {T ε : Type} (E : Elem T ε) (h : Heap T) (proxy_data : Option Nat)
    (pos : Nat) : Option (Heap T) :=
  match int_pred (static_cast_int pos) with
  | none => none
  | some i =>
    match destroy_down E proxy_data (i + 1).toNat h with
    | some h1 => deallocate E h1 proxy_data false
    | none => none

/-- `vector::reserve(const size_type& new_capacity)`.  The argument is passed as its value: no
caller can hold a reference to a member of the vector, and nothing else of type `size_type` is
written to before the last use of `new_capacity`.  The object `proxy_vector` takes over the old
block in `swap`, and its destructor runs when the function returns. -/
def vector.reserve {T ε : Type} (E : Elem T ε) (h : Heap T) (v : vector)
    (new_capacity : Nat) : Outcome ε (Heap T × vector) :=
  if new_capacity ≤ v.capacity then .ret (h, v)
  else
    let (h1, proxy_data) := allocate E h new_capacity
    match reserve_loop E v.data_ proxy_data v.size 0 h1 with
    | .threw e h2 pos =>
      match reserve_catch E h2 proxy_data pos with
      | some h3 => .throw e (h3, v)
      | none => .undefined
    | .undefined => .undefined
    | .timeout => .timeout
    | .done h2 =>
      let (v1, proxy_vector) := v.swap vector.default_ctor
      let v2 : vector := { v1 with data_ := proxy_data, data_from_new := false }
      let v3 : vector := { v2 with current_size_ := proxy_vector.size }
      let v4 : vector := { v3 with capacity_ := new_capacity }
      match vector.dtor E h2 proxy_vector with
      | some (h3, _) => .ret (h3, v4)
      | none => .undefined

/-- `vector::grow()`; the product `capacity() * MULTIPLY_CONST` is taken in `size_t`. -/
def vector.grow {T ε : Type} (E : Elem T ε) (h : Heap T) (v : vector) :
    Outcome ε (Heap T × vector) :=
  if v.capacity ≠ 0 then vector.reserve E h v (size_t (v.capacity * MULTIPLY_CONST))
  else vector.reserve E h v 1

/-- Result of an accessor that returns a reference. -/
inductive Access (ε : Type) where
  | ref (p : Ptr) : Access ε
  | throw (e : Fault ε) : Access ε
  | undefined : Access ε
  deriving DecidableEq, Repr

/-- `reference vector::at(size_type pos)`. -/
def vector.at {T ε : Type} (h : Heap T) (v : vector) (pos : Nat) : Access ε :=
  if pos ≤ v.current_size_ then
    match lvalue h v.data_ pos with
    | some p => .ref p
    | none => .undefined
  else .throw .out_of_range

/-- `const_reference vector::at(size_type pos) const`. -/
def vector.at_const {T ε : Type} (h : Heap T) (v : vector) (pos : Nat) : Access ε :=
  if pos ≤ v.current_size_ then
    match lvalue h v.data_ pos with
    | some p => .ref p
    | none => .undefined
  else .throw .out_of_range

/-- `vector::operator[](pos)`. -/
def vector.subscript {T : Type} (h : Heap T) (v : vector) (pos : Nat) : Option Ptr :=
  lvalue h v.data_ pos

/-- `vector::push_back(const T& value)`: `value` is read by the assignment, after `grow()`. -/
def vector.push_back {T ε : Type} (E : Elem T ε) (h : Heap T) (v : vector) (value : Arg T) :
    Outcome ε (Heap T × vector) :=
  let store_value (h1 : Heap T) (v1 : vector) : Outcome ε (Heap T × vector) :=
    match assign_arg h1 v1.data_ v1.size value with
    | some h2 => .ret (h2, { v1 with current_size_ := v1.current_size_ + 1 })
    | none => .undefined
  if v.size = v.capacity then
    match vector.grow E h v with
    | .ret (h1, v1) => store_value h1 v1
    | other => other
  else store_value h v

/-- `vector::pop_back()`. -/
def vector.pop_back {T ε : Type} (h : Heap T) (v : vector) : Outcome ε (Heap T × vector) :=
  if v.size ≠ 0 then .ret (h, { v with current_size_ := v.current_size_ - 1 })
  else .throw .out_of_range (h, v)

/-- The loop `for (pos = 0; pos < count; ++pos) data_[pos] = value;` with `n` iterations left. -/
def assign_up {T : Type} (data_ : Option Nat) (value : Arg T) :
    Nat → Nat → Heap T → Option (Heap T)
  | 0, _, h => some h
  | n + 1, pos, h =>
    match assign_arg h data_ pos value with
    | some h1 => assign_up data_ value n (pos + 1) h1
    | none => none

/-- `vector::assign(size_type count, const T& value)`: `value` is read by the assignments, after
`reserve(count)`. -/
def vector.assign {T ε : Type} (E : Elem T ε) (h : Heap T) (v : vector) (count : Nat)
    (value : Arg T) : Outcome ε (Heap T × vector) :=
  if count ≤ v.capacity then
    match assign_up v.data_ value count 0 h with
    | some h1 => .ret (h1, { v with current_size_ := count })
    | none => .undefined
  else
    match vector.reserve E h v count with
    | .ret (h1, v1) =>
      match assign_up v1.data_ value count 0 h1 with
      | some h2 => .ret (h2, { v1 with current_size_ := count })
      | none => .undefined
    | other => other

/-- The loop of `shrink_to_fit`,
`while (pos < size()) { allocator.construct(proxy_data[pos], data_[pos]); }`.
The body does not advance `pos`; `fuel` bounds the number of iterations that are followed.
The first argument of `construct` is written `proxy_data[pos]` in the source where a pointer is
expected; it is read as the address of that slot, as in `reserve`. -/
def shrink_to_fit_loop {T ε : Type} (E : Elem T ε) (data_ proxy_data : Option Nat)
    (size : Nat) : Nat → Nat → Heap T → CopyResult ε T
  | 0, pos, h => if pos < size then .timeout else .done h
  | fuel + 1, pos, h =>
    if pos < size then
      match copy_element E h data_ proxy_data pos with
      | .ret h1 => shrink_to_fit_loop E data_ proxy_data size fuel pos h1
      | .throw e h1 => .threw e h1 pos
      | .undefined => .undefined
      | .timeout => .timeout
    else .done h

/-- The loop `for (int i = ...; i >= 0; --i) allocator.destroy(proxy_data[pos]);` of the handler
in `shrink_to_fit`: `n` iterations, each at index `pos`. -/
def destroy_same {T ε : Type} (E : Elem T ε) (proxy_data : Option Nat) (pos : Nat) :
    Nat → Heap T → Option (Heap T)
  | 0, h => some h
  | n + 1, h =>
    match destroy E h ⟨proxy_data, pos⟩ with
    | some h1 => destroy_same E proxy_data pos n h1
    | none => none

/-- The handler `catch (...)` of `shrink_to_fit`. -/
def shrink_to_fit_catch {T ε : Type} (E : Elem T ε) (h : Heap T) (proxy_data : Option Nat)
    (pos : Nat) : Option (Heap T) :=
  match int_pred (static_cast_int pos) with
  | none => none
  | some i =>
    match destroy_same E proxy_data pos (i + 1).toNat h with
    | some h1 => deallocate E h1 proxy_data false
    | none => none

/-- `vector::shrink_to_fit()`, its loop followed for at most `fuel` iterations. -/
def vector.shrink_to_fit {T ε : Type} (E : Elem T ε) (fuel : Nat) (h : Heap T)
    (v : vector) : Outcome ε (Heap T × vector) :=
  if v.capacity = v.size then .ret (h, v)
  else
    let (h1, proxy_data) := allocate E h v.size
    match shrink_to_fit_loop E v.data_ proxy_data v.size fuel 0 h1 with
    | .threw e h2 pos =>
      match shrink_to_fit_catch E h2 proxy_data pos with
      | some h3 => .throw e (h3, v)
      | none => .undefined
    | .undefined => .undefined
    | .timeout => .timeout
    | .done h2 =>
      let (v1, proxy_vector) := v.swap vector.default_ctor
      let v2 : vector := { v1 with data_ := proxy_data, data_from_new := false }
      let v3 : vector := { v2 with current_size_ := proxy_vector.size }
      let v4 : vector := { v3 with capacity_ := proxy_vector.capacity }
      match vector.dtor E h2 proxy_vector with
      | some (h3, _) => .ret (h3, v4)
      | none => .undefined

/-- The loop `for (pos = 0; pos < count; ++pos) allocator.construct(data_ + pos, value);` with
`n` iterations left. -/
def construct_up {T ε : Type} (E : Elem T ε) (data_ : Option Nat) (value : Arg T) :
    Nat → Nat → Heap T → Outcome ε (Heap T)
  | 0, _, h => .ret h
  | n + 1, pos, h =>
    match construct E h ⟨data_, pos⟩ value with
    | .ret h1 => construct_up E data_ value n (pos + 1) h1
    | other => other

/-- `vector::resize(size_type count, const value_type& value)`: `value` is read by the
`construct` calls, after the old block was released. -/
def vector.resize {T ε : Type} (E : Elem T ε) (h : Heap T) (v : vector) (count : Nat)
    (value : Arg T) : Outcome ε (Heap T × vector) :=
  match destroy_up E v.data_ count 0 h with
  | none => .undefined
  | some h1 =>
    match deallocate E h1 v.data_ v.data_from_new with
    | none => .undefined
    | some h2 =>
      let (h3, p) := allocate E h2 count
      let v1 : vector := { v with data_ := p, data_from_new := false }
      match construct_up E p value count 0 h3 with
      | .ret h4 => .ret (h4, { v1 with current_size_ := count, capacity_ := count })
      | .throw e h4 => .throw e (h4, v1)
      | .undefined => .undefined
      | .timeout => .timeout

/-- The expression `new T[n]`: a fresh block of `n` default-initialised elements.  (The
expression checks the size of the array itself, there is no wrap-around.) -/
def new_array {T ε : Type} (E : Elem T ε) (h : Heap T) (n : Nat) : Heap T × Option Nat :=
  (h ++ [some (List.replicate n E.default_init)], some h.length)

/-- The loop `for (i = 0; i < other.size(); ++i) data_[i] = other.data_[i];` with `n`
iterations left. -/
def copy_up {T : Type} (data_ other_data_ : Option Nat) : Nat → Nat → Heap T → Option (Heap T)
  | 0, _, h => some h
  | n + 1, i, h =>
    match lvalue h other_data_ i with
    | none => none
    | some src =>
      match load h src with
      | none => none
      | some x =>
        match assign_slot h data_ i x with
        | some h1 => copy_up data_ other_data_ n (i + 1) h1
        | none => none

/-- `vector::vector(const vector& other)`: the heap after the call and the new object. -/
def vector.copy_ctor {T ε : Type} (E : Elem T ε) (h : Heap T) (other : vector) :
    Outcome ε (Heap T × vector) :=
  let (h1, p) := new_array E h other.size
  let v : vector :=
    { data_ := p, current_size_ := other.size, capacity_ := other.size, data_from_new := true }
  match copy_up v.data_ other.data_ other.size 0 h1 with
  | some h2 => .ret (h2, v)
  | none => .undefined

/-- The statements `~vector(); new (this) vector(other);` of `operator=(const vector&)` on the
object `v`.  The statement `~vector();` is read as the destructor call on `*this` that the
placement `new` after it relies on. -/
def vector.copy_assign_body {T ε : Type} (E : Elem T ε) (h : Heap T) (v other : vector) :
    Outcome ε (Heap T × vector) :=
  match vector.dtor E h v with
  | none => .undefined
  | some (h1, _) => vector.copy_ctor E h1 other

/-- `vector::operator=(const vector& other)` on the object `v`; `other_is_this` is the outcome of
the test `&other == this`.  For `&other != this` the body ends without a `return` statement:
control flows off the end of a function that returns `vector&`, which has no defined
behaviour. -/
def vector.copy_assign {T ε : Type} (E : Elem T ε) (h : Heap T) (v other : vector)
    (other_is_this : Bool) : Outcome ε (Heap T × vector) :=
  if other_is_this then .ret (h, v)
  else
    match vector.copy_assign_body E h v other with
    | .ret _ => .undefined
    | other_outcome => other_outcome

/-- `vector::vector(size_type count, const T& value)`. -/
def vector.sized_ctor {T ε : Type} (E : Elem T ε) (h : Heap T) (count : Nat)
    (value : Arg T) : Outcome ε (Heap T × vector) :=
  let (h1, p) := new_array E h count
  let v : vector :=
    { data_ := p, current_size_ := count, capacity_ := count, data_from_new := true }
  match assign_up v.data_ value count 0 h1 with
  | some h2 => .ret (h2, v)
  | none => .undefined

/-- `vector::vector(vector&& other)`: the new object, and `other` after the call. -/
def vector.move_ctor (other : vector) : vector × vector :=
  let v : vector :=
    { data_ := other.data_, current_size_ := other.current_size_, capacity_ := other.capacity_,
      data_from_new := other.data_from_new }
  let other1 : vector := { other with data_ := none, data_from_new := false }
  let other2 : vector := { other1 with current_size_ := 0 }
  let other3 : vector := { other2 with capacity_ := 0 }
  (v, other3)

/-- What a statement `std::move(a, b);` is taken to do.  The source calls `std::move` with two
arguments; the standard library has no such function, so the statement is read in the two ways
the name allows: `a = std::move(b)`, or a call without effect, like `std::move(b);`. -/
inductive Move2 where
  | assigns : Move2
  | no_effect : Move2
  deriving DecidableEq, Repr

/-- The statement `std::move(a, b);` on members of pointer or integer type, under a reading:
the values of `a` and of `b` after it.  Moving from a pointer or an integer leaves it as it
was. -/
def std_move2 {α : Type} (r : Move2) (a b : α) : α × α :=
  match r with
  | .assigns => (b, b)
  | .no_effect => (a, b)

/-- `vector::operator=(vector&& other)` on the object `v`; `other_is_this` is the outcome of
the test `this != &other` negated.  The result holds the heap, `*this` and `other` after the
call (for `this == &other` the two are the same object). -/
def vector.move_assign {T ε : Type} (E : Elem T ε) (r : Move2) (h : Heap T) (v other : vector)
    (other_is_this : Bool) : Outcome ε (Heap T × vector × vector) :=
  if other_is_this then .ret (h, v, v)
  else
    let tmp : vector := vector.default_ctor
    let (tmp_data_, other_data_) :=
      std_move2 r (tmp.data_, tmp.data_from_new) (other.data_, other.data_from_new)
    let (tmp_capacity_, other_capacity_) := std_move2 r tmp.capacity_ other.capacity_
    let (tmp_current_size_, other_current_size_) :=
      std_move2 r tmp.current_size_ other.current_size_
    let tmp1 : vector :=
      { data_ := tmp_data_.1, current_size_ := tmp_current_size_, capacity_ := tmp_capacity_,
        data_from_new := tmp_data_.2 }
    let other1 : vector :=
      { data_ := other_data_.1, current_size_ := other_current_size_,
        capacity_ := other_capacity_, data_from_new := other_data_.2 }
    let (v1, tmp2) := v.swap tmp1
    match vector.dtor E h tmp2 with
    | some (h1, _) => .ret (h1, v1, other1)
    | none => .undefined

/-- `reference vector::front()`. -/
def vector.front {T ε : Type} (h : Heap T) (v : vector) : Access ε :=
  if v.data_.isSome && v.current_size_ != 0 then
    match lvalue h v.data_ 0 with
    | some p => .ref p
    | none => .undefined
  else .throw .out_of_range

/-- `const_reference vector::front() const`. -/
def vector.front_const {T ε : Type} (h : Heap T) (v : vector) : Access ε :=
  if v.data_.isSome && v.current_size_ != 0 then
    match lvalue h v.data_ 0 with
    | some p => .ref p
    | none => .undefined
  else .throw .out_of_range

/-- `reference vector::back()`. -/
def vector.back {T ε : Type} (h : Heap T) (v : vector) : Access ε :=
  if v.data_.isSome && v.current_size_ != 0 then
    match lvalue h v.data_ (v.current_size_ - 1) with
    | some p => .ref p
    | none => .undefined
  else .throw .out_of_range

/-- `const_reference vector::back() const`. -/
def vector.back_const {T ε : Type} (h : Heap T) (v : vector) : Access ε :=
  if v.data_.isSome && v.current_size_ != 0 then
    match lvalue h v.data_ (v.current_size_ - 1) with
    | some p => .ref p
    | none => .undefined
  else .throw .out_of_range

/-- `vector::clear()`. -/
def vector.clear {T ε : Type} (E : Elem T ε) (h : Heap T) (v : vector) :
    Outcome ε (Heap T × vector) :=
  match vector.assign E h v v.capacity (.temp E.value_init) with
  | .ret (h1, v1) => .ret (h1, { v1 with current_size_ := 0 })
  | other => other

/-- `vector::emplace_back(U&&... value)` with one argument, an element to copy; it is read by
`construct`, after `grow()`.  The first argument of `construct` is written `data_[size()]` in
the source where a pointer is expected; it is read as the address of that slot. -/
def vector.emplace_back {T ε : Type} (E : Elem T ε) (h : Heap T) (v : vector)
    (value : Arg T) : Outcome ε (Heap T × vector) :=
  let construct_value (h1 : Heap T) (v1 : vector) : Outcome ε (Heap T × vector) :=
    match lvalue h1 v1.data_ v1.size with
    | none => .undefined
    | some p =>
      match construct E h1 p value with
      | .ret h2 => .ret (h2, { v1 with current_size_ := v1.current_size_ + 1 })
      | .throw e h2 => .throw e (h2, v1)
      | .undefined => .undefined
      | .timeout => .timeout
  if v.size = v.capacity then
    match vector.grow E h v with
    | .ret (h1, v1) => construct_value h1 v1
    | other => other
  else construct_value h v

/-! ## stack.h -/

/-- The member functions `stack` calls on its container of type `C`, and the sequence of
elements a container holds.  `back` and `pop_back` need not be defined on every container (for
`std::deque` they are not on an empty one). -/
structure Container (C T : Type) where
  clear : C → C
  empty : C → Bool
  size : C → Nat
  back : C → Option T
  pop_back : C → Option C
  push_back : C → T → C
  contents : C → List T

/-- The sequence contract a container has to meet: `clear` empties, `empty` and `size` report on
the sequence held, `back` reads and `pop_back` removes the last element of a non-empty sequence,
`push_back` appends at the end. -/
def Container.sequence_contract {C T : Type} (K : Container C T) : Prop :=
  (∀ c, K.contents (K.clear c) = []) ∧
  (∀ c, K.empty c = (K.contents c).isEmpty) ∧
  (∀ c, K.size c = (K.contents c).length) ∧
  (∀ c, K.contents c ≠ [] → K.back c = (K.contents c).getLast?) ∧
  (∀ c, K.contents c ≠ [] →
    ∃ c1, K.pop_back c = some c1 ∧ K.contents c1 = (K.contents c).dropLast) ∧
  ∀ c x, K.contents (K.push_back c x) = K.contents c ++ [x]

/-- The data member of `my_stl::stack`.  (The member function `size()` passes an argument to the
`size` of the container and is not part of this model.) -/
structure stack (C : Type) where
  container_ : C

/-- `stack::stack()`, from a default-constructed container. -/
def stack.ctor {C T : Type} (K : Container C T) (c0 : C) : stack C :=
  { container_ := K.clear c0 }

/-- `stack::empty()`. -/
def stack.empty {C T : Type} (K : Container C T) (s : stack C) : Bool :=
  K.empty s.container_

/-- `stack::top()`.  On an empty stack it is `T item; return item;`, and `default_init` is what
default-initialisation leaves in `item`: the default-constructed value of a class type, `none`
for a scalar type, which stays uninitialised.  The result is `none` where there is no value to
return: for such an `item`, and where the container leaves `back` undefined. -/
def stack.top {C T : Type} (K : Container C T) (default_init : Option T) (s : stack C) :
    Option T :=
  if stack.empty K s then
    let item : Option T := default_init
    item
  else K.back s.container_

/-- `stack::pop()`: `none` where the container leaves `pop_back` undefined. -/
def stack.pop {C T : Type} (K : Container C T) (s : stack C) : Option (stack C) :=
  if K.size s.container_ != 0 then
    match K.pop_back s.container_ with
    | some c => some { container_ := c }
    | none => none
  else some s

/-- `stack::push(elem)`. -/
def stack.push {C T : Type} (K : Container C T) (s : stack C) (elem : T) : stack C :=
  { container_ := K.push_back s.container_ elem }

/-- The sequence of elements a stack holds, bottom first. -/
def stack.contents {C T : Type} (K : Container C T) (s : stack C) : List T :=
  K.contents s.container_

/-- A container that is the list of its elements. -/
def list_container (T : Type) : Container (List T) T where
  clear := fun _ => []
  empty := fun c => c.isEmpty
  size := fun c => c.length
  back := fun c => c.getLast?
  pop_back := fun c => if c.isEmpty then none else some c.dropLast
  push_back := fun c x => c ++ [x]
  contents := fun c => c

/-! ## Observations and test programs -/

/-- The value read through `v[i]`. -/
def vector.elem {T : Type} (h : Heap T) (v : vector) (i : Nat) : Option T :=
  load h ⟨v.data_, i⟩

/-- The representation invariant of a vector object in a heap: `size <= capacity`, a null
`data_` has capacity 0, and otherwise `data_` is a live block of `capacity` slots whose first
`size` slots hold objects. -/
def vector.wf {T : Type} (h : Heap T) (v : vector) : Bool :=
  decide (v.current_size_ ≤ v.capacity_) &&
  match v.data_ with
  | none => v.capacity_ == 0
  | some b =>
    match h[b]? with
    | some (some blk) =>
      blk.length == v.capacity_ && (blk.take v.current_size_).all Option.isSome
    | _ => false

/-- The heap with the block at `data_` released (unchanged for a null pointer). -/
def Heap.release {T : Type} (h : Heap T) (data_ : Option Nat) : Heap T :=
  match data_ with
  | none => h
  | some b => h.set b none

/-- The heap `g1` extends `g` and keeps every block of `g` other than the one at `p`. -/
def Heap.frame {T : Type} (g g1 : Heap T) (p : Option Nat) : Prop :=
  g.length ≤ g1.length ∧ ∀ q, q < g.length → some q ≠ p → g1[q]? = g[q]?

/-- Invariant of the copy loop of `reserve` after `pos` iterations: the new block `nb` has `n`
slots, agrees with the old block `blk` below `pos` and is raw storage from `pos` on. -/
def Copied {T : Type} (blk nb : Block T) (n pos : Nat) : Prop :=
  nb.length = n ∧ (∀ i, i < pos → nb[i]? = blk[i]?) ∧ ∀ i, pos ≤ i → i < n → nb[i]? = some none

/-- The object `v` in the heap `h` holds exactly the elements `xs`, in this order. -/
def Models {T : Type} (h : Heap T) (v : vector) (xs : List T) : Prop :=
  v.wf h = true ∧ v.current_size_ = xs.length ∧ ∀ i, i < xs.length → v.elem h i = xs[i]?

/-- A call of `push_back` or `pop_back`; the argument of `push_back` is an object outside the
free store, given by its value. -/
inductive Op (T : Type) where
  | push_back (value : T) : Op T
  | pop_back : Op T
  deriving DecidableEq, Repr

/-- One call on the object `v`. -/
def vector.call {T ε : Type} (E : Elem T ε) (h : Heap T) (v : vector) :
    Op T → Outcome ε (Heap T × vector)
  | .push_back value => vector.push_back E h v (.temp value)
  | .pop_back => vector.pop_back h v

/-- A sequence of calls on the same object; it ends at the first call that does not return. -/
def vector.run {T ε : Type} (E : Elem T ε) : Heap T → vector → List (Op T) →
    Outcome ε (Heap T × vector)
  | h, v, [] => .ret (h, v)
  | h, v, op :: ops =>
    match vector.call E h v op with
    | .ret (h1, v1) => vector.run E h1 v1 ops
    | other => other

/-- The list a sequence of calls describes: `push_back` appends at the end, `pop_back` removes
the last element; `none` if `pop_back` meets the empty list. -/
def Op.interp {T : Type} : List T → List (Op T) → Option (List T)
  | xs, [] => some xs
  | xs, .push_back value :: ops => Op.interp (xs ++ [value]) ops
  | xs, .pop_back :: ops => if xs.isEmpty then none else Op.interp xs.dropLast ops

/-- Number of `push_back` calls in a sequence. -/
def Op.pushes {T : Type} : List (Op T) → Nat
  | [] => 0
  | .push_back _ :: ops => Op.pushes ops + 1
  | .pop_back :: ops => Op.pushes ops

/-- Number of `pop_back` calls in a sequence. -/
def Op.pops {T : Type} : List (Op T) → Nat
  | [] => 0
  | .push_back _ :: ops => Op.pops ops
  | .pop_back :: ops => Op.pops ops + 1

/-- The property `P` holds of the state an operation ends in, whether it returns or throws;
an outcome without a state has nothing to check. -/
def Outcome.holds {ε σ : Type} (P : σ → Prop) : Outcome ε σ → Prop
  | .ret s => P s
  | .throw _ s => P s
  | .undefined => True
  | .timeout => True

/-- The invariant `size() <= capacity()`. -/
def vector.size_le_capacity (v : vector) : Prop := v.size ≤ v.capacity

/-- The pointers the loop `for (i = ...; ...; ++i) allocator.destroy(data_ + i);` passes to
`destroy` when it runs `n` iterations from index `i`. -/
def destroy_up_targets (data_ : Option Nat) : Nat → Nat → List Ptr
  | 0, _ => []
  | n + 1, i => ⟨data_, i⟩ :: destroy_up_targets data_ n (i + 1)

/-- Calls of `destroy` on a list of pointers, in order. -/
def destroy_all {T ε : Type} (E : Elem T ε) : List Ptr → Heap T → Option (Heap T)
  | [], h => some h
  | p :: ps, h =>
    match destroy E h p with
    | some h1 => destroy_all E ps h1
    | none => none

/-- The number of slots of the block a pointer addresses; `none` for a pointer whose base is
null or no live block. -/
def Heap.block_capacity {T : Type} (h : Heap T) (p : Ptr) : Option Nat :=
  match p.base with
  | none => none
  | some b =>
    match h[b]? with
    | some (some blk) => some blk.length
    | _ => none

/-- The pointer addresses a slot of its block: its index is below the capacity of the block. -/
def Heap.in_block {T : Type} (h : Heap T) (p : Ptr) : Bool :=
  match h.block_capacity p with
  | some n => decide (p.off < n)
  | none => false

/-- The call `deallocate(data_)` of the destructor is one with defined behaviour: `data_` is null,
or it does not come from `new T[n]`, or the element type has no destructor. -/
def vector.releasable {T ε : Type} (E : Elem T ε) (v : vector) : Bool :=
  v.data_.isNone || !(v.data_from_new && E.has_destructor)

/-- The element type `int` (or `unsigned`): four bytes, a copy that does not throw, no
destructor, no value after default-initialisation, `int()` is 0. -/
def int_elem : Elem Nat Unit where
  sizeof := 4
  sizeof_pos := by decide
  sizeof_lt := by decide
  copy := fun _ => none
  has_destructor := false
  default_init := none
  value_init := 0

/-- A class type that owns a resource, such as `std::string`, its values named by numbers:
32 bytes, a copy that does not throw, a destructor, and a default constructor giving 0. -/
def owner_elem : Elem Nat Unit where
  sizeof := 32
  sizeof_pos := by decide
  sizeof_lt := by decide
  copy := fun _ => none
  has_destructor := true
  default_init := some 0
  value_init := 0

/-- The heap after `push_back(1)`, `push_back(2)`, `push_back(3)` on a fresh vector. -/
def heap123 : Heap Nat := [none, none, some [some 1, some 2, some 3, none]]

/-- The vector object after `push_back(1)`, `push_back(2)`, `push_back(3)`. -/
def vec123 : vector := { data_ := some 2, current_size_ := 3, capacity_ := 4 }

/-- A class type of four bytes holding a number, without a destructor, whose copy constructor
throws on the value `bad` and whose default constructor gives 0. -/
def throws_on (bad : Nat) : Elem Nat Unit where
  sizeof := 4
  sizeof_pos := by decide
  sizeof_lt := by decide
  copy := fun x => if x = bad then some () else none
  has_destructor := false
  default_init := some 0
  value_init := 0

/-- The heap after `push_back(1)` on a fresh vector. -/
def heap1 : Heap Nat := [some [some 1]]

/-- The vector object after `push_back(1)`: size 1, capacity 1. -/
def vec1 : vector := { data_ := some 0, current_size_ := 1, capacity_ := 1 }

/-- The heap after the construction `vector(2, 7)`. -/
def heap77 : Heap Nat := [some [some 7, some 7]]

/-- The vector object built by `vector(2, 7)`: size 2, capacity 2, its block obtained from
`new T[2]`. -/
def vec77 : vector :=
  { data_ := some 0, current_size_ := 2, capacity_ := 2, data_from_new := true }

/-- The heap after `push_back(1)`, `push_back(2)` on a fresh vector. -/
def heap12 : Heap Nat := [none, some [some 1, some 2]]

/-- The vector object after `push_back(1)`, `push_back(2)`: size 2, capacity 2. -/
def vec12 : vector := { data_ := some 1, current_size_ := 2, capacity_ := 2 }

/-- A heap that holds both the vector `vec12` and the vector `vec123`. -/
def heap_both : Heap Nat :=
  [none, some [some 1, some 2], some [some 1, some 2, some 3, none]]

/-! ## Memory and loop lemmas -/

section lemmas
variable {T ε : Type}

/-- The representation invariant, spelled out. -/
theorem wf_iff (h : Heap T) (v : vector) :
    v.wf h = true ↔
      v.current_size_ ≤ v.capacity_ ∧ (v.data_ = none → v.capacity_ = 0) ∧
      ∀ b, v.data_ = some b → ∃ blk, h[b]? = some (some blk) ∧ blk.length = v.capacity_ ∧
        ∀ i, i < v.current_size_ → ∃ x, blk[i]? = some (some x) := by
  unfold vector.wf
  rcases hd : v.data_ with _ | b
  · simp
  · rcases hb : h[b]? with _ | (_ | blk)
    · simp [hb]
    · simp [hb]
    · simp only [hb, Bool.and_eq_true, decide_eq_true_eq, beq_iff_eq, List.all_eq_true,
        Option.some.injEq, false_imp_iff, true_and, forall_eq', exists_eq_left', reduceCtorEq]
      constructor
      · rintro ⟨h1, h2, h3⟩
        refine ⟨h1, h2, fun i hi => ?_⟩
        have hil : i < blk.length := by omega
        have hm : blk[i] ∈ blk.take v.current_size_ :=
          List.mem_take_iff_getElem.2 ⟨i, by simp; omega, rfl⟩
        have := h3 _ hm
        rcases hx : blk[i] with _ | x
        · simp [hx] at this
        · exact ⟨x, by rw [List.getElem?_eq_getElem hil, hx]⟩
      · rintro ⟨h1, h2, h3⟩
        refine ⟨h1, h2, fun c hc => ?_⟩
        obtain ⟨i, hi, rfl⟩ := List.mem_take_iff_getElem.1 hc
        obtain ⟨x, hx⟩ := h3 i (by simp at hi; omega)
        have hil : i < blk.length := by simp at hi; omega
        rw [List.getElem?_eq_getElem hil] at hx
        simp at hx
        simp [hx]

theorem slot_snoc_new (h : Heap T) (nb : Block T) (i : Nat) :
    Heap.slot (h ++ [some nb]) ⟨some h.length, i⟩ = nb[i]? := by
  simp [Heap.slot]

theorem slot_snoc_old (h : Heap T) (x : Option (Block T)) (b i : Nat) (hb : b < h.length) :
    Heap.slot (h ++ [x]) ⟨some b, i⟩ = Heap.slot h ⟨some b, i⟩ := by
  simp [Heap.slot, List.getElem?_append_left hb]

theorem store_snoc_new (h : Heap T) (nb : Block T) (i : Nat) (c : Option T) :
    Heap.store (h ++ [some nb]) ⟨some h.length, i⟩ c = h ++ [some (nb.set i c)] := by
  simp [Heap.store]

/-- A request that fits `size_t` gets a block of as many slots as were asked for. -/
theorem allocate_fits (E : Elem T ε) (h : Heap T) (n : Nat) (hfit : n * E.sizeof < 2 ^ 64) :
    allocate E h n = (h ++ [some (List.replicate n none)], some h.length) := by
  simp only [allocate, size_t, Nat.mod_eq_of_lt hfit, Nat.mul_div_cancel _ E.sizeof_pos]

/-- One iteration of a copy loop: the source slot holds `x`, the target is the block that was
allocated last. -/
theorem copy_element_snoc (E : Elem T ε) (h : Heap T) (b : Nat) (blk nb : Block T)
    (pos : Nat) (x : T) (hb : h[b]? = some (some blk)) (hx : blk[pos]? = some (some x))
    (hpos : pos < nb.length) :
    copy_element E (h ++ [some nb]) (some b) (some h.length) pos =
      match E.copy x with
      | some e => .throw (.element e) (h ++ [some nb])
      | none => .ret (h ++ [some (nb.set pos (some x))]) := by
  have hbl : b < h.length := (List.getElem?_eq_some_iff.1 hb).1
  have h1 : Heap.slot (h ++ [some nb]) ⟨some h.length, pos⟩ = some nb[pos] := by
    rw [slot_snoc_new, List.getElem?_eq_getElem hpos]
  have h2 : Heap.slot (h ++ [some nb]) ⟨some b, pos⟩ = some (some x) := by
    rw [slot_snoc_old _ _ _ _ hbl]; simp [Heap.slot, hb, hx]
  simp only [copy_element, lvalue, Arg.read, load, construct, Ptr.is_null, h1, h2,
    store_snoc_new]
  cases E.copy x <;> simp

theorem Copied.step {blk nb : Block T} {n pos : Nat} {x : T} (hc : Copied blk nb n pos)
    (hx : blk[pos]? = some (some x)) (hpos : pos < n) :
    Copied blk (nb.set pos (some x)) n (pos + 1) := by
  obtain ⟨h1, h2, h3⟩ := hc
  refine ⟨by simp [h1], fun i hi => ?_, fun i hi hin => ?_⟩
  · rw [List.getElem?_set]
    by_cases hip : pos = i
    · subst hip; simp [h1, hpos, hx]
    · rw [if_neg hip]; exact h2 i (by omega)
  · rw [List.getElem?_set_ne (by omega)]; exact h3 i (by omega) hin

/-- The copy loop of `reserve` completes when no copy throws, and keeps its invariant. -/
theorem reserve_loop_done (E : Elem T ε) (h : Heap T) (b : Nat) (blk : Block T) (n : Nat)
    (hb : h[b]? = some (some blk)) :
    ∀ (k pos : Nat) (nb : Block T), Copied blk nb n pos → pos + k ≤ n →
      (∀ i, pos ≤ i → i < pos + k → ∃ x, blk[i]? = some (some x) ∧ E.copy x = none) →
      ∃ nb1, reserve_loop E (some b) (some h.length) k pos (h ++ [some nb]) =
          .done (h ++ [some nb1]) ∧ Copied blk nb1 n (pos + k) := by
  intro k
  induction k with
  | zero => intro pos nb hc _ _; exact ⟨nb, rfl, hc⟩
  | succ k ih =>
    intro pos nb hc hle hct
    obtain ⟨x, hx, hcx⟩ := hct pos (Nat.le_refl _) (by omega)
    have hstep := copy_element_snoc E h b blk nb pos x hb hx (by rw [hc.1]; omega)
    rw [hcx] at hstep
    obtain ⟨nb1, hrun, hc1⟩ := ih (pos + 1) (nb.set pos (some x)) (hc.step hx (by omega))
      (by omega) (fun i hi hik => hct i (by omega) (by omega))
    refine ⟨nb1, ?_, by rw [show pos + (k + 1) = pos + 1 + k by omega]; exact hc1⟩
    simp only [reserve_loop, hstep]
    exact hrun

/-- The copy loop of `reserve` stops at the first element whose copy throws. -/
theorem reserve_loop_threw (E : Elem T ε) (h : Heap T) (b : Nat) (blk : Block T) (n : Nat)
    (hb : h[b]? = some (some blk)) (r : Nat) (e : ε) :
    ∀ (j pos : Nat) (nb : Block T) (x : T), Copied blk nb n pos → pos + j < n →
      (∀ i, pos ≤ i → i < pos + j → ∃ y, blk[i]? = some (some y) ∧ E.copy y = none) →
      blk[pos + j]? = some (some x) → E.copy x = some e →
      ∃ nb1, reserve_loop E (some b) (some h.length) (j + 1 + r) pos (h ++ [some nb]) =
          .threw (.element e) (h ++ [some nb1]) (pos + j) ∧ nb1.length = n := by
  intro j
  induction j with
  | zero =>
    intro pos nb x hc hlt _ hx hcx
    have hstep := copy_element_snoc E h b blk nb pos x hb hx (by rw [hc.1]; omega)
    rw [hcx] at hstep
    refine ⟨nb, ?_, hc.1⟩
    simp only [Nat.zero_add, Nat.add_zero, Nat.add_comm 1 r, reserve_loop, hstep]
  | succ j ih =>
    intro pos nb x hc hlt hct hx hcx
    obtain ⟨y, hy, hcy⟩ := hct pos (Nat.le_refl _) (by omega)
    have hstep := copy_element_snoc E h b blk nb pos y hb hy (by rw [hc.1]; omega)
    rw [hcy] at hstep
    obtain ⟨nb1, hrun, hl⟩ := ih (pos + 1) (nb.set pos (some y)) x (hc.step hy (by omega))
      (by omega) (fun i hi hik => hct i (by omega) (by omega))
      (by rw [show pos + 1 + j = pos + (j + 1) by omega]; exact hx) hcx
    refine ⟨nb1, ?_, hl⟩
    rw [show j + 1 + 1 + r = (j + 1 + r) + 1 by omega]
    simp only [reserve_loop, hstep]
    rw [hrun, show pos + 1 + j = pos + (j + 1) by omega]

/-- On a block whose slots up to `size` hold objects, the copy loop of `reserve` either
completes, with its invariant, or stops at a copy that throws; it does not leave its blocks. -/
theorem reserve_loop_cases (E : Elem T ε) (h : Heap T) (b : Nat) (blk : Block T) (n : Nat)
    (hb : h[b]? = some (some blk)) :
    ∀ (k pos : Nat) (nb : Block T), Copied blk nb n pos → pos + k ≤ n →
      (∀ i, pos ≤ i → i < pos + k → ∃ x, blk[i]? = some (some x)) →
      (∃ nb1, reserve_loop E (some b) (some h.length) k pos (h ++ [some nb]) =
          .done (h ++ [some nb1]) ∧ Copied blk nb1 n (pos + k)) ∨
      ∃ e g p, reserve_loop E (some b) (some h.length) k pos (h ++ [some nb]) =
          .threw e g p := by
  intro k
  induction k with
  | zero => intro pos nb hc _ _; exact Or.inl ⟨nb, rfl, hc⟩
  | succ k ih =>
    intro pos nb hc hle hobj
    obtain ⟨x, hx⟩ := hobj pos (Nat.le_refl _) (by omega)
    have hstep := copy_element_snoc E h b blk nb pos x hb hx (by rw [hc.1]; omega)
    rcases hcx : E.copy x with _ | e
    · rw [hcx] at hstep
      rcases ih (pos + 1) (nb.set pos (some x)) (hc.step hx (by omega)) (by omega)
        (fun i hi hik => hobj i (by omega) (by omega)) with ⟨nb1, hrun, hc1⟩ | ⟨e, g, p, hrun⟩
      · refine Or.inl ⟨nb1, ?_, by rw [show pos + (k + 1) = pos + 1 + k by omega]; exact hc1⟩
        simp only [reserve_loop, hstep]
        exact hrun
      · refine Or.inr ⟨e, g, p, ?_⟩
        simp only [reserve_loop, hstep]
        exact hrun
    · rw [hcx] at hstep
      exact Or.inr ⟨.element e, h ++ [some nb], pos, by simp only [reserve_loop, hstep]⟩

theorem list_set_same {α : Type} (l : List α) (i : Nat) (a : α) (h : l[i]? = some a) :
    l.set i a = l := by
  apply List.ext_getElem?
  intro j
  rw [List.getElem?_set]
  by_cases hij : i = j
  · subst hij; simp [h, (List.getElem?_eq_some_iff.1 h).1]
  · simp [hij]

theorem list_get_set_same {α : Type} (l : List α) (i : Nat) (a c : α)
    (h : l[i]? = some a) : (l.set i c)[i]? = some c := by
  simp [List.getElem?_set, (List.getElem?_eq_some_iff.1 h).1]

/-- A call of `destroy` on a slot of a live block changes that block at most, and not its
length. -/
theorem destroy_live (E : Elem T ε) (g : Heap T) (b i : Nat) (blk : Block T)
    (hb : g[b]? = some (some blk)) (hi : i < blk.length) :
    ∃ blk1, destroy E g ⟨some b, i⟩ = some (g.set b (some blk1)) ∧
      blk1.length = blk.length := by
  rcases hE : E.has_destructor with _ | _
  · exact ⟨blk, by simp [destroy, Ptr.is_null, hE, list_set_same g b _ hb], rfl⟩
  · exact ⟨blk.set i none, by
      simp [destroy, Ptr.is_null, hE, Heap.slot, Heap.store, hb, List.getElem?_eq_getElem hi],
      by simp⟩

/-- For an element type without a destructor, `destroy` changes nothing, whatever the
pointer. -/
theorem destroy_trivial (E : Elem T ε) (g : Heap T) (p : Ptr) (hE : E.has_destructor = false) :
    destroy E g p = some g := by
  simp [destroy, hE]

theorem destroy_up_trivial (E : Elem T ε) (data_ : Option Nat)
    (hE : E.has_destructor = false) :
    ∀ (k i : Nat) (g : Heap T), destroy_up E data_ k i g = some g := by
  intro k
  induction k with
  | zero => intro i g; rfl
  | succ k ih => intro i g; simp only [destroy_up, destroy_trivial E g _ hE, ih]

theorem destroy_up_live (E : Elem T ε) (b : Nat) :
    ∀ (k i : Nat) (g : Heap T) (blk : Block T), g[b]? = some (some blk) → i + k ≤ blk.length →
      ∃ blk1, destroy_up E (some b) k i g = some (g.set b (some blk1)) ∧
        blk1.length = blk.length := by
  intro k
  induction k with
  | zero =>
    intro i g blk hb _
    exact ⟨blk, by simp [destroy_up, list_set_same g b _ hb], rfl⟩
  | succ k ih =>
    intro i g blk hb hle
    obtain ⟨blk0, hd0, hl0⟩ := destroy_live E g b i blk hb (by omega)
    obtain ⟨blk1, hrun, hl⟩ := ih (i + 1) (g.set b (some blk0)) blk0
      (list_get_set_same g b _ _ hb) (by omega)
    refine ⟨blk1, ?_, by omega⟩
    simp only [destroy_up, hd0, hrun, List.set_set]

theorem destroy_down_live (E : Elem T ε) (b : Nat) :
    ∀ (k : Nat) (g : Heap T) (blk : Block T), g[b]? = some (some blk) → k ≤ blk.length →
      ∃ blk1, destroy_down E (some b) k g = some (g.set b (some blk1)) ∧
        blk1.length = blk.length := by
  intro k
  induction k with
  | zero =>
    intro g blk hb _
    exact ⟨blk, by simp [destroy_down, list_set_same g b _ hb], rfl⟩
  | succ k ih =>
    intro g blk hb hle
    obtain ⟨blk0, hd0, hl0⟩ := destroy_live E g b k blk hb (by omega)
    obtain ⟨blk1, hrun, hl⟩ := ih (g.set b (some blk0)) blk0
      (list_get_set_same g b _ _ hb) (by omega)
    refine ⟨blk1, ?_, by omega⟩
    simp only [destroy_down, hd0, hrun, List.set_set]

theorem deallocate_live (E : Elem T ε) (g : Heap T) (b : Nat) (blk : Block T) (from_new : Bool)
    (hb : g[b]? = some (some blk)) (hrel : (from_new && E.has_destructor) = false) :
    deallocate E g (some b) from_new = some (g.set b none) := by
  simp [deallocate, hb, hrel]

/-- A block that came from `new T[n]` for a type with a destructor is not released. -/
theorem deallocate_from_new (E : Elem T ε) (g : Heap T) (b : Nat)
    (hE : E.has_destructor = true) : deallocate E g (some b) true = none := by
  simp [deallocate, hE]

theorem static_cast_int_toNat_le (pos : Nat) : (static_cast_int pos).toNat ≤ pos := by
  unfold static_cast_int
  have := Nat.mod_le pos (2 ^ 32)
  split <;> omega

/-- The handler of `reserve` releases the new block and nothing else. -/
theorem reserve_catch_snoc (E : Elem T ε) (h : Heap T) (nb : Block T) (pos : Nat)
    (hpos : pos ≤ nb.length) (hint : pos % 2 ^ 32 ≠ 2 ^ 31) :
    reserve_catch E (h ++ [some nb]) (some h.length) pos = some (h ++ [none]) := by
  have hb : (h ++ [some nb])[h.length]? = some (some nb) := by simp
  have hpred : int_pred (static_cast_int pos) = some (static_cast_int pos - 1) := by
    unfold int_pred static_cast_int
    split <;> split <;> first | rfl | omega
  obtain ⟨blk1, hrun, _⟩ := destroy_down_live E h.length (static_cast_int pos).toNat _ nb hb
    (le_trans (static_cast_int_toNat_le pos) hpos)
  have hb1 : ((h ++ [some nb]).set h.length (some blk1))[h.length]? = some (some blk1) :=
    list_get_set_same _ _ _ _ hb
  simp only [reserve_catch, hpred, Int.sub_add_cancel, hrun,
    deallocate_live E _ _ _ false hb1 rfl, List.set_set]
  simp

theorem dtor_live (E : Elem T ε) (g : Heap T) (v : vector) (b : Nat) (blk : Block T)
    (hd : v.data_ = some b) (hb : g[b]? = some (some blk)) (hs : v.current_size_ ≤ blk.length)
    (hrel : (v.data_from_new && E.has_destructor) = false) :
    vector.dtor E g v = some (g.set b none, { v with current_size_ := 0, capacity_ := 0 }) := by
  obtain ⟨blk1, hrun, _⟩ := destroy_up_live E b v.current_size_ 0 g blk hb (by omega)
  have hb1 : (g.set b (some blk1))[b]? = some (some blk1) :=
    list_get_set_same _ _ _ _ hb
  simp only [vector.dtor, vector.size, hd, hrun, deallocate_live E _ _ _ _ hb1 hrel,
    List.set_set]

theorem dtor_null (E : Elem T ε) (g : Heap T) (v : vector) (hd : v.data_ = none)
    (hs : v.current_size_ = 0) :
    vector.dtor E g v = some (g, { v with current_size_ := 0, capacity_ := 0 }) := by
  simp only [vector.dtor, vector.size, hd, hs, destroy_up, deallocate]

/-- The destructor does not complete on a block that came from `new T[n]` when the element type
has a destructor. -/
theorem dtor_from_new (E : Elem T ε) (g : Heap T) (v : vector) (b : Nat)
    (hd : v.data_ = some b) (hnew : v.data_from_new = true) (hE : E.has_destructor = true) :
    vector.dtor E g v = none := by
  simp only [vector.dtor, hd, hnew, deallocate_from_new E _ b hE]
  split <;> rfl

theorem elem_live (h : Heap T) (v : vector) (b : Nat) (blk : Block T) (hd : v.data_ = some b)
    (hb : h[b]? = some (some blk)) (i : Nat) :
    v.elem h i = (blk[i]?).join := by
  simp only [vector.elem, load, Heap.slot, hd, hb]
  rcases blk[i]? with _ | _ | x <;> rfl

theorem Copied.init (blk : Block T) (n : Nat) : Copied blk (List.replicate n none) n 0 :=
  ⟨by simp, fun i hi => absurd hi (Nat.not_lt_zero i),
    fun i _ hin => by simp [List.getElem?_replicate, hin]⟩

theorem set_snoc_old {α : Type} (l : List α) (x a : α) (b : Nat) (hb : b < l.length) :
    (l ++ [x]).set b a = l.set b a ++ [x] :=
  List.set_append_left b a hb

theorem releasable_live (E : Elem T ε) (v : vector) (b : Nat) (hd : v.data_ = some b)
    (hrel : v.releasable E = true) : (v.data_from_new && E.has_destructor) = false := by
  cases h1 : v.data_from_new <;> cases h2 : E.has_destructor <;>
    simp [vector.releasable, hd, h1, h2] at hrel ⊢

/-- Growing `reserve` whose copy loop has completed: what is left is the destructor of the
object that took over the old block. -/
theorem reserve_of_done (E : Elem T ε) (h g : Heap T) (v : vector) (n : Nat)
    (hn : v.capacity_ < n) (hfit : n * E.sizeof < 2 ^ 64)
    (hloop : reserve_loop E v.data_ (some h.length) v.current_size_ 0
      (h ++ [some (List.replicate n none)]) = .done g) :
    vector.reserve E h v n =
      match vector.dtor E g v with
      | some (h3, _) =>
        .ret (h3, { data_ := some h.length, current_size_ := v.current_size_, capacity_ := n })
      | none => .undefined := by
  have hnle : ¬ n ≤ v.capacity := by simp only [vector.capacity]; omega
  simp only [vector.reserve, if_neg hnle, allocate_fits E h n hfit, vector.size, hloop,
    vector.swap, vector.default_ctor]

/-- Growing `reserve` whose copy loop has stopped at a copy that threw does not return. -/
theorem reserve_of_threw (E : Elem T ε) (h g : Heap T) (v : vector) (n pos : Nat)
    (e : Fault ε) (hn : v.capacity_ < n) (hfit : n * E.sizeof < 2 ^ 64)
    (hloop : reserve_loop E v.data_ (some h.length) v.current_size_ 0
      (h ++ [some (List.replicate n none)]) = .threw e g pos) :
    vector.reserve E h v n =
      match reserve_catch E g (some h.length) pos with
      | some h3 => .throw e (h3, v)
      | none => .undefined := by
  have hnle : ¬ n ≤ v.capacity := by simp only [vector.capacity]; omega
  simp only [vector.reserve, if_neg hnle, allocate_fits E h n hfit, vector.size, hloop]

/-- Growing `reserve` on a well-formed vector none of whose elements throws on copy, when the
request fits `size_t` and the old block can be released: the heap and the object it returns. -/
theorem reserve_grow (E : Elem T ε) (h : Heap T) (v : vector) (n : Nat)
    (hwf : v.wf h = true) (hn : v.capacity_ < n) (hfit : n * E.sizeof < 2 ^ 64)
    (hrel : v.releasable E = true)
    (hct : ∀ i x, i < v.current_size_ → v.elem h i = some x → E.copy x = none) :
    ∃ nb : Block T,
      vector.reserve E h v n =
        .ret (h.release v.data_ ++ [some nb],
          { data_ := some h.length, current_size_ := v.current_size_, capacity_ := n }) ∧
      nb.length = n ∧ (∀ i, i < v.current_size_ → nb[i]? = some (v.elem h i)) ∧
      ∀ i, v.current_size_ ≤ i → i < n → nb[i]? = some none := by
  obtain ⟨hsc, hnull, hlive⟩ := (wf_iff h v).1 hwf
  rcases Option.eq_none_or_eq_some v.data_ with hd | ⟨b, hd⟩
  · have hc0 := hnull hd
    have hs0 : v.current_size_ = 0 := by omega
    refine ⟨List.replicate n none, ?_, by simp, fun i hi => by omega,
      fun i _ hin => by simp [List.getElem?_replicate, hin]⟩
    rw [reserve_of_done E h _ v n hn hfit (by rw [hs0]; rfl), dtor_null E _ v hd hs0, hd]
    rfl
  · obtain ⟨blk, hb, hlen, hobj⟩ := hlive b hd
    have hbl : b < h.length := (List.getElem?_eq_some_iff.1 hb).1
    obtain ⟨nb, hrun, hc1, hc2, hc3⟩ := reserve_loop_done E h b blk n hb v.current_size_ 0
      (List.replicate n none) (Copied.init blk n) (by omega) (fun i _ hi => by
        obtain ⟨x, hx⟩ := hobj i (by omega)
        exact ⟨x, hx, hct i x (by omega) (by rw [elem_live h v b blk hd hb, hx]; rfl)⟩)
    rw [Nat.zero_add] at hc2 hc3
    refine ⟨nb, ?_, hc1, fun i hi => ?_, hc3⟩
    · have hb2 : (h ++ [some nb])[b]? = some (some blk) := by
        rw [List.getElem?_append_left hbl]; exact hb
      rw [reserve_of_done E h _ v n hn hfit (by rw [hd]; exact hrun),
        dtor_live E _ v b blk hd hb2 (by omega) (releasable_live E v b hd hrel), hd]
      simp only [Heap.release, set_snoc_old h _ _ b hbl]
    · obtain ⟨x, hx⟩ := hobj i hi
      rw [hc2 i hi, elem_live h v b blk hd hb, hx]; rfl

/-- Growing `reserve` when the copy of the element at index `k` is the first to throw. -/
theorem reserve_throw (E : Elem T ε) (h : Heap T) (v : vector) (n : Nat)
    (hwf : v.wf h = true) (hn : v.capacity_ < n) (hfit : n * E.sizeof < 2 ^ 64)
    (k : Nat) (x : T) (e : ε) (hk : k < v.current_size_) (hint : k % 2 ^ 32 ≠ 2 ^ 31)
    (hct : ∀ i y, i < k → v.elem h i = some y → E.copy y = none)
    (hx : v.elem h k = some x) (hcx : E.copy x = some e) :
    vector.reserve E h v n = .throw (.element e) (h ++ [none], v) := by
  obtain ⟨hsc, hnull, hlive⟩ := (wf_iff h v).1 hwf
  rcases Option.eq_none_or_eq_some v.data_ with hd | ⟨b, hd⟩
  · have := hnull hd; omega
  · obtain ⟨blk, hb, hlen, hobj⟩ := hlive b hd
    have hxk : blk[k]? = some (some x) := by
      obtain ⟨y, hy⟩ := hobj k hk
      rw [elem_live h v b blk hd hb, hy] at hx
      rw [hy]; exact congrArg some hx
    obtain ⟨r, hr⟩ : ∃ r, v.current_size_ = k + 1 + r := ⟨v.current_size_ - (k + 1), by omega⟩
    obtain ⟨nb, hrun, hl⟩ := reserve_loop_threw E h b blk n hb r e k 0
      (List.replicate n none) x (Copied.init blk n) (by omega) (fun i _ hi => by
        obtain ⟨y, hy⟩ := hobj i (by omega)
        exact ⟨y, hy, hct i y (by omega) (by rw [elem_live h v b blk hd hb, hy]; rfl)⟩)
      (by rw [Nat.zero_add]; exact hxk) hcx
    rw [Nat.zero_add] at hrun
    rw [reserve_of_threw E h _ v n k _ hn hfit (by rw [hd, hr]; exact hrun),
      reserve_catch_snoc E h nb k (by omega) hint]

/-- When growing `reserve` returns on a well-formed vector, the old block is released and the
object sits on a new block of the capacity asked for that holds the old elements. -/
theorem reserve_ret_shape (E : Elem T ε) (h h1 : Heap T) (v v1 : vector) (n : Nat)
    (hwf : v.wf h = true) (hn : v.capacity_ < n) (hfit : n * E.sizeof < 2 ^ 64)
    (hrun : vector.reserve E h v n = .ret (h1, v1)) :
    ∃ nb : Block T,
      h1 = h.release v.data_ ++ [some nb] ∧
      v1 = { data_ := some h.length, current_size_ := v.current_size_, capacity_ := n } ∧
      nb.length = n ∧ (∀ i, i < v.current_size_ → nb[i]? = some (v.elem h i)) ∧
      ∀ i, v.current_size_ ≤ i → i < n → nb[i]? = some none := by
  obtain ⟨hsc, hnull, hlive⟩ := (wf_iff h v).1 hwf
  rcases Option.eq_none_or_eq_some v.data_ with hd | ⟨b, hd⟩
  · have hs0 : v.current_size_ = 0 := by have := hnull hd; omega
    obtain ⟨nb, hres, hl, hc, hr⟩ := reserve_grow E h v n hwf hn hfit
      (by simp [vector.releasable, hd]) (fun i x hi _ => by omega)
    rw [hres] at hrun
    simp only [Outcome.ret.injEq, Prod.mk.injEq] at hrun
    exact ⟨nb, hrun.1.symm, hrun.2.symm, hl, hc, hr⟩
  · obtain ⟨blk, hb, hlen, hobj⟩ := hlive b hd
    have hbl : b < h.length := (List.getElem?_eq_some_iff.1 hb).1
    rcases reserve_loop_cases E h b blk n hb v.current_size_ 0 (List.replicate n none)
      (Copied.init blk n) (by omega) (fun i _ hi => hobj i (by omega)) with
      ⟨nb, hloop, hc1, hc2, hc3⟩ | ⟨e, g, p, hloop⟩
    · rw [Nat.zero_add] at hc2 hc3
      have hb2 : (h ++ [some nb])[b]? = some (some blk) := by
        rw [List.getElem?_append_left hbl]; exact hb
      rw [reserve_of_done E h _ v n hn hfit (by rw [hd]; exact hloop)] at hrun
      rcases hrel : (v.data_from_new && E.has_destructor) with _ | _
      · rw [dtor_live E _ v b blk hd hb2 (by omega) hrel] at hrun
        simp only [Outcome.ret.injEq, Prod.mk.injEq] at hrun
        refine ⟨nb, ?_, hrun.2.symm, hc1, fun i hi => ?_, hc3⟩
        · rw [← hrun.1, hd]
          simp only [Heap.release, set_snoc_old h _ _ b hbl]
        · obtain ⟨x, hx⟩ := hobj i hi
          rw [hc2 i hi, elem_live h v b blk hd hb, hx]; rfl
      · simp only [Bool.and_eq_true] at hrel
        rw [dtor_from_new E _ v b hd hrel.1 hrel.2] at hrun
        cases hrun
    · rw [reserve_of_threw E h _ v n p e hn hfit (by rw [hd]; exact hloop)] at hrun
      split at hrun <;> cases hrun

/-! ## Frame properties -/

theorem Heap.frame.refl (g : Heap T) (p : Option Nat) : Heap.frame g g p :=
  ⟨Nat.le_refl _, fun _ _ _ => rfl⟩

theorem Heap.frame.set (g : Heap T) (b : Nat) (c : Option (Block T)) :
    Heap.frame g (g.set b c) (some b) :=
  ⟨by simp, fun q _ hq => List.getElem?_set_ne (fun hbq => hq (by rw [hbq]))⟩

theorem Heap.frame.release_snoc (g : Heap T) (p : Option Nat) (c : Option (Block T)) :
    Heap.frame g (g.release p ++ [c]) p := by
  have hlr : (g.release p).length = g.length := by
    unfold Heap.release; split <;> simp
  refine ⟨by simp [hlr], fun q hq hne => ?_⟩
  rw [List.getElem?_append_left (by omega)]
  rcases p with _ | b
  · rfl
  · exact List.getElem?_set_ne (fun hbq => hne (by rw [hbq]))

theorem Heap.frame.trans_new {g g1 g2 : Heap T} {p : Option Nat} (h1 : Heap.frame g g1 p)
    (h2 : Heap.frame g1 g2 (some g.length)) : Heap.frame g g2 p :=
  ⟨le_trans h1.1 h2.1, fun q hq hne => by
    rw [h2.2 q (lt_of_lt_of_le hq h1.1) (fun he => by cases he; omega), h1.2 q hq hne]⟩

theorem Heap.frame.store (g : Heap T) (p : Ptr) (c : Option T) :
    Heap.frame g (g.store p c) p.base := by
  unfold Heap.store
  split
  · exact Heap.frame.refl g _
  · rename_i b hb
    rw [hb]
    split
    · exact Heap.frame.set g b _
    · exact Heap.frame.refl g _

/-- An argument that can be read, and does not refer into the block a heap change is about, is
read with the same result after the change. -/
theorem read_frame (g g1 : Heap T) (p : Option Nat) (a : Arg T) (x : T)
    (hf : Heap.frame g g1 p) (hr : a.read g = some x) (hne : a.base = none ∨ a.base ≠ p) :
    a.read g1 = some x := by
  cases a with
  | temp y => exact hr
  | slot q =>
    simp only [Arg.read, load, Heap.slot] at hr ⊢
    simp only [Arg.base] at hne
    rcases hq : q.base with _ | b
    · rw [hq] at hr; simp at hr
    · rw [hq] at hr hne
      have hbp : some b ≠ p := by
        rcases hne with hn | hn
        · cases hn
        · exact hn
      rcases hb : g[b]? with _ | _ | blk
      · simp [hb] at hr
      · simp [hb] at hr
      · have hbl : b < g.length := (List.getElem?_eq_some_iff.1 hb).1
        simp only [hb] at hr
        simp only [hf.2 b hbl hbp, hb]
        exact hr

/-! ## The representation invariant -/

theorem wf_live (h : Heap T) (v : vector) (b : Nat) (blk : Block T) (hd : v.data_ = some b)
    (hb : h[b]? = some (some blk)) (hlen : blk.length = v.capacity_)
    (hsc : v.current_size_ ≤ v.capacity_)
    (hobj : ∀ i, i < v.current_size_ → ∃ x, blk[i]? = some (some x)) : v.wf h = true := by
  refine (wf_iff h v).2 ⟨hsc, ?_, ?_⟩
  · intro hn; rw [hd] at hn; cases hn
  · intro c hc
    rw [hd] at hc; cases hc
    exact ⟨blk, hb, hlen, hobj⟩

theorem wf_data_of_pos (h : Heap T) (v : vector) (hwf : v.wf h = true)
    (hpos : 0 < v.capacity_) :
    ∃ b blk, v.data_ = some b ∧ h[b]? = some (some blk) ∧ blk.length = v.capacity_ ∧
      ∀ i, i < v.current_size_ → ∃ x, blk[i]? = some (some x) := by
  obtain ⟨_, hnull, hlive⟩ := (wf_iff h v).1 hwf
  rcases hd : v.data_ with _ | b
  · have := hnull hd; omega
  · obtain ⟨blk, hb, hlen, hobj⟩ := hlive b hd
    exact ⟨b, blk, rfl, hb, hlen, hobj⟩

theorem wf_default_ctor (h : Heap T) : vector.default_ctor.wf h = true := by
  simp [vector.wf, vector.default_ctor]

theorem wf_elem (h : Heap T) (v : vector) (hwf : v.wf h = true) (i : Nat)
    (hi : i < v.current_size_) : ∃ x, v.elem h i = some x := by
  obtain ⟨hsc, _, _⟩ := (wf_iff h v).1 hwf
  obtain ⟨b, blk, hd, hb, _, hobj⟩ := wf_data_of_pos h v hwf (by omega)
  obtain ⟨x, hx⟩ := hobj i hi
  exact ⟨x, by rw [elem_live h v b blk hd hb, hx]; rfl⟩

theorem wf_snoc (h : Heap T) (v : vector) (c : Option (Block T)) (hwf : v.wf h = true) :
    v.wf (h ++ [c]) = true ∧ ∀ i, v.elem (h ++ [c]) i = v.elem h i := by
  obtain ⟨hsc, hnull, hlive⟩ := (wf_iff h v).1 hwf
  rcases hd : v.data_ with _ | b
  · exact ⟨(wf_iff _ _).2 ⟨hsc, hnull, fun b hb => by rw [hd] at hb; cases hb⟩,
      fun i => by simp [vector.elem, load, Heap.slot, hd]⟩
  · obtain ⟨blk, hb, hlen, hobj⟩ := hlive b hd
    have hbl : b < h.length := (List.getElem?_eq_some_iff.1 hb).1
    have hb2 : (h ++ [c])[b]? = some (some blk) := by
      rw [List.getElem?_append_left hbl]; exact hb
    exact ⟨wf_live _ _ b blk hd hb2 hlen hsc hobj,
      fun i => by rw [elem_live _ v b blk hd hb2, elem_live h v b blk hd hb]⟩

/-- A well-formed vector whose block is kept by a heap change is unaffected by it. -/
theorem wf_frame (g g1 : Heap T) (p : Option Nat) (s : vector) (hf : Heap.frame g g1 p)
    (hwf : s.wf g = true) (hne : s.data_ = none ∨ s.data_ ≠ p) :
    s.wf g1 = true ∧ ∀ i, s.elem g1 i = s.elem g i := by
  obtain ⟨hsc, hnull, hlive⟩ := (wf_iff g s).1 hwf
  rcases Option.eq_none_or_eq_some s.data_ with hd | ⟨q, hd⟩
  · exact ⟨(wf_iff _ _).2 ⟨hsc, hnull, fun b hb => by rw [hd] at hb; cases hb⟩,
      fun i => by simp [vector.elem, load, Heap.slot, hd]⟩
  · obtain ⟨blk, hb, hlen, hobj⟩ := hlive q hd
    have hql : q < g.length := (List.getElem?_eq_some_iff.1 hb).1
    have hqp : some q ≠ p := by
      rcases hne with hn | hn
      · rw [hd] at hn; cases hn
      · rw [hd] at hn; exact hn
    have hb1 : g1[q]? = some (some blk) := by rw [hf.2 q hql hqp]; exact hb
    exact ⟨wf_live _ _ q blk hd hb1 hlen hsc hobj,
      fun i => by rw [elem_live g1 s q blk hd hb1, elem_live g s q blk hd hb]⟩

theorem data_ne_new (h : Heap T) (s : vector) (hwf : s.wf h = true) :
    s.data_ = none ∨ s.data_ ≠ some h.length := by
  rcases Option.eq_none_or_eq_some s.data_ with hd | ⟨q, hd⟩
  · exact Or.inl hd
  · obtain ⟨blk, hb, _⟩ := ((wf_iff h s).1 hwf).2.2 q hd
    have hql : q < h.length := (List.getElem?_eq_some_iff.1 hb).1
    exact Or.inr (fun he => by rw [hd] at he; cases he; omega)

/-! ## reserve -/

/-- When growing `reserve` returns on a well-formed vector, the vector is well formed, with the
capacity asked for, the same size and elements, on a block of its own that came from
`allocate`; no block but the old one of the vector has changed. -/
theorem reserve_ret_wf (E : Elem T ε) (h h1 : Heap T) (v v1 : vector) (n : Nat)
    (hwf : v.wf h = true) (hn : v.capacity_ < n) (hfit : n * E.sizeof < 2 ^ 64)
    (hrun : vector.reserve E h v n = .ret (h1, v1)) :
    v1.wf h1 = true ∧ v1.capacity_ = n ∧ v1.current_size_ = v.current_size_ ∧
      (∀ i, i < v.current_size_ → v1.elem h1 i = v.elem h i) ∧
      v1.data_ = some h.length ∧ v1.data_from_new = false ∧ Heap.frame h h1 v.data_ := by
  obtain ⟨nb, rfl, rfl, hlen, hcopy, _⟩ := reserve_ret_shape E h h1 v v1 n hwf hn hfit hrun
  obtain ⟨hsc, _, _⟩ := (wf_iff h v).1 hwf
  have hlr : (h.release v.data_).length = h.length := by
    unfold Heap.release; split <;> simp
  have hb1 : (h.release v.data_ ++ [some nb])[h.length]? = some (some nb) := by
    rw [← hlr]; simp
  refine ⟨wf_live _ _ h.length nb rfl hb1 hlen (by simp only; omega) ?_, rfl, rfl,
    fun i hi => ?_, rfl, rfl, Heap.frame.release_snoc h v.data_ _⟩
  · intro i hi
    obtain ⟨x, hx⟩ := wf_elem h v hwf i hi
    exact ⟨x, by rw [hcopy i hi, hx]⟩
  · rw [elem_live _ _ h.length nb rfl hb1, hcopy i hi]; rfl

/-- Growing `reserve` on a well-formed vector returns when the request fits `size_t`, the old
block can be released and no element throws on copy. -/
theorem reserve_wf (E : Elem T ε) (h : Heap T) (v : vector) (n : Nat)
    (hwf : v.wf h = true) (hn : v.capacity_ < n) (hfit : n * E.sizeof < 2 ^ 64)
    (hrel : v.releasable E = true)
    (hct : ∀ i x, i < v.current_size_ → v.elem h i = some x → E.copy x = none) :
    ∃ h1 v1, vector.reserve E h v n = .ret (h1, v1) ∧ v1.wf h1 = true ∧
      v1.capacity_ = n ∧ v1.current_size_ = v.current_size_ ∧
      (∀ i, i < v.current_size_ → v1.elem h1 i = v.elem h i) ∧
      v1.data_ = some h.length ∧ v1.data_from_new = false ∧ Heap.frame h h1 v.data_ := by
  obtain ⟨nb, hrun, _⟩ := reserve_grow E h v n hwf hn hfit hrel hct
  exact ⟨_, _, hrun, reserve_ret_wf E h _ v _ n hwf hn hfit hrun⟩

/-- Growing `reserve` on an object whose block came from `new T[n]` does not return when the
element type has a destructor. -/
theorem reserve_from_new (E : Elem T ε) (h : Heap T) (v : vector) (n : Nat)
    (hwf : v.wf h = true) (hn : v.capacity_ < n) (hfit : n * E.sizeof < 2 ^ 64)
    (hrel : v.releasable E = false) (s : Heap T × vector) :
    vector.reserve E h v n ≠ .ret s := by
  intro hrun
  obtain ⟨hsc, hnull, hlive⟩ := (wf_iff h v).1 hwf
  rcases Option.eq_none_or_eq_some v.data_ with hd | ⟨b, hd⟩
  · simp [vector.releasable, hd] at hrel
  · obtain ⟨blk, hb, hlen, hobj⟩ := hlive b hd
    have hfl : v.data_from_new = true ∧ E.has_destructor = true := by
      cases h1 : v.data_from_new <;> cases h2 : E.has_destructor <;>
        simp [vector.releasable, hd, h1, h2] at hrel ⊢
    rcases reserve_loop_cases E h b blk n hb v.current_size_ 0 (List.replicate n none)
      (Copied.init blk n) (by omega) (fun i _ hi => hobj i (by omega)) with
      ⟨nb, hloop, _⟩ | ⟨e, g, p, hloop⟩
    · rw [reserve_of_done E h _ v n hn hfit (by rw [hd]; exact hloop),
        dtor_from_new E _ v b hd hfl.1 hfl.2] at hrun
      cases hrun
    · rw [reserve_of_threw E h _ v n p e hn hfit (by rw [hd]; exact hloop)] at hrun
      split at hrun <;> cases hrun

/-! ## push_back and pop_back -/

theorem assign_slot_live (h : Heap T) (b pos : Nat) (blk : Block T) (x : T)
    (hb : h[b]? = some (some blk)) (hpos : pos < blk.length) :
    assign_slot h (some b) pos x = some (h.set b (some (blk.set pos (some x)))) := by
  simp [assign_slot, lvalue, Heap.slot, Heap.store, hb, List.getElem?_eq_getElem hpos]

theorem assign_arg_live (h : Heap T) (b pos : Nat) (blk : Block T) (a : Arg T) (x : T)
    (hb : h[b]? = some (some blk)) (hpos : pos < blk.length) (hread : a.read h = some x) :
    assign_arg h (some b) pos a = some (h.set b (some (blk.set pos (some x)))) := by
  simp only [assign_arg, hread, assign_slot_live h b pos blk x hb hpos]

/-- A store into one slot of a block leaves every other slot as it reads. -/
theorem load_set_other (h : Heap T) (b s : Nat) (blk : Block T) (c : Option T) (p : Ptr)
    (hb : h[b]? = some (some blk)) (hp : p.base = some b → p.off ≠ s) :
    load (h.set b (some (blk.set s c))) p = load h p := by
  simp only [load, Heap.slot]
  rcases hq : p.base with _ | q
  · rfl
  · by_cases hqb : q = b
    · subst hqb
      have hne : s ≠ p.off := fun he => hp hq he.symm
      simp only [list_get_set_same h q _ _ hb, hb, List.getElem?_set_ne hne]
    · simp only [List.getElem?_set_ne (Ne.symm hqb)]

/-- With `size < capacity`, `push_back` stores in place the value its argument holds. -/
theorem push_back_room (E : Elem T ε) (h : Heap T) (v : vector) (a : Arg T) (x : T)
    (hwf : v.wf h = true) (hlt : v.current_size_ < v.capacity_) (hread : a.read h = some x) :
    ∃ b blk, v.data_ = some b ∧ h[b]? = some (some blk) ∧ blk.length = v.capacity_ ∧
      vector.push_back E h v a =
        .ret (h.set b (some (blk.set v.current_size_ (some x))),
          { v with current_size_ := v.current_size_ + 1 }) := by
  obtain ⟨b, blk, hd, hb, hlen, _⟩ := wf_data_of_pos h v hwf (by omega)
  refine ⟨b, blk, hd, hb, hlen, ?_⟩
  have hne : ¬ v.current_size_ = v.capacity_ := by omega
  simp only [vector.push_back, vector.size, vector.capacity, if_neg hne, hd,
    assign_arg_live h b v.current_size_ blk a x hb (by omega) hread]

theorem wf_store_next (h : Heap T) (v : vector) (b : Nat) (blk : Block T) (x : T)
    (hwf : v.wf h = true) (hd : v.data_ = some b) (hb : h[b]? = some (some blk))
    (hlt : v.current_size_ < v.capacity_) :
    vector.wf (h.set b (some (blk.set v.current_size_ (some x))))
      { v with current_size_ := v.current_size_ + 1 } = true := by
  obtain ⟨hsc, _, hlive⟩ := (wf_iff h v).1 hwf
  obtain ⟨blk0, hb0, hlen, hobj⟩ := hlive b hd
  rw [hb] at hb0; cases hb0
  refine wf_live _ _ b _ hd (list_get_set_same _ _ _ _ hb) (by simpa using hlen)
    (by simp only; omega) ?_
  intro i hi
  by_cases hie : i = v.current_size_
  · subst hie; exact ⟨x, by simp [List.getElem?_set, hlen, hlt]⟩
  · rw [List.getElem?_set_ne (Ne.symm hie)]
    exact hobj i (by simp only at hi; omega)

/-- With `size < capacity`, `push_back` stores the value in the next slot of the block and
changes no other slot. -/
theorem push_back_room_spec (E : Elem T ε) (h : Heap T) (v : vector) (a : Arg T) (x : T)
    (hwf : v.wf h = true) (hlt : v.current_size_ < v.capacity_) (hread : a.read h = some x) :
    ∃ h1, vector.push_back E h v a =
        .ret (h1, { v with current_size_ := v.current_size_ + 1 }) ∧
      vector.wf h1 { v with current_size_ := v.current_size_ + 1 } = true ∧
      vector.elem h1 { v with current_size_ := v.current_size_ + 1 } v.current_size_ = some x ∧
      (∀ i, i ≠ v.current_size_ →
        vector.elem h1 { v with current_size_ := v.current_size_ + 1 } i = v.elem h i) ∧
      Heap.frame h h1 v.data_ := by
  obtain ⟨b, blk, hd, hb, hlen, hrun⟩ := push_back_room E h v a x hwf hlt hread
  have hb1 : (h.set b (some (blk.set v.current_size_ (some x))))[b]? =
      some (some (blk.set v.current_size_ (some x))) := list_get_set_same _ _ _ _ hb
  refine ⟨_, hrun, wf_store_next h v b blk x hwf hd hb hlt, ?_, fun i hi => ?_,
    by rw [hd]; exact Heap.frame.set h b _⟩
  · rw [elem_live _ { v with current_size_ := v.current_size_ + 1 } b _ hd hb1]
    have hlt2 : v.current_size_ < blk.length := by omega
    simp [List.getElem?_set, hlt2]
  · rw [elem_live _ { v with current_size_ := v.current_size_ + 1 } b _ hd hb1,
      List.getElem?_set_ne (Ne.symm hi), elem_live h v b blk hd hb]

/-- When twice the capacity is a request that fits `size_t`, `grow` asks `reserve` for 1 on
capacity 0 and for twice the capacity otherwise. -/
theorem grow_eq (E : Elem T ε) (h : Heap T) (v : vector)
    (hfit : v.capacity_ * 2 * E.sizeof < 2 ^ 64) :
    vector.grow E h v = vector.reserve E h v (if v.capacity_ = 0 then 1 else v.capacity_ * 2) ∧
    (if v.capacity_ = 0 then 1 else v.capacity_ * 2) * E.sizeof < 2 ^ 64 := by
  have h2 : v.capacity_ * 2 < 2 ^ 64 :=
    lt_of_le_of_lt (Nat.le_mul_of_pos_right _ E.sizeof_pos) hfit
  constructor
  · simp only [vector.grow, vector.capacity, MULTIPLY_CONST, size_t, Nat.mod_eq_of_lt h2]
    by_cases hc0 : v.capacity_ = 0 <;> simp [hc0]
  · split
    · rw [Nat.one_mul]; exact E.sizeof_lt
    · exact hfit

theorem push_back_after_grow (E : Elem T ε) (g g1 : Heap T) (c c1 : vector) (a : Arg T)
    (heq : c.current_size_ = c.capacity_) (hgrow : vector.grow E g c = .ret (g1, c1))
    (hlt : c1.current_size_ < c1.capacity_) :
    vector.push_back E g c a = vector.push_back E g1 c1 a := by
  have hne : ¬ c1.current_size_ = c1.capacity_ := by omega
  simp only [vector.push_back, vector.size, vector.capacity, if_pos heq, hgrow, if_neg hne]

/-- The call `push_back` on a well-formed vector, with an argument that holds `x`.  When the
vector is full it has to grow: then twice the capacity has to fit `size_t`, the old block has to
be one that can be released, the argument must not refer into it, and no element may throw on
copy.  The call returns, the size goes up by one, the new last element is `x`, earlier elements
stay, the capacity stays, or becomes 1, or doubles, and no block but the one of the vector has
changed. -/
theorem push_back_spec (E : Elem T ε) (h : Heap T) (v : vector) (a : Arg T) (x : T)
    (hwf : v.wf h = true) (hread : a.read h = some x)
    (hgrow : v.current_size_ = v.capacity_ →
      v.capacity_ * 2 * E.sizeof < 2 ^ 64 ∧ v.releasable E = true ∧
      (a.base = none ∨ a.base ≠ v.data_) ∧
      ∀ i y, i < v.current_size_ → v.elem h i = some y → E.copy y = none) :
    ∃ h1 v1, vector.push_back E h v a = .ret (h1, v1) ∧ v1.wf h1 = true ∧
      v1.current_size_ = v.current_size_ + 1 ∧ v1.elem h1 v.current_size_ = some x ∧
      (∀ i, i < v.current_size_ → v1.elem h1 i = v.elem h i) ∧
      v1.capacity_ =
        (if v.current_size_ < v.capacity_ then v.capacity_
         else if v.capacity_ = 0 then 1 else v.capacity_ * 2) ∧
      Heap.frame h h1 v.data_ ∧ (v.releasable E = true → v1.releasable E = true) := by
  by_cases hlt : v.current_size_ < v.capacity_
  · obtain ⟨h1, hrun, hwf1, hx, hrest, hf⟩ := push_back_room_spec E h v a x hwf hlt hread
    exact ⟨h1, _, hrun, hwf1, rfl, hx, fun i hi => hrest i (by omega), by simp [hlt], hf,
      fun hr => hr⟩
  · have hsc : v.current_size_ ≤ v.capacity_ := ((wf_iff h v).1 hwf).1
    have heq : v.current_size_ = v.capacity_ := by omega
    obtain ⟨hfit, hrel, halias, hct⟩ := hgrow heq
    obtain ⟨hgr, hfit2⟩ := grow_eq E h v hfit
    have hn : v.capacity_ < (if v.capacity_ = 0 then 1 else v.capacity_ * 2) := by
      split <;> omega
    obtain ⟨g1, c1, hrun, hwf1, hc1, hs1, hel1, hd1, hfl1, hf1⟩ :=
      reserve_wf E h v _ hwf hn hfit2 hrel hct
    have hgrow1 : vector.grow E h v = .ret (g1, c1) := by rw [hgr]; exact hrun
    have hlt1 : c1.current_size_ < c1.capacity_ := by omega
    have hread1 : a.read g1 = some x := read_frame h g1 v.data_ a x hf1 hread halias
    obtain ⟨h2, hrun2, hwf2, hx, hrest, hf2⟩ :=
      push_back_room_spec E g1 c1 a x hwf1 hlt1 hread1
    rw [hd1] at hf2
    refine ⟨h2, _, ?_, hwf2, by simp only [hs1], by rw [← hs1]; exact hx, fun i hi => ?_,
      by simp only [if_neg hlt, hc1], hf1.trans_new hf2, fun _ => ?_⟩
    · rw [push_back_after_grow E h g1 v c1 a heq hgrow1 hlt1, hrun2]
    · rw [hrest i (by omega), hel1 i hi]
    · simp [vector.releasable, hfl1]

theorem pop_back_nonempty (h : Heap T) (v : vector) (hs : v.current_size_ ≠ 0) :
    (vector.pop_back h v : Outcome ε (Heap T × vector)) =
      .ret (h, { v with current_size_ := v.current_size_ - 1 }) := by
  simp [vector.pop_back, vector.size, hs]

/-- A full vector whose argument refers into its own block: `grow` releases the block, and the
assignment after it reads a slot of a released block. -/
theorem push_back_alias (E : Elem T ε) (h : Heap T) (v : vector) (p : Ptr)
    (hwf : v.wf h = true) (heq : v.current_size_ = v.capacity_) (hpos : 0 < v.capacity_)
    (hfit : v.capacity_ * 2 * E.sizeof < 2 ^ 64) (hp : p.base = v.data_)
    (s : Heap T × vector) : vector.push_back E h v (.slot p) ≠ .ret s := by
  intro hrun
  obtain ⟨b, blk, hd, hb, hlen, _⟩ := wf_data_of_pos h v hwf hpos
  have hbl : b < h.length := (List.getElem?_eq_some_iff.1 hb).1
  obtain ⟨hgr, hfit2⟩ := grow_eq E h v hfit
  have hn : v.capacity_ < (if v.capacity_ = 0 then 1 else v.capacity_ * 2) := by
    split <;> omega
  simp only [vector.push_back, vector.size, vector.capacity, if_pos heq, hgr] at hrun
  rcases hres : vector.reserve E h v (if v.capacity_ = 0 then 1 else v.capacity_ * 2) with
    ⟨g1, c1⟩ | ⟨e, g1, c1⟩ | _ | _
  · obtain ⟨nb, rfl, rfl, _⟩ := reserve_ret_shape E h g1 v c1 _ hwf hn hfit2 hres
    rw [hres] at hrun
    have hload : load (h.release v.data_ ++ [some nb]) p = none := by
      simp only [load, Heap.slot, hp, hd, Heap.release]
      rw [List.getElem?_append_left (by simpa using hbl)]
      simp [hbl]
    simp only [assign_arg, Arg.read, hload] at hrun
    cases hrun
  · rw [hres] at hrun; cases hrun
  · rw [hres] at hrun; cases hrun
  · rw [hres] at hrun; cases hrun

theorem Models.default_ctor (h : Heap T) : Models h vector.default_ctor [] :=
  ⟨wf_default_ctor h, rfl, fun i hi => by simp at hi⟩

theorem Models.drop_last {h : Heap T} {v : vector} {xs : List T} (hm : Models h v xs) :
    Models h { v with current_size_ := v.current_size_ - 1 } xs.dropLast := by
  obtain ⟨hwf, hsz, hel⟩ := hm
  obtain ⟨hsc, hnull, hlive⟩ := (wf_iff h v).1 hwf
  refine ⟨(wf_iff _ _).2 ⟨by simp only; omega, hnull, fun b hd => ?_⟩,
    by simp [hsz], fun i hi => ?_⟩
  · obtain ⟨blk, hb, hlen, hobj⟩ := hlive b hd
    exact ⟨blk, hb, hlen, fun i hi => hobj i (by simp only at hi; omega)⟩
  · have hi1 : i < xs.length - 1 := by simpa using hi
    rw [List.getElem?_dropLast, if_pos hi1]
    exact hel i (by omega)

theorem Models.elem_mem {h : Heap T} {v : vector} {xs : List T} (hm : Models h v xs)
    {i : Nat} {x : T} (hi : i < v.current_size_) (hx : v.elem h i = some x) : x ∈ xs := by
  obtain ⟨_, hsz, hel⟩ := hm
  rw [hel i (by omega)] at hx
  exact List.getElem?_mem hx

/-- One `push_back` of a value on a vector that holds `xs`: it holds `xs ++ [x]` afterwards. -/
theorem Models.push_back {h : Heap T} {v : vector} {xs : List T} (hm : Models h v xs)
    (E : Elem T ε) (x : T) (hfit : xs.length * 2 * E.sizeof < 2 ^ 64)
    (hrel : v.releasable E = true) (hct : ∀ y, y ∈ xs → E.copy y = none) :
    ∃ h1 v1, vector.push_back E h v (.temp x) = .ret (h1, v1) ∧ Models h1 v1 (xs ++ [x]) ∧
      v1.releasable E = true := by
  obtain ⟨h1, v1, hrun, hwf1, hs1, hx1, hel1, _, _, hrel1⟩ :=
    push_back_spec E h v (.temp x) x hm.1 rfl (fun heq =>
      ⟨by rw [← heq, hm.2.1]; exact hfit, hrel, Or.inl rfl,
        fun i y hi hy => hct y (hm.elem_mem hi hy)⟩)
  refine ⟨h1, v1, hrun, ⟨hwf1, by simp [hs1, hm.2.1], fun i hi => ?_⟩, hrel1 hrel⟩
  by_cases hil : i < xs.length
  · rw [hel1 i (by rw [hm.2.1]; exact hil), hm.2.2 i hil, List.getElem?_append_left hil]
  · have hie : i = xs.length := by simp at hi; omega
    subst hie
    rw [← hm.2.1, hx1, hm.2.1]
    simp

theorem interp_length (ops : List (Op T)) :
    ∀ (xs ys : List T), Op.interp xs ops = some ys →
      ys.length + Op.pops ops = xs.length + Op.pushes ops := by
  induction ops with
  | nil => intro xs ys hi; simp only [Op.interp, Option.some.injEq] at hi; subst hi; rfl
  | cons op ops ih =>
    intro xs ys hi
    cases op with
    | push_back x =>
      have := ih _ _ hi
      simp only [List.length_append, List.length_singleton] at this
      simp only [Op.pops, Op.pushes]; omega
    | pop_back =>
      simp only [Op.interp] at hi
      split at hi
      · cases hi
      · rename_i hne
        have := ih _ _ hi
        have hpos : 0 < xs.length := by
          rcases xs with _ | ⟨a, t⟩
          · simp at hne
          · simp
        simp only [List.length_dropLast] at this
        simp only [Op.pops, Op.pushes]; omega

theorem fits_mono (a b s : Nat) (hab : a ≤ b) (h : b * 2 * s < 2 ^ 64) :
    a * 2 * s < 2 ^ 64 :=
  lt_of_le_of_lt (Nat.mul_le_mul_right s (Nat.mul_le_mul_right 2 hab)) h

/-- Runs of `push_back` and `pop_back` whose arguments are values of their own follow the list
reading of the calls, as long as twice the largest size fits `size_t` and no copy throws. -/
theorem run_models (E : Elem T ε) (ops : List (Op T)) :
    ∀ (h : Heap T) (v : vector) (xs ys : List T), Models h v xs → v.releasable E = true →
      Op.interp xs ops = some ys → (∀ y, y ∈ xs → E.copy y = none) →
      (∀ y, Op.push_back y ∈ ops → E.copy y = none) →
      (xs.length + Op.pushes ops) * 2 * E.sizeof < 2 ^ 64 →
      ∃ h1 v1, vector.run E h v ops = .ret (h1, v1) ∧ Models h1 v1 ys := by
  induction ops with
  | nil =>
    intro h v xs ys hm _ hi _ _ _
    simp only [Op.interp, Option.some.injEq] at hi; subst hi
    exact ⟨h, v, rfl, hm⟩
  | cons op ops ih =>
    intro h v xs ys hm hrel hi hxs hops hfit
    cases op with
    | push_back x =>
      obtain ⟨h1, v1, hrun, hm1, hrel1⟩ := hm.push_back E x
        (fits_mono _ _ _ (Nat.le_add_right _ _) hfit) hrel hxs
      have hx : E.copy x = none := hops x (List.mem_cons_self _ _)
      obtain ⟨h2, v2, hrun2, hm2⟩ := ih h1 v1 _ ys hm1 hrel1 hi
        (fun y hy => by
          rcases List.mem_append.1 hy with hy | hy
          · exact hxs y hy
          · rw [List.mem_singleton.1 hy]; exact hx)
        (fun y hy => hops y (List.mem_cons_of_mem _ hy))
        (by
          simp only [Op.pushes, List.length_append, List.length_singleton] at hfit ⊢
          rw [show xs.length + 1 + Op.pushes ops = xs.length + (Op.pushes ops + 1) by omega]
          exact hfit)
      exact ⟨h2, v2, by simp only [vector.run, vector.call, hrun, hrun2], hm2⟩
    | pop_back =>
      simp only [Op.interp] at hi
      split at hi
      · cases hi
      · rename_i hne
        have hs : v.current_size_ ≠ 0 := by
          rw [hm.2.1]
          rcases xs with _ | ⟨a, t⟩
          · simp at hne
          · simp
        obtain ⟨h2, v2, hrun2, hm2⟩ := ih h _ _ ys hm.drop_last hrel hi
          (fun y hy => hxs y (List.mem_of_mem_dropLast hy))
          (fun y hy => hops y (List.mem_cons_of_mem _ hy))
          (fits_mono _ _ _ (by simp only [Op.pushes, List.length_dropLast]; omega) hfit)
        exact ⟨h2, v2, by simp only [vector.run, vector.call, pop_back_nonempty h v hs, hrun2],
          hm2⟩

theorem Models.at_eq {h : Heap T} {v : vector} {xs : List T} (hm : Models h v xs) (i : Nat)
    (hi : i < xs.length) :
    (vector.at h v i : Access ε) = .ref ⟨v.data_, i⟩ ∧
    (vector.at_const h v i : Access ε) = .ref ⟨v.data_, i⟩ ∧
    load h ⟨v.data_, i⟩ = xs[i]? := by
  obtain ⟨hwf, hsz, hel⟩ := hm
  have hl : load h ⟨v.data_, i⟩ = xs[i]? := hel i hi
  have hle : i ≤ v.current_size_ := by omega
  have hlv : lvalue h v.data_ i = some ⟨v.data_, i⟩ := by
    rw [List.getElem?_eq_getElem hi] at hl
    unfold load at hl
    unfold lvalue
    split at hl <;> simp_all
  simp only [vector.at, vector.at_const, if_pos hle, hlv, hl, and_self]

/-- A sequence of `push_back` and `pop_back` calls on a default-constructed vector, with
arguments that are values of their own, in which `pop_back` never meets an empty vector, no
pushed value throws on copy and twice the number of pushes fits `size_t`: the run returns, the
final size is the number of pushes minus the number of pops, and `at(i)` below the size refers
to the `i`-th element of the list the calls describe. -/
theorem push_pop_sequence_of_values (E : Elem T ε) (h : Heap T) (ops : List (Op T))
    (xs : List T) (hvalid : Op.interp [] ops = some xs)
    (hct : ∀ x, Op.push_back x ∈ ops → E.copy x = none)
    (hfit : Op.pushes ops * 2 * E.sizeof < 2 ^ 64) :
    ∃ h1 v1, vector.run E h vector.default_ctor ops = .ret (h1, v1) ∧
      v1.size = Op.pushes ops - Op.pops ops ∧ v1.size = xs.length ∧
      ∀ i (hi : i < xs.length),
        (vector.at h1 v1 i : Access ε) = .ref ⟨v1.data_, i⟩ ∧
        (vector.at_const h1 v1 i : Access ε) = .ref ⟨v1.data_, i⟩ ∧
        load h1 ⟨v1.data_, i⟩ = some xs[i] := by
  obtain ⟨h1, v1, hrun, hm⟩ := run_models E ops h vector.default_ctor [] xs
    (Models.default_ctor h) rfl hvalid (fun y hy => by simp at hy) hct
    (by simpa using hfit)
  have hlen := interp_length ops [] xs hvalid
  simp only [List.length_nil, Nat.zero_add] at hlen
  refine ⟨h1, v1, hrun, by simp only [vector.size, hm.2.1]; omega, hm.2.1, fun i hi => ?_⟩
  obtain ⟨h1a, h2a, h3a⟩ := hm.at_eq (ε := ε) i hi
  exact ⟨h1a, h2a, by rw [h3a, List.getElem?_eq_getElem hi]⟩

/-! ## assign -/

/-- A store of the value an argument holds leaves the argument holding that value. -/
theorem read_store_same (h : Heap T) (b pos : Nat) (blk : Block T) (a : Arg T) (x : T)
    (hb : h[b]? = some (some blk)) (hread : a.read h = some x) :
    a.read (h.set b (some (blk.set pos (some x)))) = some x := by
  cases a with
  | temp y => exact hread
  | slot p =>
    show load _ p = some x
    have hl : load h p = some x := hread
    by_cases hsame : p.base = some b ∧ p.off = pos
    · obtain ⟨hpb, hpo⟩ := hsame
      simp only [load, Heap.slot, hpb, hb] at hl
      have hlt : p.off < blk.length := by
        by_contra hge
        rw [List.getElem?_eq_none (by omega)] at hl
        cases hl
      simp only [load, Heap.slot, hpb, list_get_set_same h b _ _ hb, ← hpo,
        List.getElem?_set, hlt]
      simp
    · rw [load_set_other h b pos blk (some x) p hb (fun hpb hpo => hsame ⟨hpb, hpo⟩)]
      exact hl

theorem assign_up_live (b : Nat) (a : Arg T) (x : T) :
    ∀ (n pos : Nat) (g : Heap T) (blk : Block T), g[b]? = some (some blk) →
      pos + n ≤ blk.length → a.read g = some x →
      ∃ blk1, assign_up (some b) a n pos g = some (g.set b (some blk1)) ∧
        blk1.length = blk.length ∧
        (∀ i, pos ≤ i → i < pos + n → blk1[i]? = some (some x)) ∧
        ∀ i, i < pos ∨ pos + n ≤ i → blk1[i]? = blk[i]? := by
  intro n
  induction n with
  | zero =>
    intro pos g blk hb _ _
    exact ⟨blk, by simp [assign_up, list_set_same g b _ hb], rfl, fun i h1 h2 => by omega,
      fun _ _ => rfl⟩
  | succ n ih =>
    intro pos g blk hb hle hread
    obtain ⟨blk1, hrun, hl, hval, hrest⟩ := ih (pos + 1) (g.set b (some (blk.set pos (some x))))
      (blk.set pos (some x)) (list_get_set_same g b _ _ hb) (by simp; omega)
      (read_store_same g b pos blk a x hb hread)
    refine ⟨blk1, ?_, by simpa using hl, fun i h1 h2 => ?_, fun i hi => ?_⟩
    · simp only [assign_up, assign_arg_live g b pos blk a x hb (by omega) hread, hrun,
        List.set_set]
    · by_cases hip : i = pos
      · subst hip
        rw [hrest i (Or.inl (by omega))]
        simp [List.getElem?_set]; omega
      · exact hval i (by omega) (by omega)
    · rw [hrest i (by omega), List.getElem?_set_ne (by omega)]

/-- The fill loop of `assign` within the capacity. -/
theorem assign_in_place (h : Heap T) (v : vector) (count : Nat) (a : Arg T) (x : T)
    (hwf : v.wf h = true) (hle : count ≤ v.capacity_) (hread : a.read h = some x) :
    ∃ h1, assign_up v.data_ a count 0 h = some h1 ∧
      vector.wf h1 { v with current_size_ := count } = true ∧
      (∀ i, i < count → vector.elem h1 { v with current_size_ := count } i = some x) ∧
      Heap.frame h h1 v.data_ := by
  obtain ⟨hsc, hnull, hlive⟩ := (wf_iff h v).1 hwf
  rcases Option.eq_none_or_eq_some v.data_ with hd | ⟨b, hd⟩
  · have hc0 : count = 0 := by have := hnull hd; omega
    subst hc0
    refine ⟨h, by rw [hd]; rfl, (wf_iff _ _).2 ⟨Nat.zero_le _, hnull, fun b hb => ?_⟩,
      fun i hi => by omega, Heap.frame.refl h _⟩
    rw [show ({ v with current_size_ := 0 } : vector).data_ = v.data_ from rfl, hd] at hb
    cases hb
  · obtain ⟨blk, hb, hlen, _⟩ := hlive b hd
    obtain ⟨blk1, hrun, hl, hval, _⟩ := assign_up_live b a x count 0 h blk hb (by omega)
      hread
    have hb1 : (h.set b (some blk1))[b]? = some (some blk1) := list_get_set_same h b _ _ hb
    have hrun2 : assign_up v.data_ a count 0 h = some (h.set b (some blk1)) := by
      rw [hd]; exact hrun
    refine ⟨_, hrun2, wf_live _ _ b blk1 hd hb1 (by rw [hl]; exact hlen) hle
      (fun i hi => ⟨x, hval i (Nat.zero_le _) (by simpa using hi)⟩), fun i hi => ?_,
      by rw [hd]; exact Heap.frame.set h b _⟩
    rw [elem_live _ { v with current_size_ := count } b blk1 hd hb1,
      hval i (Nat.zero_le _) (by simpa using hi)]
    rfl

/-- The call `assign(count, value)` on a well-formed vector, with an argument that holds `x`.
When `count` exceeds the capacity the vector has to grow: then the request has to fit `size_t`,
the old block has to be one that can be released, the argument must not refer into it, and no
element may throw on copy.  The call returns with size `count`, `x` at every index below
`count`, and capacity `count` if that exceeded the old capacity, the old capacity otherwise. -/
theorem assign_spec (E : Elem T ε) (h : Heap T) (v : vector) (count : Nat) (a : Arg T) (x : T)
    (hwf : v.wf h = true) (hread : a.read h = some x)
    (hgrow : v.capacity_ < count →
      count * E.sizeof < 2 ^ 64 ∧ v.releasable E = true ∧
      (a.base = none ∨ a.base ≠ v.data_) ∧
      ∀ i y, i < v.current_size_ → v.elem h i = some y → E.copy y = none) :
    ∃ h1 v1, vector.assign E h v count a = .ret (h1, v1) ∧ v1.wf h1 = true ∧
      v1.current_size_ = count ∧ (∀ i, i < count → v1.elem h1 i = some x) ∧
      v1.capacity_ = (if v.capacity_ < count then count else v.capacity_) ∧
      Heap.frame h h1 v.data_ := by
  by_cases hle : count ≤ v.capacity
  · obtain ⟨h1, hrun, hwf1, hel, hf⟩ := assign_in_place h v count a x hwf hle hread
    refine ⟨h1, _, ?_, hwf1, rfl, hel, ?_, hf⟩
    · simp only [vector.assign, if_pos hle, hrun]
    · rw [if_neg (by simp only [vector.capacity] at hle; omega)]
  · have hlt : v.capacity_ < count := by simp only [vector.capacity] at hle; omega
    obtain ⟨hfit, hrel, halias, hct⟩ := hgrow hlt
    obtain ⟨h1, v1, hres, hwf1, hc1, _, _, hd1, _, hf1⟩ :=
      reserve_wf E h v count hwf hlt hfit hrel hct
    have hread1 : a.read h1 = some x := read_frame h h1 v.data_ a x hf1 hread halias
    obtain ⟨h2, hrun, hwf2, hel, hf2⟩ := assign_in_place h1 v1 count a x hwf1 (by omega) hread1
    rw [hd1] at hf2
    refine ⟨h2, _, ?_, hwf2, rfl, hel, ?_, hf1.trans_new hf2⟩
    · simp only [vector.assign, if_neg hle, hres, hrun]
    · rw [if_pos hlt]; exact hc1

/-- A growing `assign` whose argument refers into the block of the vector: `reserve` releases
the block, and the fill loop after it reads a slot of a released block. -/
theorem assign_alias (E : Elem T ε) (h : Heap T) (v : vector) (count : Nat) (p : Ptr) (b : Nat)
    (hwf : v.wf h = true) (hlt : v.capacity_ < count) (hfit : count * E.sizeof < 2 ^ 64)
    (hd : v.data_ = some b) (hp : p.base = v.data_) (s : Heap T × vector) :
    vector.assign E h v count (.slot p) ≠ .ret s := by
  intro hrun
  obtain ⟨blk, hb, _⟩ := ((wf_iff h v).1 hwf).2.2 b hd
  have hbl : b < h.length := (List.getElem?_eq_some_iff.1 hb).1
  have hle : ¬ count ≤ v.capacity := by simp only [vector.capacity]; omega
  simp only [vector.assign, if_neg hle] at hrun
  rcases hres : vector.reserve E h v count with ⟨g1, c1⟩ | ⟨e, g1, c1⟩ | _ | _
  · obtain ⟨nb, rfl, rfl, _⟩ := reserve_ret_shape E h g1 v c1 _ hwf hlt hfit hres
    rw [hres] at hrun
    have hload : load (h.release v.data_ ++ [some nb]) p = none := by
      simp only [load, Heap.slot, hp, hd, Heap.release]
      rw [List.getElem?_append_left (by simpa using hbl)]
      simp [hbl]
    obtain ⟨m, hm⟩ : ∃ m, count = m + 1 := ⟨count - 1, by omega⟩
    simp only [hm, assign_up, assign_arg, Arg.read, hload] at hrun
    cases hrun
  · rw [hres] at hrun; cases hrun
  · rw [hres] at hrun; cases hrun
  · rw [hres] at hrun; cases hrun

/-! ## shrink_to_fit -/

/-- The loop of `shrink_to_fit` with `size > 0` is still running after any number of
iterations: `pos` stays 0. -/
theorem shrink_to_fit_loop_stuck (E : Elem T ε) (h : Heap T) (b : Nat) (blk : Block T)
    (x : T) (size : Nat) (hb : h[b]? = some (some blk)) (hx : blk[0]? = some (some x))
    (hcx : E.copy x = none) (hs : 0 < size) :
    ∀ (fuel : Nat) (nb : Block T), 0 < nb.length →
      shrink_to_fit_loop E (some b) (some h.length) size fuel 0 (h ++ [some nb]) =
        .timeout := by
  intro fuel
  induction fuel with
  | zero => intro nb _; simp only [shrink_to_fit_loop, if_pos hs]
  | succ fuel ih =>
    intro nb hnb
    have hstep := copy_element_snoc E h b blk nb 0 x hb hx hnb
    rw [hcx] at hstep
    simp only [shrink_to_fit_loop, if_pos hs, hstep]
    exact ih _ (by simpa using hnb)

/-- On a well-formed vector with `0 < size < capacity` whose first element does not throw on
copy, `shrink_to_fit` does not return within any number of iterations. -/
theorem shrink_to_fit_timeout (E : Elem T ε) (fuel : Nat) (h : Heap T) (v : vector)
    (hwf : v.wf h = true) (hs : 0 < v.current_size_) (hne : v.current_size_ < v.capacity_)
    (hfit : v.current_size_ * E.sizeof < 2 ^ 64)
    (hct : ∀ x, v.elem h 0 = some x → E.copy x = none) :
    vector.shrink_to_fit E fuel h v = .timeout := by
  obtain ⟨b, blk, hd, hb, _, hobj⟩ := wf_data_of_pos h v hwf (by omega)
  obtain ⟨x, hx⟩ := hobj 0 hs
  have hcx : E.copy x = none := hct x (by rw [elem_live h v b blk hd hb, hx]; rfl)
  have hneq : ¬ v.capacity_ = v.current_size_ := by omega
  have hloop := shrink_to_fit_loop_stuck E h b blk x v.current_size_ hb hx hcx hs fuel
    (List.replicate v.current_size_ none) (by simpa using hs)
  simp only [vector.shrink_to_fit, vector.capacity, vector.size, if_neg hneq,
    allocate_fits E h _ hfit, hd, hloop]

/-- On a well-formed vector with size 0 and capacity above 0, `shrink_to_fit` returns with the
capacity it had, over a new block of no slots. -/
theorem shrink_to_fit_empty (E : Elem T ε) (fuel : Nat) (h : Heap T) (v : vector)
    (hwf : v.wf h = true) (hs : v.current_size_ = 0) (hc : 0 < v.capacity_)
    (hrel : v.releasable E = true) :
    vector.shrink_to_fit E fuel h v =
      .ret (h.release v.data_ ++ [some []],
        { data_ := some h.length, current_size_ := 0, capacity_ := v.capacity_ }) := by
  obtain ⟨b, blk, hd, hb, hlen, _⟩ := wf_data_of_pos h v hwf hc
  have hbl : b < h.length := (List.getElem?_eq_some_iff.1 hb).1
  have hneq : ¬ v.capacity_ = v.current_size_ := by omega
  have hloop : ∀ g : Heap T, shrink_to_fit_loop E (some b) (some h.length) 0 fuel 0 g =
      .done g := by
    intro g; cases fuel <;> simp [shrink_to_fit_loop]
  have hb2 : (h ++ [some ([] : Block T)])[b]? = some (some blk) := by
    rw [List.getElem?_append_left hbl]; exact hb
  have hdt := dtor_live E (h ++ [some ([] : Block T)])
    { data_ := some b, current_size_ := 0, capacity_ := v.capacity_,
      data_from_new := v.data_from_new } b blk rfl hb2
    (Nat.zero_le _) (releasable_live E v b hd hrel)
  have hc0 : ¬ v.capacity_ = 0 := by omega
  have hfit : 0 * E.sizeof < 2 ^ 64 := by rw [Nat.zero_mul]; exact Nat.two_pow_pos 64
  simp only [vector.shrink_to_fit, vector.capacity, vector.size, hd, hs, if_neg hc0,
    allocate_fits E h 0 hfit, List.replicate_zero, hloop, vector.swap, vector.default_ctor,
    hdt, Heap.release, set_snoc_old h _ _ b hbl]

/-! ## at -/

/-- For `pos < size()` on a well-formed vector, `at(pos)` refers to slot `pos`, which holds an
element. -/
theorem at_in_range (h : Heap T) (v : vector) (hwf : v.wf h = true) (pos : Nat)
    (hpos : pos < v.current_size_) :
    (vector.at h v pos : Access ε) = .ref ⟨v.data_, pos⟩ ∧
    (vector.at_const h v pos : Access ε) = .ref ⟨v.data_, pos⟩ ∧
    ∃ x, load h ⟨v.data_, pos⟩ = some x := by
  obtain ⟨x, hx⟩ := wf_elem h v hwf pos hpos
  have hl : load h ⟨v.data_, pos⟩ = some x := hx
  have hlv : lvalue h v.data_ pos = some ⟨v.data_, pos⟩ := by
    unfold load at hl
    unfold lvalue
    split at hl <;> simp_all
  have hle : pos ≤ v.current_size_ := by omega
  exact ⟨by simp only [vector.at, if_pos hle, hlv], by simp only [vector.at_const, if_pos hle, hlv],
    x, hl⟩

/-- For `pos > size()`, `at(pos)` throws `std::out_of_range`. -/
theorem at_beyond (h : Heap T) (v : vector) (pos : Nat) (hpos : v.current_size_ < pos) :
    (vector.at h v pos : Access ε) = .throw .out_of_range ∧
    (vector.at_const h v pos : Access ε) = .throw .out_of_range := by
  have hle : ¬ pos ≤ v.current_size_ := by omega
  exact ⟨by simp only [vector.at, if_neg hle], by simp only [vector.at_const, if_neg hle]⟩

/-! ## resize -/

theorem construct_snoc (E : Elem T ε) (g : Heap T) (nb : Block T) (pos : Nat) (a : Arg T)
    (x : T) (hpos : pos < nb.length) (hread : a.read (g ++ [some nb]) = some x)
    (hct : E.copy x = none) :
    construct E (g ++ [some nb]) ⟨some g.length, pos⟩ a =
      .ret (g ++ [some (nb.set pos (some x))]) := by
  have h1 : Heap.slot (g ++ [some nb]) ⟨some g.length, pos⟩ = some nb[pos] := by
    rw [slot_snoc_new, List.getElem?_eq_getElem hpos]
  simp only [construct, Ptr.is_null, h1, hread, hct, store_snoc_new]
  simp

theorem construct_up_done (E : Elem T ε) (g : Heap T) (a : Arg T) (x : T)
    (hct : E.copy x = none) :
    ∀ (n pos : Nat) (nb : Block T), pos + n ≤ nb.length → a.read (g ++ [some nb]) = some x →
      ∃ nb1, construct_up E (some g.length) a n pos (g ++ [some nb]) =
          .ret (g ++ [some nb1]) ∧ nb1.length = nb.length ∧
        (∀ i, pos ≤ i → i < pos + n → nb1[i]? = some (some x)) ∧
        ∀ i, i < pos ∨ pos + n ≤ i → nb1[i]? = nb[i]? := by
  intro n
  induction n with
  | zero =>
    intro pos nb _ _
    exact ⟨nb, rfl, rfl, fun i h1 h2 => by omega, fun _ _ => rfl⟩
  | succ n ih =>
    intro pos nb hle hread
    have hnew : (g ++ [some nb])[g.length]? = some (some nb) := by simp
    have hread1 : a.read (g ++ [some (nb.set pos (some x))]) = some x := by
      have := read_store_same (g ++ [some nb]) g.length pos nb a x hnew hread
      simpa using this
    obtain ⟨nb1, hrun, hl, hval, hrest⟩ := ih (pos + 1) (nb.set pos (some x))
      (by simp; omega) hread1
    refine ⟨nb1, ?_, by simpa using hl, fun i h1 h2 => ?_, fun i hi => ?_⟩
    · simp only [construct_up, construct_snoc E g nb pos a x (by omega) hread hct, hrun]
    · by_cases hip : i = pos
      · subst hip
        rw [hrest i (Or.inl (by omega))]
        simp [List.getElem?_set]; omega
      · exact hval i (by omega) (by omega)
    · rw [hrest i (by omega), List.getElem?_set_ne (by omega)]

theorem Heap.frame.release (g : Heap T) (p : Option Nat) : Heap.frame g (g.release p) p := by
  rcases p with _ | b
  · exact Heap.frame.refl g _
  · exact Heap.frame.set g b none

/-- The tear-down loop of `resize` on a block it stays within, or for an element type without a
destructor: it completes, and releasing the block after it leaves the heap with that block
released. -/
theorem resize_teardown (E : Elem T ε) (h : Heap T) (v : vector) (count : Nat)
    (hwf : v.wf h = true) (hrel : v.releasable E = true)
    (hdes : E.has_destructor = false ∨ count ≤ v.capacity_ ∨ (v.data_ = none ∧ count ≤ 1)) :
    ∃ h1, destroy_up E v.data_ count 0 h = some h1 ∧
      deallocate E h1 v.data_ v.data_from_new = some (h.release v.data_) := by
  obtain ⟨hsc, hnull, hlive⟩ := (wf_iff h v).1 hwf
  rcases Option.eq_none_or_eq_some v.data_ with hd | ⟨b, hd⟩
  · refine ⟨h, ?_, by rw [hd]; rfl⟩
    rcases hdes with hE | hle | ⟨_, hle⟩
    · exact destroy_up_trivial E _ hE count 0 h
    · have hc0 : count = 0 := by have := hnull hd; omega
      subst hc0; rfl
    · rcases Nat.le_one_iff_eq_zero_or_eq_one.1 hle with h0 | h1
      · subst h0; rfl
      · subst h1; rw [hd]; rfl
  · obtain ⟨blk, hb, hlen, _⟩ := hlive b hd
    have hr := releasable_live E v b hd hrel
    rcases hdes with hE | hle | ⟨hn, _⟩
    · exact ⟨h, destroy_up_trivial E _ hE count 0 h, by
        rw [hd, deallocate_live E h b blk _ hb hr]; rfl⟩
    · obtain ⟨blk1, hdes1, _⟩ := destroy_up_live E b count 0 h blk hb (by omega)
      have hb1 : (h.set b (some blk1))[b]? = some (some blk1) := list_get_set_same _ _ _ _ hb
      exact ⟨_, by rw [hd]; exact hdes1, by
        rw [hd, deallocate_live E _ b blk1 _ hb1 hr, List.set_set]; rfl⟩
    · rw [hd] at hn; cases hn

/-- The call `resize(count, value)` on a well-formed vector, with an argument that holds `x`,
when the request fits `size_t`, the old block is one that can be released, the argument does not
refer into it, the tear-down loop stays within the old block or the element type has no
destructor, and `x` does not throw on copy: it returns with size and capacity `count` and
`count` copies of `x`, on a block of its own. -/
theorem resize_spec (E : Elem T ε) (h : Heap T) (v : vector) (count : Nat) (a : Arg T) (x : T)
    (hwf : v.wf h = true) (hfit : count * E.sizeof < 2 ^ 64) (hrel : v.releasable E = true)
    (hdes : E.has_destructor = false ∨ count ≤ v.capacity_ ∨ (v.data_ = none ∧ count ≤ 1))
    (hread : a.read h = some x) (halias : a.base = none ∨ a.base ≠ v.data_)
    (hct : 0 < count → E.copy x = none) :
    ∃ nb : Block T,
      vector.resize E h v count a =
        .ret (h.release v.data_ ++ [some nb],
          { data_ := some h.length, current_size_ := count, capacity_ := count }) ∧
      nb.length = count ∧ ∀ i, i < count → nb[i]? = some (some x) := by
  obtain ⟨h1, hdes1, hdea⟩ := resize_teardown E h v count hwf hrel hdes
  have hlr : (h.release v.data_).length = h.length := by
    unfold Heap.release; split <;> simp
  have hread2 : a.read (h.release v.data_ ++ [some (List.replicate count none)]) = some x :=
    read_frame h _ v.data_ a x (Heap.frame.release_snoc h v.data_ _) hread halias
  have hcons : ∃ nb : Block T, construct_up E (some h.length) a count 0
        (h.release v.data_ ++ [some (List.replicate count none)]) =
          .ret (h.release v.data_ ++ [some nb]) ∧
        nb.length = count ∧ ∀ i, i < count → nb[i]? = some (some x) := by
    rcases Nat.eq_zero_or_pos count with h0 | hpos
    · subst h0
      exact ⟨[], rfl, rfl, fun i hi => by omega⟩
    · obtain ⟨nb1, hrun, hl, hval, _⟩ := construct_up_done E (h.release v.data_) a x
        (hct hpos) count 0 (List.replicate count none) (by simp) hread2
      rw [hlr] at hrun
      exact ⟨nb1, hrun, by simpa using hl, fun i hi => hval i (Nat.zero_le _) (by omega)⟩
  obtain ⟨nb, hrun, hl, hval⟩ := hcons
  refine ⟨nb, ?_, hl, hval⟩
  simp only [vector.resize, hdes1, hdea, allocate_fits E _ count hfit, hlr, hrun]

/-- A tear-down loop that runs past the end of its block, for an element type with a
destructor, has no defined result. -/
theorem destroy_up_beyond (E : Elem T ε) (b : Nat) (hE : E.has_destructor = true) :
    ∀ (k i : Nat) (g : Heap T) (blk : Block T), g[b]? = some (some blk) → i ≤ blk.length →
      blk.length < i + k → destroy_up E (some b) k i g = none := by
  intro k
  induction k with
  | zero => intro i g blk _ h1 h2; omega
  | succ k ih =>
    intro i g blk hb hle hlt
    by_cases hi : i = blk.length
    · have hs : Heap.slot g ⟨some b, i⟩ = none := by
        simp only [Heap.slot, hb, hi]
        exact List.getElem?_eq_none (Nat.le_refl _)
      simp only [destroy_up, destroy, Ptr.is_null, hE, hs]
      simp
    · obtain ⟨blk0, hd0, hl0⟩ := destroy_live E g b i blk hb (by omega)
      simp only [destroy_up, hd0]
      exact ih (i + 1) _ blk0 (list_get_set_same g b _ _ hb) (by omega) (by omega)

/-- For an element type with a destructor, `resize(count, value)` with `count` above the
capacity of a well-formed vector (and above 1 when the vector has no block) runs a destructor
outside every block and has no defined result. -/
theorem resize_beyond (E : Elem T ε) (h : Heap T) (v : vector) (count : Nat) (a : Arg T)
    (hE : E.has_destructor = true) (hwf : v.wf h = true) (hlt : v.capacity_ < count)
    (h1 : 1 < count) : vector.resize E h v count a = .undefined := by
  obtain ⟨hsc, hnull, hlive⟩ := (wf_iff h v).1 hwf
  have hdes : destroy_up E v.data_ count 0 h = none := by
    rcases Option.eq_none_or_eq_some v.data_ with hd | ⟨b, hd⟩
    · obtain ⟨m, hm⟩ : ∃ m, count = m + 2 := ⟨count - 2, by omega⟩
      rw [hd, hm]
      simp [destroy_up, destroy, Ptr.is_null, hE, Heap.slot]
    · obtain ⟨blk, hb, hlen, _⟩ := hlive b hd
      rw [hd]
      exact destroy_up_beyond E b hE count 0 h blk hb (Nat.zero_le _) (by omega)
  simp only [vector.resize, hdes]

/-- The test vector `vec123` in `heap123` is what three `push_back` calls build. -/
theorem run_push123 :
    vector.run int_elem ([] : Heap Nat) vector.default_ctor
        [.push_back 1, .push_back 2, .push_back 3] = .ret (heap123, vec123) :=
  rfl

/-- A `resize` whose argument refers into the block of the vector, for an element type without
a destructor: the block is released before the argument is read, and the first `construct`
reads a slot of a released block. -/
theorem resize_alias (E : Elem T ε) (h : Heap T) (v : vector) (count : Nat) (p : Ptr) (b : Nat)
    (hE : E.has_destructor = false) (hwf : v.wf h = true) (hpos : 0 < count)
    (hfit : count * E.sizeof < 2 ^ 64) (hd : v.data_ = some b) (hp : p.base = v.data_) :
    vector.resize E h v count (.slot p) = .undefined := by
  obtain ⟨blk, hb, _⟩ := ((wf_iff h v).1 hwf).2.2 b hd
  have hbl : b < h.length := (List.getElem?_eq_some_iff.1 hb).1
  obtain ⟨h1, hdes1, hdea⟩ := resize_teardown E h v count hwf
    (by simp [vector.releasable, hE]) (Or.inl hE)
  have hlr : (h.release v.data_).length = h.length := by
    unfold Heap.release; split <;> simp
  obtain ⟨m, hm⟩ : ∃ m, count = m + 1 := ⟨count - 1, by omega⟩
  have hload : load (h.release v.data_ ++ [some (List.replicate count none)]) p = none := by
    simp only [load, Heap.slot, hp, hd, Heap.release]
    rw [List.getElem?_append_left (by simpa using hbl)]
    simp [hbl]
  have hslot : Heap.slot (h.release v.data_ ++ [some (List.replicate count none)])
      ⟨some h.length, 0⟩ = some none := by
    rw [← hlr, slot_snoc_new]
    simp [hm]
  have hc : construct E (h.release v.data_ ++ [some (List.replicate count none)])
      ⟨some h.length, 0⟩ (.slot p) = .undefined := by
    simp only [construct, Ptr.is_null, hslot, Arg.read, hload]
    simp
  simp only [vector.resize, hdes1, hdea, allocate_fits E _ count hfit, hlr]
  rw [hm] at hc ⊢
  simp only [construct_up, hc]

/-! ## Copy construction -/

theorem copy_up_done (h : Heap T) (b : Nat) (blk : Block T) (n : Nat)
    (hb : h[b]? = some (some blk)) :
    ∀ (k pos : Nat) (nb : Block T), nb.length = n → (∀ i, i < pos → nb[i]? = blk[i]?) →
      pos + k ≤ n → (∀ i, pos ≤ i → i < pos + k → ∃ x, blk[i]? = some (some x)) →
      ∃ nb1, copy_up (some h.length) (some b) k pos (h ++ [some nb]) =
          some (h ++ [some nb1]) ∧ nb1.length = n ∧ ∀ i, i < pos + k → nb1[i]? = blk[i]? := by
  have hbl : b < h.length := (List.getElem?_eq_some_iff.1 hb).1
  intro k
  induction k with
  | zero => intro pos nb hl hc _ _; exact ⟨nb, rfl, hl, hc⟩
  | succ k ih =>
    intro pos nb hl hc hle hobj
    obtain ⟨x, hx⟩ := hobj pos (Nat.le_refl _) (by omega)
    have hs : Heap.slot (h ++ [some nb]) ⟨some b, pos⟩ = some (some x) := by
      rw [slot_snoc_old _ _ _ _ hbl]; simp [Heap.slot, hb, hx]
    have hnew : (h ++ [some nb])[h.length]? = some (some nb) := by simp
    have hst := assign_slot_live (h ++ [some nb]) h.length pos nb x hnew (by omega)
    have hset : (h ++ [some nb]).set h.length (some (nb.set pos (some x))) =
        h ++ [some (nb.set pos (some x))] := by simp
    rw [hset] at hst
    obtain ⟨nb1, hrun, hl1, hc1⟩ := ih (pos + 1) (nb.set pos (some x)) (by simpa using hl)
      (fun i hi => by
        by_cases hip : i = pos
        · subst hip; simp [List.getElem?_set, hl, hx]; omega
        · rw [List.getElem?_set_ne (Ne.symm hip)]; exact hc i (by omega))
      (by omega) (fun i h1 h2 => hobj i (by omega) (by omega))
    refine ⟨nb1, ?_, hl1, fun i hi => hc1 i (by omega)⟩
    simp only [copy_up, lvalue, load, hs, hst, hrun]

/-- Copy construction from a well-formed vector: a new block, obtained from `new T[n]`, holding
the elements of the source, capacity equal to the size of the source, and no old block
changed. -/
theorem copy_ctor_spec (E : Elem T ε) (h : Heap T) (other : vector)
    (hwf : other.wf h = true) :
    ∃ h1 c, vector.copy_ctor E h other = .ret (h1, c) ∧
      c.wf h1 = true ∧ c.current_size_ = other.current_size_ ∧
      c.capacity_ = other.current_size_ ∧ c.data_ = some h.length ∧
      (∀ i, i < other.current_size_ → c.elem h1 i = other.elem h i) ∧
      Heap.frame h h1 none ∧ c.data_from_new = true := by
  obtain ⟨hsc, hnull, hlive⟩ := (wf_iff h other).1 hwf
  have hfr : ∀ nb : Block T, Heap.frame h (h ++ [some nb]) none := fun nb =>
    Heap.frame.release_snoc h none (some nb)
  rcases Option.eq_none_or_eq_some other.data_ with hd | ⟨b, hd⟩
  · have hs0 : other.current_size_ = 0 := by have := hnull hd; omega
    refine ⟨h ++ [some []],
      { data_ := some h.length, current_size_ := 0, capacity_ := 0, data_from_new := true },
      ?_, ?_, hs0.symm, hs0.symm, rfl, fun i hi => by omega, hfr _, rfl⟩
    · simp only [vector.copy_ctor, new_array, vector.size, hs0, List.replicate_zero, copy_up]
    · exact wf_live _ _ h.length [] rfl (by simp) rfl (Nat.le_refl _)
        (fun i hi => absurd hi (Nat.not_lt_zero i))
  · obtain ⟨blk, hb, hlen, hobj⟩ := hlive b hd
    obtain ⟨nb, hrun, hl, hc⟩ := copy_up_done h b blk other.current_size_ hb
      other.current_size_ 0 (List.replicate other.current_size_ E.default_init) (by simp)
      (fun i hi => by omega) (by omega) (fun i _ hi => hobj i (by omega))
    have hnew : (h ++ [some nb])[h.length]? = some (some nb) := by simp
    refine ⟨h ++ [some nb],
      { data_ := some h.length, current_size_ := other.current_size_,
        capacity_ := other.current_size_, data_from_new := true },
      ?_, ?_, rfl, rfl, rfl, fun i hi => ?_, hfr _, rfl⟩
    · simp only [vector.copy_ctor, new_array, vector.size, hd, hrun]
    · refine wf_live _ _ h.length nb rfl hnew hl (Nat.le_refl _) (fun i hi => ?_)
      rw [hc i (by simpa using hi)]
      exact hobj i hi
    · rw [elem_live _ _ h.length nb rfl hnew, hc i (by omega), elem_live h other b blk hd hb]

/-- Copy construction gives a vector with the size and the elements of the source in a block of
its own, and the source is as it was.  For an element type without a destructor the source also
stays as it was when the copy is changed by `push_back`, `pop_back`, `assign` of a value, or a
write through `at` (requests taken to fit `size_t`, copies not to throw). -/
theorem copy_ctor_independent (E : Elem T ε) (h : Heap T) (src : vector)
    (hwf : src.wf h = true) (hE : E.has_destructor = false)
    (hfit : src.current_size_ * 2 * E.sizeof < 2 ^ 64)
    (hct : ∀ i y, i < src.current_size_ → src.elem h i = some y → E.copy y = none) :
    ∃ h1 c, vector.copy_ctor E h src = .ret (h1, c) ∧
      c.size = src.size ∧ (∀ i, i < src.size → c.elem h1 i = src.elem h i) ∧
      src.wf h1 = true ∧ (∀ i, src.elem h1 i = src.elem h i) ∧
      (∀ x, ∃ h2 c2, vector.push_back E h1 c (.temp x) = .ret (h2, c2) ∧ src.wf h2 = true ∧
        ∀ i, src.elem h2 i = src.elem h i) ∧
      (0 < c.size → ∃ c2, (vector.pop_back h1 c : Outcome ε (Heap T × vector)) =
        .ret (h1, c2)) ∧
      (∀ count value, count * E.sizeof < 2 ^ 64 →
        ∃ h2 c2, vector.assign E h1 c count (.temp value) = .ret (h2, c2) ∧
        src.wf h2 = true ∧ ∀ i, src.elem h2 i = src.elem h i) ∧
      ∀ pos x, pos < c.size → ∃ p, (vector.at h1 c pos : Access ε) = .ref p ∧
        src.wf (h1.store p (some x)) = true ∧
        ∀ i, src.elem (h1.store p (some x)) i = src.elem h i := by
  obtain ⟨h1, c, hrun, hwfc, hs, hcap, hd, hel, hf, _⟩ := copy_ctor_spec E h src hwf
  have hsrc1 := wf_frame h h1 none src hf hwf (by
    rcases Option.eq_none_or_eq_some src.data_ with hn | ⟨q, hq⟩
    · exact Or.inl hn
    · exact Or.inr (by rw [hq]; simp))
  have hne : src.data_ = none ∨ src.data_ ≠ c.data_ := by
    rw [hd]; exact data_ne_new h src hwf
  have hctc : ∀ i y, i < c.current_size_ → c.elem h1 i = some y → E.copy y = none := by
    intro i y hi hy
    rw [hs] at hi
    exact hct i y hi (by rw [← hel i hi]; exact hy)
  have hrelc : c.releasable E = true := by simp [vector.releasable, hE]
  refine ⟨h1, c, hrun, hs, hel, hsrc1.1, hsrc1.2, fun x => ?_, fun hpos => ?_,
    fun count value hfc => ?_, fun pos x hpos => ?_⟩
  · obtain ⟨h2, c2, hpb, _, _, _, _, _, hf2, _⟩ := push_back_spec E h1 c (.temp x) x hwfc rfl
      (fun _ => ⟨by rw [hcap]; exact hfit, hrelc, Or.inl rfl, hctc⟩)
    obtain ⟨hw, he⟩ := wf_frame h1 h2 c.data_ src hf2 hsrc1.1 hne
    exact ⟨h2, c2, hpb, hw, fun i => by rw [he i, hsrc1.2 i]⟩
  · exact ⟨_, pop_back_nonempty h1 c (by simp only [vector.size] at hpos; omega)⟩
  · obtain ⟨h2, c2, hpb, _, _, _, _, hf2⟩ := assign_spec E h1 c count (.temp value) value hwfc
      rfl (fun _ => ⟨hfc, hrelc, Or.inl rfl, hctc⟩)
    obtain ⟨hw, he⟩ := wf_frame h1 h2 c.data_ src hf2 hsrc1.1 hne
    exact ⟨h2, c2, hpb, hw, fun i => by rw [he i, hsrc1.2 i]⟩
  · obtain ⟨hat, _, _⟩ := at_in_range (ε := ε) h1 c hwfc pos hpos
    obtain ⟨hw, he⟩ := wf_frame h1 (h1.store ⟨c.data_, pos⟩ (some x)) c.data_ src
      (Heap.frame.store h1 ⟨c.data_, pos⟩ (some x)) hsrc1.1 hne
    exact ⟨_, hat, hw, fun i => by rw [he i, hsrc1.2 i]⟩

/-! ## Accessors, move operations -/

/-- The accessors `front` and `back` throw on a vector of size 0. -/
theorem front_back_empty (h : Heap T) (v : vector) (hs : v.current_size_ = 0) :
    (vector.front h v : Access ε) = .throw .out_of_range ∧
    (vector.front_const h v : Access ε) = .throw .out_of_range ∧
    (vector.back h v : Access ε) = .throw .out_of_range ∧
    (vector.back_const h v : Access ε) = .throw .out_of_range := by
  simp [vector.front, vector.front_const, vector.back, vector.back_const, hs]

/-- On a well-formed vector that is not empty, `front` refers to slot 0 and `back` to slot
`size() - 1`, and both slots hold an element. -/
theorem front_back_nonempty (h : Heap T) (v : vector) (hwf : v.wf h = true)
    (hs : 0 < v.current_size_) :
    (vector.front h v : Access ε) = .ref ⟨v.data_, 0⟩ ∧
    (vector.front_const h v : Access ε) = .ref ⟨v.data_, 0⟩ ∧
    (vector.back h v : Access ε) = .ref ⟨v.data_, v.current_size_ - 1⟩ ∧
    (vector.back_const h v : Access ε) = .ref ⟨v.data_, v.current_size_ - 1⟩ ∧
    (∃ x, load h ⟨v.data_, 0⟩ = some x) ∧
    ∃ x, load h ⟨v.data_, v.current_size_ - 1⟩ = some x := by
  obtain ⟨hsc, _, _⟩ := (wf_iff h v).1 hwf
  obtain ⟨b, blk, hd, hb, _, _⟩ := wf_data_of_pos h v hwf (by omega)
  have hlv : ∀ i, i < v.current_size_ →
      lvalue h v.data_ i = some ⟨v.data_, i⟩ ∧ ∃ x, load h ⟨v.data_, i⟩ = some x := by
    intro i hi
    obtain ⟨x, hx⟩ := wf_elem h v hwf i hi
    have hl : load h ⟨v.data_, i⟩ = some x := hx
    refine ⟨?_, x, hl⟩
    unfold load at hl
    unfold lvalue
    split at hl <;> simp_all
  have hne : (v.current_size_ != 0) = true := by simp; omega
  have hsome : v.data_.isSome = true := by rw [hd]; rfl
  obtain ⟨h0, hx0⟩ := hlv 0 hs
  obtain ⟨h1, hx1⟩ := hlv (v.current_size_ - 1) (by omega)
  refine ⟨?_, ?_, ?_, ?_, hx0, hx1⟩
  · simp only [vector.front, hsome, hne, Bool.and_self, if_true, h0]
  · simp only [vector.front_const, hsome, hne, Bool.and_self, if_true, h0]
  · simp only [vector.back, hsome, hne, Bool.and_self, if_true, h1]
  · simp only [vector.back_const, hsome, hne, Bool.and_self, if_true, h1]

/-- The list container meets the sequence contract. -/
theorem list_container_contract (T : Type) : (list_container T).sequence_contract := by
  refine ⟨fun _ => rfl, fun _ => rfl, fun _ => rfl, fun _ _ => rfl, fun c hc => ?_,
    fun _ _ => rfl⟩
  refine ⟨c.dropLast, ?_, rfl⟩
  have hc1 : c ≠ [] := hc
  simp [list_container, hc1]

/-- Whatever the reading of the two-argument `std::move`, move assignment from a distinct
object leaves that object as it was. -/
theorem move_assign_source_kept (E : Elem T ε) (r : Move2) (h : Heap T) (v other : vector)
    (s : Heap T × vector × vector)
    (hrun : vector.move_assign E r h v other false = .ret s) : s.2.2 = other := by
  cases r <;>
  · simp only [vector.move_assign, Bool.false_eq_true, if_false, std_move2, vector.swap,
      vector.default_ctor] at hrun
    split at hrun
    · simp only [Outcome.ret.injEq] at hrun
      rw [← hrun]
    · cases hrun

/-! ## The invariant size <= capacity -/

/-- When `reserve` returns, the size is kept and the capacity is the larger of the old one and
the one asked for. -/
theorem reserve_ret_state (E : Elem T ε) (h h1 : Heap T) (v v1 : vector) (n : Nat)
    (hrun : vector.reserve E h v n = .ret (h1, v1)) :
    v1.current_size_ = v.current_size_ ∧ v1.capacity_ = max v.capacity_ n := by
  simp only [vector.reserve, allocate, vector.swap, vector.default_ctor, vector.size,
    vector.capacity] at hrun
  split at hrun
  · rename_i hle
    simp only [Outcome.ret.injEq, Prod.mk.injEq] at hrun
    obtain ⟨_, rfl⟩ := hrun
    exact ⟨rfl, by omega⟩
  · rename_i hle
    split at hrun
    · split at hrun <;> cases hrun
    · cases hrun
    · cases hrun
    · split at hrun
      · simp only [Outcome.ret.injEq, Prod.mk.injEq] at hrun
        obtain ⟨_, rfl⟩ := hrun
        exact ⟨rfl, by simp only; omega⟩
      · cases hrun

/-- When `reserve` throws, the object is as it was. -/
theorem reserve_throw_state (E : Elem T ε) (h h1 : Heap T) (v v1 : vector) (n : Nat)
    (e : Fault ε) (hrun : vector.reserve E h v n = .throw e (h1, v1)) : v1 = v := by
  simp only [vector.reserve, allocate, vector.swap, vector.default_ctor, vector.size,
    vector.capacity] at hrun
  split at hrun
  · cases hrun
  · split at hrun
    · split at hrun
      · simp only [Outcome.throw.injEq, Prod.mk.injEq] at hrun
        exact hrun.2.2.symm
      · cases hrun
    · cases hrun
    · cases hrun
    · split at hrun <;> cases hrun

/-- The invariant `size() <= capacity()` at the end of `reserve`. -/
theorem reserve_inv (E : Elem T ε) (h : Heap T) (v : vector) (n : Nat)
    (hv : v.size_le_capacity) :
    (vector.reserve E h v n).holds (fun s => s.2.size_le_capacity) := by
  have hv1 : v.current_size_ ≤ v.capacity_ := hv
  rcases hr : vector.reserve E h v n with ⟨h1, v1⟩ | ⟨e, h1, v1⟩ | _ | _
  · obtain ⟨hs, hc⟩ := reserve_ret_state E h h1 v v1 n hr
    show v1.current_size_ ≤ v1.capacity_
    omega
  · rw [reserve_throw_state E h h1 v v1 n e hr]; exact hv
  · trivial
  · trivial

/-- When `grow` returns on a full vector whose doubled capacity is within `size_t`, the size is
kept and the capacity is above it; when it throws, the object is as it was. -/
theorem grow_state (E : Elem T ε) (h : Heap T) (v : vector)
    (hcap : v.capacity_ * MULTIPLY_CONST < 2 ^ 64) :
    (∀ h1 v1, vector.grow E h v = .ret (h1, v1) →
      v1.current_size_ = v.current_size_ ∧ v.capacity_ < v1.capacity_) ∧
    ∀ e h1 v1, vector.grow E h v = .throw e (h1, v1) → v1 = v := by
  constructor
  · intro h1 v1 hrun
    unfold vector.grow at hrun
    split at hrun
    · rename_i hc
      obtain ⟨hs, hcp⟩ := reserve_ret_state E h h1 v v1 _ hrun
      have hcap2 : v.capacity_ * 2 < 2 ^ 64 := hcap
      simp only [vector.capacity, size_t, MULTIPLY_CONST, Nat.mod_eq_of_lt hcap2] at hc hcp
      exact ⟨hs, by omega⟩
    · rename_i hc
      obtain ⟨hs, hcp⟩ := reserve_ret_state E h h1 v v1 _ hrun
      simp only [vector.capacity, ne_eq, not_not] at hc
      exact ⟨hs, by omega⟩
  · intro e h1 v1 hrun
    unfold vector.grow at hrun
    split at hrun <;> exact reserve_throw_state E h h1 v v1 _ e hrun

/-- The invariant `size() <= capacity()` at the end of `push_back`. -/
theorem push_back_inv (E : Elem T ε) (h : Heap T) (v : vector) (a : Arg T)
    (hv : v.size_le_capacity) (hcap : v.capacity_ * MULTIPLY_CONST < 2 ^ 64) :
    (vector.push_back E h v a).holds (fun s => s.2.size_le_capacity) := by
  have hv1 : v.current_size_ ≤ v.capacity_ := hv
  simp only [vector.push_back, vector.size, vector.capacity]
  split
  · rename_i heq
    obtain ⟨hret, hthrow⟩ := grow_state E h v hcap
    rcases hg : vector.grow E h v with ⟨h1, v1⟩ | ⟨e, h1, v1⟩ | _ | _
    · obtain ⟨hs, hc⟩ := hret h1 v1 hg
      simp only
      split
      · show v1.current_size_ + 1 ≤ v1.capacity_
        omega
      · trivial
    · rw [hthrow e h1 v1 hg]; exact hv
    · trivial
    · trivial
  · split
    · show v.current_size_ + 1 ≤ v.capacity_
      omega
    · trivial

/-- The invariant `size() <= capacity()` at the end of `emplace_back`. -/
theorem emplace_back_inv (E : Elem T ε) (h : Heap T) (v : vector) (a : Arg T)
    (hv : v.size_le_capacity) (hcap : v.capacity_ * MULTIPLY_CONST < 2 ^ 64) :
    (vector.emplace_back E h v a).holds (fun s => s.2.size_le_capacity) := by
  have hv1 : v.current_size_ ≤ v.capacity_ := hv
  have key : ∀ (g : Heap T) (w : vector), w.current_size_ < w.capacity_ →
      Outcome.holds (fun s : Heap T × vector => s.2.size_le_capacity)
        (match lvalue g w.data_ w.current_size_ with
        | none => (.undefined : Outcome ε (Heap T × vector))
        | some p =>
          match construct E g p a with
          | .ret h2 => .ret (h2, { w with current_size_ := w.current_size_ + 1 })
          | .throw e h2 => .throw e (h2, w)
          | .undefined => .undefined
          | .timeout => .timeout) := by
    intro g w hw
    split
    · trivial
    · split
      · show w.current_size_ + 1 ≤ w.capacity_
        omega
      · show w.current_size_ ≤ w.capacity_
        omega
      · trivial
      · trivial
  simp only [vector.emplace_back, vector.size, vector.capacity]
  split
  · rename_i heq
    obtain ⟨hret, hthrow⟩ := grow_state E h v hcap
    rcases hg : vector.grow E h v with ⟨h1, v1⟩ | ⟨e, h1, v1⟩ | _ | _
    · obtain ⟨hs, hc⟩ := hret h1 v1 hg
      exact key h1 v1 (by omega)
    · rw [hthrow e h1 v1 hg]; exact hv
    · trivial
    · trivial
  · exact key h v (by omega)

/-- The invariant `size() <= capacity()` at the end of `assign`. -/
theorem assign_inv (E : Elem T ε) (h : Heap T) (v : vector) (count : Nat) (a : Arg T)
    (hv : v.size_le_capacity) :
    (vector.assign E h v count a).holds (fun s => s.2.size_le_capacity) := by
  simp only [vector.assign, vector.capacity]
  split
  · rename_i hle
    split
    · exact hle
    · trivial
  · rename_i hle
    rcases hr : vector.reserve E h v count with ⟨h1, v1⟩ | ⟨e, h1, v1⟩ | _ | _
    · obtain ⟨hs, hc⟩ := reserve_ret_state E h h1 v v1 count hr
      simp only
      split
      · show count ≤ v1.capacity_
        omega
      · trivial
    · rw [reserve_throw_state E h h1 v v1 count e hr]; exact hv
    · trivial
    · trivial

/-- The invariant `size() <= capacity()` at the end of `clear`. -/
theorem clear_inv (E : Elem T ε) (h : Heap T) (v : vector) (hv : v.size_le_capacity) :
    (vector.clear E h v).holds (fun s => s.2.size_le_capacity) := by
  have ha := assign_inv E h v v.capacity (.temp E.value_init) hv
  unfold vector.clear
  rcases hr : vector.assign E h v v.capacity (.temp E.value_init) with
    ⟨h1, v1⟩ | ⟨e, h1, v1⟩ | _ | _
  · exact Nat.zero_le _
  · rw [hr] at ha; exact ha
  · trivial
  · trivial

/-- The invariant `size() <= capacity()` at the end of `pop_back`. -/
theorem pop_back_inv (h : Heap T) (v : vector) (hv : v.size_le_capacity) :
    (vector.pop_back h v : Outcome ε (Heap T × vector)).holds
      (fun s => s.2.size_le_capacity) := by
  have hv1 : v.current_size_ ≤ v.capacity_ := hv
  unfold vector.pop_back
  split
  · show v.current_size_ - 1 ≤ v.capacity_
    omega
  · exact hv

/-- The invariant `size() <= capacity()` at the end of `resize`. -/
theorem resize_inv (E : Elem T ε) (h : Heap T) (v : vector) (count : Nat) (a : Arg T)
    (hv : v.size_le_capacity) :
    (vector.resize E h v count a).holds (fun s => s.2.size_le_capacity) := by
  simp only [vector.resize, allocate]
  split
  · trivial
  · split
    · trivial
    · split
      · exact Nat.le_refl count
      · exact hv
      · trivial
      · trivial

/-- The invariant `size() <= capacity()` at the end of `shrink_to_fit`. -/
theorem shrink_to_fit_inv (E : Elem T ε) (fuel : Nat) (h : Heap T) (v : vector)
    (hv : v.size_le_capacity) :
    (vector.shrink_to_fit E fuel h v).holds (fun s => s.2.size_le_capacity) := by
  simp only [vector.shrink_to_fit, allocate, vector.swap, vector.default_ctor, vector.size,
    vector.capacity]
  split
  · exact hv
  · split
    · split
      · exact hv
      · trivial
    · trivial
    · trivial
    · split
      · exact hv
      · trivial

/-- The invariant `size() <= capacity()` for the vectors the constructors with arguments
build. -/
theorem ctor_inv (E : Elem T ε) (h : Heap T) (other : vector) (count : Nat) (a : Arg T) :
    (vector.sized_ctor E h count a).holds (fun s => s.2.size_le_capacity) ∧
    (vector.copy_ctor E h other).holds (fun s => s.2.size_le_capacity) := by
  constructor
  · simp only [vector.sized_ctor, new_array]
    split
    · exact Nat.le_refl count
    · trivial
  · simp only [vector.copy_ctor, new_array]
    split
    · exact Nat.le_refl other.size
    · trivial

/-- The invariant `size() <= capacity()` at the end of copy assignment, and at the end of its
two statements. -/
theorem copy_assign_inv (E : Elem T ε) (h : Heap T) (v other : vector) (b : Bool)
    (hv : v.size_le_capacity) :
    (vector.copy_assign E h v other b).holds (fun s => s.2.size_le_capacity) ∧
    (vector.copy_assign_body E h v other).holds (fun s => s.2.size_le_capacity) := by
  have hbody : (vector.copy_assign_body E h v other).holds
      (fun s => s.2.size_le_capacity) := by
    unfold vector.copy_assign_body
    split
    · trivial
    · exact (ctor_inv E _ other 0 (.temp E.value_init)).2
  refine ⟨?_, hbody⟩
  unfold vector.copy_assign
  split
  · exact hv
  · rcases hr : vector.copy_assign_body E h v other with ⟨h1, v1⟩ | ⟨e, h1, v1⟩ | _ | _
    · trivial
    · rw [hr] at hbody; exact hbody
    · trivial
    · trivial

/-- The invariant `size() <= capacity()` of both objects at the end of move assignment, under
either reading of the two-argument `std::move`. -/
theorem move_assign_inv (E : Elem T ε) (r : Move2) (h : Heap T) (v other : vector) (b : Bool)
    (hv : v.size_le_capacity) (ho : other.size_le_capacity) :
    (vector.move_assign E r h v other b).holds
      (fun s => s.2.1.size_le_capacity ∧ s.2.2.size_le_capacity) := by
  unfold vector.move_assign
  split
  · exact ⟨hv, hv⟩
  · cases r <;>
    · simp only [std_move2, vector.swap, vector.default_ctor]
      split
      · first
        | exact ⟨ho, ho⟩
        | exact ⟨Nat.le_refl 0, ho⟩
      · trivial

/-! ## Targets of destroy -/

/-- The loop `for (...) allocator.destroy(data_ + i);` is the sequence of `destroy` calls on its
targets. -/
theorem destroy_up_eq_destroy_all (E : Elem T ε) (data_ : Option Nat) :
    ∀ (n i : Nat) (h : Heap T),
      destroy_up E data_ n i h = destroy_all E (destroy_up_targets data_ n i) h := by
  intro n
  induction n with
  | zero => intro i h; rfl
  | succ n ih =>
    intro i h
    simp only [destroy_up, destroy_up_targets, destroy_all]
    cases destroy E h ⟨data_, i⟩ with
    | none => rfl
    | some h1 => exact ih (i + 1) h1

/-- For an element type with a destructor, a call of `destroy` on a pointer that is not null and
addresses no slot of a block has no defined result. -/
theorem destroy_out_of_block (E : Elem T ε) (h : Heap T) (p : Ptr)
    (hE : E.has_destructor = true) (hn : p.is_null = false)
    (hb : h.in_block p = false) : destroy E h p = none := by
  have hs : h.slot p = none := by
    unfold Heap.in_block Heap.block_capacity at hb
    unfold Heap.slot
    rcases hp : p.base with _ | b
    · rfl
    · rw [hp] at hb
      rcases hh : h[b]? with _ | _ | blk
      · simp only [hh]
      · simp only [hh]
      · simp only [hh, decide_eq_false_iff_not, not_lt] at hb
        simp only [hh]
        exact List.getElem?_eq_none hb
  simp only [destroy, hn, Bool.false_eq_true, if_false, hE, if_true, hs]

/-! ## stack -/

/-- Over a container that meets the sequence contract: on an empty stack `pop()` returns and
leaves the stack as it was, and `top()` returns what default-initialisation left in `item`; on
a stack holding `l` followed by `x`, `top()` returns `x` and `pop()` leaves exactly `l`. -/
theorem stack_empty_or_not {C : Type} (K : Container C T) (hK : K.sequence_contract)
    (default_init : Option T) (s : stack C) :
    (stack.contents K s = [] →
      stack.empty K s = true ∧ stack.pop K s = some s ∧
      stack.top K default_init s = default_init) ∧
    (∀ l x, stack.contents K s = l ++ [x] →
      stack.empty K s = false ∧ stack.top K default_init s = some x ∧
      ∃ s1, stack.pop K s = some s1 ∧ stack.contents K s1 = l) := by
  obtain ⟨_, hempty, hsize, hback, hpop, _⟩ := hK
  constructor
  · intro hc
    have hc1 : K.contents s.container_ = [] := hc
    have he : K.empty s.container_ = true := by rw [hempty, hc1]; rfl
    have hs : (K.size s.container_ != 0) = false := by rw [hsize, hc1]; rfl
    exact ⟨he, by simp only [stack.pop, hs, Bool.false_eq_true, if_false],
      by simp only [stack.top, stack.empty, he, if_true]⟩
  · intro l x hc
    have hc1 : K.contents s.container_ = l ++ [x] := hc
    have hne : K.contents s.container_ ≠ [] := by rw [hc1]; simp
    have he : K.empty s.container_ = false := by rw [hempty, hc1]; simp
    have hs : (K.size s.container_ != 0) = true := by rw [hsize, hc1]; simp
    obtain ⟨c1, hp, hcc⟩ := hpop _ hne
    refine ⟨he, ?_, { container_ := c1 }, ?_, ?_⟩
    · simp only [stack.top, stack.empty, he, Bool.false_eq_true, if_false, hback _ hne, hc1]
      simp
    · simp only [stack.pop, hs, if_true, hp]
    · simp only [stack.contents, hcc, hc1, List.dropLast_concat]

end lemmas

/-! ## Claims -/

section claims
variable {T ε : Type}

/-- C1 (defect in the code): `at` accepts `pos == size()`.  After `push_back` of 1, 2, 3 and one
`pop_back` the size is 2, yet `at(2)`, in both overloads, yields a reference to slot 2, which
still holds the value 3, where `std::out_of_range` is due; and for no vector at all does
`at(size())` throw `std::out_of_range`. -/
theorem C1_at_accepts_size :
    vector.run int_elem ([] : Heap Nat) vector.default_ctor
        [.push_back 1, .push_back 2, .push_back 3, .pop_back] =
      .ret ([none, none, some [some 1, some 2, some 3, none]],
        { data_ := some 2, current_size_ := 2, capacity_ := 4 }) ∧
    (vector.at ([none, none, some [some 1, some 2, some 3, none]] : Heap Nat)
        { data_ := some 2, current_size_ := 2, capacity_ := 4 } 2 : Access Unit) =
      .ref ⟨some 2, 2⟩ ∧
    (vector.at_const ([none, none, some [some 1, some 2, some 3, none]] : Heap Nat)
        { data_ := some 2, current_size_ := 2, capacity_ := 4 } 2 : Access Unit) =
      .ref ⟨some 2, 2⟩ ∧
    load ([none, none, some [some 1, some 2, some 3, none]] : Heap Nat) ⟨some 2, 2⟩ = some 3 ∧
    ∀ (h : Heap Nat) (v : vector),
      (vector.at h v v.size : Access Unit) ≠ .throw .out_of_range ∧
      (vector.at_const h v v.size : Access Unit) ≠ .throw .out_of_range := by
  refine ⟨rfl, rfl, rfl, rfl, fun h v => ?_⟩
  simp only [vector.at, vector.at_const, vector.size, le_refl, if_true]
  cases lvalue h v.data_ v.current_size_ <;> simp

/-- C2 (defect in the code): `push_back` reads its argument after `grow()` has released the
block the argument may refer into.  After `v.push_back(1)` on a default-constructed vector the
call `v.push_back(v[0])` passes a reference to slot 0 of the block, which holds 1, so the list
the two calls describe is `[1, 1]`.  The vector is full: `grow()` copies the element to a new
block and releases the old one, and the assignment `data_[size()] = value` then reads a slot of
the released block.  The call has no defined result, and a vector with `at(1)` equal to 1 is
not reached; the same call with the value 1 in an object of its own does reach it. -/
theorem C2_push_back_own_element :
    vector.run int_elem ([] : Heap Nat) vector.default_ctor [.push_back 1] =
      .ret (heap1, vec1) ∧
    vector.subscript heap1 vec1 0 = some ⟨some 0, 0⟩ ∧
    Arg.read heap1 (.slot ⟨some 0, 0⟩) = some 1 ∧
    Op.interp [] [Op.push_back 1, Op.push_back 1] = some [1, 1] ∧
    vector.grow int_elem heap1 vec1 =
      .ret ([none, some [some 1, none]],
        { data_ := some 1, current_size_ := 1, capacity_ := 2 }) ∧
    Arg.read ([none, some [some 1, none]] : Heap Nat) (.slot ⟨some 0, 0⟩) = none ∧
    vector.push_back int_elem heap1 vec1 (.slot ⟨some 0, 0⟩) = .undefined ∧
    vector.push_back int_elem heap1 vec1 (.temp 1) =
      .ret ([none, some [some 1, some 1]],
        { data_ := some 1, current_size_ := 2, capacity_ := 2 }) ∧
    vector.run int_elem ([] : Heap Nat) vector.default_ctor [.push_back 1, .push_back 1] =
      .ret ([none, some [some 1, some 1]],
        { data_ := some 1, current_size_ := 2, capacity_ := 2 }) :=
  ⟨rfl, rfl, rfl, rfl, rfl, rfl, rfl, rfl, rfl⟩

/-- C3 (defect in the code): growing `reserve` does not complete on a vector whose block came
from `new T[n]` when the element type has a destructor.  The vector built by `vector(2, 7)` is
well formed, with size and capacity 2; `reserve(10)` on it copies both elements to the new
block, and then the destructor of the object holding the old block releases that block through
`deallocate`, as a `char` array, which has no defined behaviour for a `new T[2]` array of
elements with a destructor: the call has no defined result, where the same call on a vector of
`int` returns with capacity 10 and the elements kept.  Also, the allocator computes
`n * sizeof(T)` in `size_t`: for `int`, `reserve(2^62)` allocates no bytes at all, and the copy
of the first element of a vector holding 1 goes outside the new block. -/
theorem C3_reserve_after_sized_ctor :
    vector.sized_ctor owner_elem ([] : Heap Nat) 2 (.temp 7) = .ret (heap77, vec77) ∧
    vec77.wf heap77 = true ∧ vec77.size = 2 ∧ vec77.capacity = 2 ∧
    reserve_loop owner_elem vec77.data_ (some 1) vec77.size 0
        (heap77 ++ [some (List.replicate 10 none)]) =
      .done [some [some 7, some 7],
        some [some 7, some 7, none, none, none, none, none, none, none, none]] ∧
    vector.dtor owner_elem
        [some [some 7, some 7],
          some [some 7, some 7, none, none, none, none, none, none, none, none]] vec77 =
      none ∧
    deallocate owner_elem ([some [none, none]] : Heap Nat) (some 0) true = none ∧
    vector.reserve owner_elem heap77 vec77 10 = .undefined ∧
    vector.reserve int_elem heap77 vec77 10 =
      .ret ([none, some [some 7, some 7, none, none, none, none, none, none, none, none]],
        { data_ := some 1, current_size_ := 2, capacity_ := 10 }) ∧
    size_t (2 ^ 62 * int_elem.sizeof) = 0 ∧
    allocate int_elem heap1 (2 ^ 62) = ([some [some 1], some []], some 1) ∧
    vector.reserve int_elem heap1 vec1 (2 ^ 62) = .undefined :=
  ⟨rfl, rfl, rfl, rfl, rfl, rfl, rfl, rfl, rfl, rfl, rfl, rfl⟩

/-- C4: on a well-formed vector and with `new_capacity > capacity()`, a request that fits
`size_t`, if the copy constructor throws `e` for the element at index `k < size()` (and for no
element before it), then `reserve(new_capacity)` throws that same `e`, and the object is left as
it was: same members, same block, same elements; the heap only gained the block that was
allocated and released.  (The handler starts its loop at `static_cast<int>(k) - 1`; the index
`k` is taken not to be one where that subtraction overflows `int`.) -/
theorem C4_reserve_strong_guarantee (E : Elem T ε) (h : Heap T) (v : vector)
    (new_capacity k : Nat) (x : T) (e : ε) (hwf : v.wf h = true)
    (hn : v.capacity < new_capacity) (hfit : new_capacity * E.sizeof < 2 ^ 64)
    (hk : k < v.size) (hint : k % 2 ^ 32 ≠ 2 ^ 31)
    (hbefore : ∀ i y, i < k → v.elem h i = some y → E.copy y = none)
    (hx : v.elem h k = some x) (hfail : E.copy x = some e) :
    ∃ h1, vector.reserve E h v new_capacity = .throw (.element e) (h1, v) ∧
      h1 = h ++ [none] ∧ v.wf h1 = true ∧ ∀ i, v.elem h1 i = v.elem h i := by
  have hs := wf_snoc h v none hwf
  exact ⟨h ++ [none],
    reserve_throw E h v new_capacity hwf hn hfit k x e hk hint hbefore hx hfail, rfl,
    hs.1, hs.2⟩

/-- Instance of C4: the copy constructor throws on the value 2, the vector holds 1, 2, 3. -/
theorem C4_reserve_strong_guarantee_witness :
    ∃ h1, vector.reserve (throws_on 2) heap123 vec123 8 = .throw (.element ()) (h1, vec123) ∧
      h1 = heap123 ++ [none] ∧ vec123.wf h1 = true ∧
      ∀ i, vec123.elem h1 i = vec123.elem heap123 i :=
  C4_reserve_strong_guarantee (throws_on 2) heap123 vec123 8 1 2 () rfl (by decide)
    (by decide) (by decide) (by decide)
    (fun i y hi hy => by
      obtain rfl : i = 0 := by omega
      have hy1 : vec123.elem heap123 0 = some 1 := rfl
      rw [hy1] at hy
      cases hy
      rfl)
    rfl rfl

/-- C5 (defect in the code): `shrink_to_fit()` does not bring the capacity down to the size.
On the vector left by `push_back(1); pop_back();` (size 0, capacity 1) it returns with
capacity 1 still, now over a block of no slots; on the vector holding 1, 2, 3 with capacity 4
its copy loop never advances `pos` and is still running after any number of iterations. -/
theorem C5_shrink_to_fit_defect :
    vector.run int_elem ([] : Heap Nat) vector.default_ctor [.push_back 1, .pop_back] =
      .ret ([some [some 1]], { data_ := some 0, current_size_ := 0, capacity_ := 1 }) ∧
    (∀ fuel, vector.shrink_to_fit int_elem fuel ([some [some 1]] : Heap Nat)
        { data_ := some 0, current_size_ := 0, capacity_ := 1 } =
      .ret ([none, some []], { data_ := some 1, current_size_ := 0, capacity_ := 1 })) ∧
    ∀ fuel, vector.shrink_to_fit int_elem fuel heap123 vec123 = .timeout :=
  ⟨rfl, fun fuel => shrink_to_fit_empty int_elem fuel _ _ rfl rfl (by decide) rfl,
    fun fuel => shrink_to_fit_timeout int_elem fuel heap123 vec123 rfl (by decide) (by decide)
      (by decide) (fun _ _ => rfl)⟩

/-- C6 (defect in the code): `resize(count, value)` runs `destroy` on the first `count` slots of
the old block, whatever its size, and reads `value` after it has released that block.  For an
element type with a destructor, `resize(5, value)` on a default-constructed vector runs the
destructor at `data_ + 1` on a null `data_`, where no object is: the call has no defined
result, and the state with size 5, capacity 5 and five copies of the value is not reached (for
`int`, where `destroy` does nothing, it is reached, on the empty vector and on the one holding
1, 2, 3).  On the vector holding 1, `resize(3, v[0])` releases the block and then constructs
from the slot in it, for `int` as well.  On the vector built by `vector(2, 7)`, `resize(1, 9)`
releases a `new T[2]` array of elements with a destructor as a `char` array. -/
theorem C6_resize_defects :
    vector.resize owner_elem ([] : Heap Nat) vector.default_ctor 5 (.temp 9) = .undefined ∧
    destroy_up_targets vector.default_ctor.data_ 5 0 =
      [⟨none, 0⟩, ⟨none, 1⟩, ⟨none, 2⟩, ⟨none, 3⟩, ⟨none, 4⟩] ∧
    (⟨none, 1⟩ : Ptr).is_null = false ∧
    destroy owner_elem ([] : Heap Nat) ⟨none, 1⟩ = none ∧
    vector.resize int_elem ([] : Heap Nat) vector.default_ctor 5 (.temp 9) =
      .ret ([some [some 9, some 9, some 9, some 9, some 9]],
        { data_ := some 0, current_size_ := 5, capacity_ := 5 }) ∧
    vector.resize int_elem heap123 vec123 5 (.temp 9) =
      .ret ([none, none, none, some [some 9, some 9, some 9, some 9, some 9]],
        { data_ := some 3, current_size_ := 5, capacity_ := 5 }) ∧
    Arg.read heap1 (.slot ⟨vec1.data_, 0⟩) = some 1 ∧
    vector.resize int_elem heap1 vec1 3 (.slot ⟨vec1.data_, 0⟩) = .undefined ∧
    vector.resize int_elem heap1 vec1 3 (.temp 1) =
      .ret ([none, some [some 1, some 1, some 1]],
        { data_ := some 1, current_size_ := 3, capacity_ := 3 }) ∧
    vector.resize owner_elem heap77 vec77 1 (.temp 9) = .undefined :=
  ⟨rfl, rfl, rfl, rfl, rfl, rfl, rfl, rfl, rfl, rfl⟩

/-- C7 (defect in the code): `assign` reads its argument after `reserve(count)` has released
the block the argument may refer into.  On the vector holding 1 with capacity 1, the call
`assign(3, v[0])` passes a reference to slot 0, which holds 1; `reserve(3)` moves the element to
a new block and releases the old one, and the fill loop then reads the released slot: the call
has no defined result, where `assign(3, 1)` with the value in an object of its own returns with
size 3, capacity 3 and elements 1, 1, 1.  Also, on the vector built by `vector(2, 7)` with an
element type that has a destructor, `assign(3, 9)` does not complete, as `reserve(3)` does
not. -/
theorem C7_assign_own_element :
    vec1.wf heap1 = true ∧ vec1.capacity = 1 ∧
    Arg.read heap1 (.slot ⟨vec1.data_, 0⟩) = some 1 ∧
    vector.reserve int_elem heap1 vec1 3 =
      .ret ([none, some [some 1, none, none]],
        { data_ := some 1, current_size_ := 1, capacity_ := 3 }) ∧
    Arg.read ([none, some [some 1, none, none]] : Heap Nat) (.slot ⟨vec1.data_, 0⟩) = none ∧
    vector.assign int_elem heap1 vec1 3 (.slot ⟨vec1.data_, 0⟩) = .undefined ∧
    vector.assign int_elem heap1 vec1 3 (.temp 1) =
      .ret ([none, some [some 1, some 1, some 1]],
        { data_ := some 1, current_size_ := 3, capacity_ := 3 }) ∧
    vector.assign owner_elem heap77 vec77 3 (.temp 9) = .undefined :=
  ⟨rfl, rfl, rfl, rfl, rfl, rfl, rfl, rfl⟩

/-- C8: `pop_back()` on a vector of size 0 throws `std::out_of_range` and leaves heap and object
as they were; on a vector of size `n > 0` it returns, the size is `n - 1`, capacity and block
are unchanged, and so is every element. -/
theorem C8_pop_back (h : Heap T) (v : vector) :
    (v.size = 0 →
      (vector.pop_back h v : Outcome ε (Heap T × vector)) = .throw .out_of_range (h, v)) ∧
    (0 < v.size →
      ∃ v1, (vector.pop_back h v : Outcome ε (Heap T × vector)) = .ret (h, v1) ∧
        v1.size = v.size - 1 ∧ v1.capacity = v.capacity ∧ v1.data_ = v.data_ ∧
        ∀ i, v1.elem h i = v.elem h i) := by
  refine ⟨fun h0 => by simp only [vector.pop_back, h0, ne_eq, not_true_eq_false, if_false],
    fun hpos => ⟨{ v with current_size_ := v.current_size_ - 1 }, ?_, rfl, rfl, rfl,
      fun i => rfl⟩⟩
  exact pop_back_nonempty h v (by simp only [vector.size] at hpos; omega)

/-- Instance of C8: `pop_back()` on a default-constructed vector and on the vector holding
1, 2, 3. -/
theorem C8_pop_back_witness :
    (vector.pop_back ([] : Heap Nat) vector.default_ctor : Outcome Unit (Heap Nat × vector)) =
      .throw .out_of_range ([], vector.default_ctor) ∧
    ∃ v1, (vector.pop_back heap123 vec123 : Outcome Unit (Heap Nat × vector)) =
        .ret (heap123, v1) ∧
      v1.size = vec123.size - 1 ∧ v1.capacity = vec123.capacity ∧ v1.data_ = vec123.data_ ∧
      ∀ i, v1.elem heap123 i = vec123.elem heap123 i :=
  ⟨(C8_pop_back [] vector.default_ctor).1 rfl, (C8_pop_back heap123 vec123).2 (by decide)⟩

/-- C10 (defect in the code): copy assignment from a distinct vector never returns normally.
For the empty target and the source holding 1, 2, 3 the two statements of
`operator=(const vector&)` do build a copy of the source in a block of its own, but the body then
ends without `return *this;` and the call has no defined result; and so it is for every element
type over these values, every heap, target and source.  (Copy construction, evaluated here on
the same source, does return.) -/
theorem C10_copy_assign_no_return :
    vector.copy_assign_body int_elem heap123 vector.default_ctor vec123 =
      .ret ([none, none, some [some 1, some 2, some 3, none], some [some 1, some 2, some 3]],
        { data_ := some 3, current_size_ := 3, capacity_ := 3, data_from_new := true }) ∧
    vector.copy_assign int_elem heap123 vector.default_ctor vec123 false = .undefined ∧
    vector.copy_ctor int_elem heap123 vec123 =
      .ret ([none, none, some [some 1, some 2, some 3, none], some [some 1, some 2, some 3]],
        { data_ := some 3, current_size_ := 3, capacity_ := 3, data_from_new := true }) ∧
    ∀ (E : Elem Nat Unit) (h : Heap Nat) (v other : vector) (s : Heap Nat × vector),
      vector.copy_assign E h v other false ≠ .ret s := by
  refine ⟨rfl, rfl, rfl, fun E h v other s => ?_⟩
  simp only [vector.copy_assign, Bool.false_eq_true, if_false]
  rcases vector.copy_assign_body E h v other with _ | _ | _ | _ <;> simp

/-- C11 (defect in the code): move assignment does not empty its source.  With the empty vector
as target and the vector holding 1, 2, 3 as source, the source still has size 3, capacity 4 and
its block after the call, under either reading of the two-argument `std::move` (and under the
second the target holds nothing); and under either reading the same goes for every element type
over these values, every heap, target and source.  The move constructor, on the same source,
does reset it. -/
theorem C11_move_assign_keeps_source :
    vector.move_assign int_elem .assigns heap123 vector.default_ctor vec123 false =
      .ret (heap123, vec123, vec123) ∧
    vector.move_assign int_elem .no_effect heap123 vector.default_ctor vec123 false =
      .ret (heap123, vector.default_ctor, vec123) ∧
    vec123.size = 3 ∧ vec123.capacity = 4 ∧ vec123.data_ = some 2 ∧
    (vector.move_ctor vec123).2 = vector.default_ctor ∧
    ∀ (E : Elem Nat Unit) (r : Move2) (h : Heap Nat) (v other : vector)
      (s : Heap Nat × vector × vector),
      vector.move_assign E r h v other false = .ret s → s.2.2 = other :=
  ⟨rfl, rfl, rfl, rfl, rfl, rfl, fun E r h v other s hrun =>
    move_assign_source_kept E r h v other s hrun⟩

/-- C12: move construction gives the new vector the size, the capacity, the block and so every
element of the source, and leaves the source as a default-constructed vector: null block,
size 0, capacity 0.  A `push_back` on the source after that, with any argument that can be read
and holds `x` (an object of its own, or an element of the new vector), returns as it does on a
default-constructed vector, with size 1, capacity 1 and `x` as its element, and it leaves a
well-formed new vector and its elements as they are. -/
theorem C12_move_ctor (E : Elem T ε) (h : Heap T) (src : vector) (a : Arg T) (x : T)
    (hread : a.read h = some x) :
    (vector.move_ctor src).1.size = src.size ∧
    (vector.move_ctor src).1.capacity = src.capacity ∧
    (vector.move_ctor src).1.data_ = src.data_ ∧
    (∀ i, (vector.move_ctor src).1.elem h i = src.elem h i) ∧
    (vector.move_ctor src).2 = vector.default_ctor ∧
    (vector.move_ctor src).2.size = 0 ∧ (vector.move_ctor src).2.capacity = 0 ∧
    (vector.move_ctor src).2.data_ = none ∧
    ∃ h1 v1, vector.push_back E h (vector.move_ctor src).2 a = .ret (h1, v1) ∧
      vector.push_back E h vector.default_ctor a = .ret (h1, v1) ∧
      v1.wf h1 = true ∧ v1.size = 1 ∧ v1.capacity = 1 ∧ v1.elem h1 0 = some x ∧
      (src.wf h = true →
        (vector.move_ctor src).1.wf h1 = true ∧
        ∀ i, (vector.move_ctor src).1.elem h1 i = src.elem h i) := by
  have hsame : (vector.move_ctor src).1 = src := rfl
  have hd : (vector.move_ctor src).2 = vector.default_ctor := rfl
  obtain ⟨h1, v1, hrun, hwf1, hs1, hx1, _, hc1, hf, _⟩ :=
    push_back_spec E h vector.default_ctor a x (wf_default_ctor h) hread
      (fun _ => ⟨by
          show 0 * 2 * E.sizeof < 2 ^ 64
          simp,
        rfl, by
          show a.base = none ∨ a.base ≠ none
          rcases a.base with _ | q
          · exact Or.inl rfl
          · exact Or.inr (by simp),
        fun i y hi _ => absurd hi (Nat.not_lt_zero i)⟩)
  refine ⟨rfl, rfl, rfl, fun i => rfl, rfl, rfl, rfl, rfl, h1, v1, by rw [hd]; exact hrun,
    hrun, hwf1, hs1, hc1, hx1, fun hwf => ?_⟩
  rw [hsame]
  exact wf_frame h h1 vector.default_ctor.data_ src hf hwf (by
    rcases Option.eq_none_or_eq_some src.data_ with hn | ⟨q, hq⟩
    · exact Or.inl hn
    · exact Or.inr (by rw [hq]; simp [vector.default_ctor]))

/-- Instance of C12: move construction from the vector holding 1, 2, 3, then `push_back(7)` on
the source, and `push_back` of the first element of the new vector on the source. -/
theorem C12_move_ctor_witness :
    vec123.wf heap123 = true ∧
    (∃ h1 v1, vector.push_back int_elem heap123 (vector.move_ctor vec123).2 (.temp 7) =
        .ret (h1, v1) ∧
      vector.push_back int_elem heap123 vector.default_ctor (.temp 7) = .ret (h1, v1) ∧
      v1.wf h1 = true ∧ v1.size = 1 ∧ v1.capacity = 1 ∧ v1.elem h1 0 = some 7 ∧
      (vector.move_ctor vec123).1.wf h1 = true ∧
      ∀ i, (vector.move_ctor vec123).1.elem h1 i = vec123.elem heap123 i) ∧
    ∃ h1 v1, vector.push_back int_elem heap123 (vector.move_ctor vec123).2
        (.slot ⟨(vector.move_ctor vec123).1.data_, 0⟩) = .ret (h1, v1) ∧
      v1.wf h1 = true ∧ v1.size = 1 ∧ v1.capacity = 1 ∧ v1.elem h1 0 = some 1 ∧
      (vector.move_ctor vec123).1.wf h1 = true ∧
      ∀ i, (vector.move_ctor vec123).1.elem h1 i = vec123.elem heap123 i := by
  obtain ⟨h1, v1, a, b, c, d, e, f, g⟩ :=
    (C12_move_ctor int_elem heap123 vec123 (.temp 7) 7 rfl).2.2.2.2.2.2.2.2
  obtain ⟨h2, v2, a2, _, c2, d2, e2, f2, g2⟩ :=
    (C12_move_ctor int_elem heap123 vec123 (.slot ⟨some 2, 0⟩) 1 rfl).2.2.2.2.2.2.2.2
  exact ⟨rfl, ⟨h1, v1, a, b, c, d, e, f, (g rfl).1, (g rfl).2⟩,
    h2, v2, a2, c2, d2, e2, f2, (g2 rfl).1, (g2 rfl).2⟩

/-- C13: `front()` and `back()`, in both overloads, throw `std::out_of_range` on every vector of
size 0; on a well-formed vector of size above 0 they do not throw: `front()` refers to the
element at index 0 and `back()` to the element at index `size() - 1`.  So on well-formed
vectors they fail if and only if the size is 0. -/
theorem C13_front_back (h : Heap T) (v : vector) :
    (v.size = 0 →
      (vector.front h v : Access ε) = .throw .out_of_range ∧
      (vector.front_const h v : Access ε) = .throw .out_of_range ∧
      (vector.back h v : Access ε) = .throw .out_of_range ∧
      (vector.back_const h v : Access ε) = .throw .out_of_range) ∧
    (v.wf h = true → 0 < v.size →
      (vector.front h v : Access ε) = .ref ⟨v.data_, 0⟩ ∧
      (vector.front_const h v : Access ε) = .ref ⟨v.data_, 0⟩ ∧
      (vector.back h v : Access ε) = .ref ⟨v.data_, v.size - 1⟩ ∧
      (vector.back_const h v : Access ε) = .ref ⟨v.data_, v.size - 1⟩ ∧
      (∃ x, v.elem h 0 = some x) ∧ ∃ x, v.elem h (v.size - 1) = some x) ∧
    (v.wf h = true →
      ((vector.front h v : Access ε) = .throw .out_of_range ↔ v.size = 0) ∧
      ((vector.front_const h v : Access ε) = .throw .out_of_range ↔ v.size = 0) ∧
      ((vector.back h v : Access ε) = .throw .out_of_range ↔ v.size = 0) ∧
      ((vector.back_const h v : Access ε) = .throw .out_of_range ↔ v.size = 0)) := by
  refine ⟨fun h0 => front_back_empty h v h0, fun hwf hs => front_back_nonempty h v hwf hs,
    fun hwf => ?_⟩
  have key : ∀ a : Access ε, (v.size = 0 → a = .throw .out_of_range) →
      (0 < v.size → ∃ p, a = .ref p) → (a = .throw .out_of_range ↔ v.size = 0) := by
    intro a h1 h2
    refine ⟨fun ha => ?_, h1⟩
    by_contra hne
    obtain ⟨p, hp⟩ := h2 (Nat.pos_of_ne_zero hne)
    rw [hp] at ha
    cases ha
  have he := fun h0 : v.size = 0 => front_back_empty (ε := ε) h v h0
  have hn := fun hs : 0 < v.size => front_back_nonempty (ε := ε) h v hwf hs
  exact ⟨key _ (fun h0 => (he h0).1) (fun hs => ⟨_, (hn hs).1⟩),
    key _ (fun h0 => (he h0).2.1) (fun hs => ⟨_, (hn hs).2.1⟩),
    key _ (fun h0 => (he h0).2.2.1) (fun hs => ⟨_, (hn hs).2.2.1⟩),
    key _ (fun h0 => (he h0).2.2.2) (fun hs => ⟨_, (hn hs).2.2.2.1⟩)⟩

/-- Instance of C13: the default-constructed vector and the vector holding 1, 2, 3. -/
theorem C13_front_back_witness :
    ((vector.front ([] : Heap Nat) vector.default_ctor : Access Unit) = .throw .out_of_range ∧
      (vector.front_const ([] : Heap Nat) vector.default_ctor : Access Unit) =
        .throw .out_of_range ∧
      (vector.back ([] : Heap Nat) vector.default_ctor : Access Unit) = .throw .out_of_range ∧
      (vector.back_const ([] : Heap Nat) vector.default_ctor : Access Unit) =
        .throw .out_of_range) ∧
    ((vector.front heap123 vec123 : Access Unit) = .ref ⟨vec123.data_, 0⟩ ∧
      (vector.front_const heap123 vec123 : Access Unit) = .ref ⟨vec123.data_, 0⟩ ∧
      (vector.back heap123 vec123 : Access Unit) = .ref ⟨vec123.data_, vec123.size - 1⟩ ∧
      (vector.back_const heap123 vec123 : Access Unit) = .ref ⟨vec123.data_, vec123.size - 1⟩ ∧
      (∃ x, vec123.elem heap123 0 = some x) ∧
      ∃ x, vec123.elem heap123 (vec123.size - 1) = some x) ∧
    ((vector.front heap123 vec123 : Access Unit) = .throw .out_of_range ↔ vec123.size = 0) ∧
    ((vector.front_const heap123 vec123 : Access Unit) = .throw .out_of_range ↔
      vec123.size = 0) ∧
    ((vector.back heap123 vec123 : Access Unit) = .throw .out_of_range ↔ vec123.size = 0) ∧
    ((vector.back_const heap123 vec123 : Access Unit) = .throw .out_of_range ↔
      vec123.size = 0) :=
  ⟨(C13_front_back [] vector.default_ctor).1 rfl,
    (C13_front_back heap123 vec123).2.1 rfl (by decide),
    (C13_front_back heap123 vec123).2.2 rfl⟩

variable {C : Type}

/-- C14: over a container that meets the sequence contract, `top()` after `push(x)` returns `x`,
and `pop()` after `push(x)` gives a stack holding the same sequence of elements as before the
push. -/
theorem C14_stack_push_top_pop (K : Container C T) (hK : K.sequence_contract)
    (default_init : Option T) (s : stack C) (x : T) :
    stack.top K default_init (stack.push K s x) = some x ∧
    ∃ s1, stack.pop K (stack.push K s x) = some s1 ∧
      stack.contents K s1 = stack.contents K s ∧
      (stack.contents K s1).length = (stack.contents K s).length := by
  obtain ⟨_, hempty, hsize, hback, hpop, hpush⟩ := hK
  have hc : K.contents (K.push_back s.container_ x) = K.contents s.container_ ++ [x] :=
    hpush _ x
  have hne : K.contents (K.push_back s.container_ x) ≠ [] := by rw [hc]; simp
  constructor
  · have he : K.empty (K.push_back s.container_ x) = false := by rw [hempty, hc]; simp
    simp only [stack.top, stack.empty, stack.push, he, Bool.false_eq_true, if_false,
      hback _ hne, hc]
    simp
  · obtain ⟨c1, hp, hc1⟩ := hpop _ hne
    have hs : (K.size (K.push_back s.container_ x) != 0) = true := by rw [hsize, hc]; simp
    refine ⟨{ container_ := c1 }, ?_, ?_, ?_⟩
    · simp only [stack.pop, stack.push, hs, if_true, hp]
    · simp only [stack.contents, hc1, hc, List.dropLast_concat]
    · simp only [stack.contents, hc1, hc, List.dropLast_concat]

/-- Instance of C14: the list container, the stack holding 1, 2 and the element 5, for a scalar
element type. -/
theorem C14_stack_push_top_pop_witness :
    stack.top (list_container Nat) none (stack.push (list_container Nat) ⟨[1, 2]⟩ 5) = some 5 ∧
    ∃ s1, stack.pop (list_container Nat) (stack.push (list_container Nat) ⟨[1, 2]⟩ 5) =
        some s1 ∧
      stack.contents (list_container Nat) s1 = stack.contents (list_container Nat) ⟨[1, 2]⟩ ∧
      (stack.contents (list_container Nat) s1).length =
        (stack.contents (list_container Nat) ⟨[1, 2]⟩).length :=
  C14_stack_push_top_pop (list_container Nat) (list_container_contract Nat) none ⟨[1, 2]⟩ 5

/-- C15 (defect in the code): on an empty stack of a scalar element type, `top()` returns an
object that was never given a value.  The statement `T item;` default-initialises `item`, which
for a scalar `T` such as `unsigned` leaves it uninitialised, and `return item;` has no value to
return, where the value `T()`, which is 0, is due; for a class type with a default constructor
giving 0 the call does return 0.  The other parts hold: `pop()` on the empty stack returns and
leaves it empty, and on the stack holding 1, 2, 3 `top()` returns 3 and `pop()` leaves 1, 2. -/
theorem C15_top_of_empty_scalar :
    stack.contents (list_container Nat) ⟨[]⟩ = [] ∧
    stack.empty (list_container Nat) ⟨[]⟩ = true ∧
    int_elem.default_init = none ∧ int_elem.value_init = 0 ∧
    stack.top (list_container Nat) int_elem.default_init ⟨[]⟩ = none ∧
    stack.top (list_container Nat) owner_elem.default_init ⟨[]⟩ = some 0 ∧
    stack.pop (list_container Nat) ⟨[]⟩ = some ⟨[]⟩ ∧
    stack.top (list_container Nat) int_elem.default_init ⟨[1, 2, 3]⟩ = some 3 ∧
    stack.pop (list_container Nat) ⟨[1, 2, 3]⟩ = some ⟨[1, 2]⟩ ∧
    ∀ (K : Container C T) (s : stack C),
      stack.empty K s = true → stack.top K none s = none := by
  refine ⟨rfl, rfl, rfl, rfl, rfl, rfl, rfl, rfl, rfl, fun K s he => ?_⟩
  simp only [stack.top, he, if_true]

/-- C16 (defect in the code): `push_back` reads its argument after `grow()` has released the
block the argument may refer into.  On the full vector holding 1, 2 the call `push_back(v[1])`
passes a reference to slot 1, which holds 2; `grow()` releases the block, the assignment reads
the released slot, and the call has no defined result, where `push_back(2)` with the value in an
object of its own returns with elements 1, 2, 2 and capacity 4.  Also, on the full vector built
by `vector(2, 7)` with an element type that has a destructor, `push_back(9)` does not complete,
as `grow()` releases a `new T[2]` array as a `char` array; on the same vector of `int` it
returns. -/
theorem C16_push_back_own_element :
    vec12.wf heap12 = true ∧ vec12.size = vec12.capacity ∧
    vector.subscript heap12 vec12 1 = some ⟨vec12.data_, 1⟩ ∧
    Arg.read heap12 (.slot ⟨vec12.data_, 1⟩) = some 2 ∧
    vector.push_back int_elem heap12 vec12 (.slot ⟨vec12.data_, 1⟩) = .undefined ∧
    vector.push_back int_elem heap12 vec12 (.temp 2) =
      .ret ([none, none, some [some 1, some 2, some 2, none]],
        { data_ := some 2, current_size_ := 3, capacity_ := 4 }) ∧
    vector.sized_ctor owner_elem ([] : Heap Nat) 2 (.temp 7) = .ret (heap77, vec77) ∧
    vector.push_back owner_elem heap77 vec77 (.temp 9) = .undefined ∧
    vector.push_back int_elem heap77 vec77 (.temp 9) =
      .ret ([none, some [some 7, some 7, some 9, none]],
        { data_ := some 1, current_size_ := 3, capacity_ := 4 }) :=
  ⟨rfl, rfl, rfl, rfl, rfl, rfl, rfl, rfl, rfl⟩

/-- C17: the invariant `size() <= capacity()` holds for the vector every constructor builds
(default, sized with fill, copy, move) and, on a vector that has it, for the state at the end of
every public operation that changes a vector (`reserve`, `assign`, `push_back`, `emplace_back`,
`pop_back`, `resize`, `clear`, `shrink_to_fit`, copy assignment, move assignment), whether the
operation returns or throws.  (The capacity is taken to be one whose double is within `size_t`,
as `grow()` doubles it in `size_t`.) -/
theorem C17_size_le_capacity (E : Elem T ε) (r : Move2) (fuel : Nat)
    (h : Heap T) (v other : vector) (n count : Nat) (value : Arg T) (other_is_this : Bool)
    (hv : v.size_le_capacity) (ho : other.size_le_capacity)
    (hcap : v.capacity * MULTIPLY_CONST < 2 ^ 64) :
    vector.default_ctor.size_le_capacity ∧
    (vector.sized_ctor E h count value).holds (fun s => s.2.size_le_capacity) ∧
    (vector.copy_ctor E h other).holds (fun s => s.2.size_le_capacity) ∧
    (vector.move_ctor other).1.size_le_capacity ∧
    (vector.move_ctor other).2.size_le_capacity ∧
    (vector.reserve E h v n).holds (fun s => s.2.size_le_capacity) ∧
    (vector.assign E h v count value).holds (fun s => s.2.size_le_capacity) ∧
    (vector.push_back E h v value).holds (fun s => s.2.size_le_capacity) ∧
    (vector.emplace_back E h v value).holds (fun s => s.2.size_le_capacity) ∧
    (vector.pop_back h v : Outcome ε (Heap T × vector)).holds
      (fun s => s.2.size_le_capacity) ∧
    (vector.resize E h v count value).holds (fun s => s.2.size_le_capacity) ∧
    (vector.clear E h v).holds (fun s => s.2.size_le_capacity) ∧
    (vector.shrink_to_fit E fuel h v).holds (fun s => s.2.size_le_capacity) ∧
    (vector.copy_assign E h v other other_is_this).holds (fun s => s.2.size_le_capacity) ∧
    (vector.copy_assign_body E h v other).holds (fun s => s.2.size_le_capacity) ∧
    (vector.move_assign E r h v other other_is_this).holds
      (fun s => s.2.1.size_le_capacity ∧ s.2.2.size_le_capacity) :=
  ⟨Nat.le_refl 0, (ctor_inv E h other count value).1, (ctor_inv E h other count value).2, ho,
    Nat.le_refl 0, reserve_inv E h v n hv, assign_inv E h v count value hv,
    push_back_inv E h v value hv hcap, emplace_back_inv E h v value hv hcap,
    pop_back_inv h v hv, resize_inv E h v count value hv, clear_inv E h v hv,
    shrink_to_fit_inv E fuel h v hv,
    (copy_assign_inv E h v other other_is_this hv).1,
    (copy_assign_inv E h v other other_is_this hv).2,
    move_assign_inv E r h v other other_is_this hv ho⟩

/-- Instance of C17: the full vector holding 1, 2 and, as the other one, the vector holding
1, 2, 3, in one heap; `reserve(8)`, `count` 5 (above the capacity 2, so `assign` and `resize`
grow) and the value 9.  The outcomes are written out: every operation but copy assignment from a
distinct vector ends in a state, `reserve` with a copy constructor that throws on 2 ends in one
by throwing, and each of these states has `size <= capacity`. -/
theorem C17_size_le_capacity_witness :
    (vec12.wf heap_both = true ∧ vec123.wf heap_both = true ∧
      vec12.size_le_capacity ∧ vec123.size_le_capacity ∧
      vec12.capacity * MULTIPLY_CONST < 2 ^ 64) ∧
    (vector.sized_ctor int_elem heap_both 5 (.temp 9) =
        .ret (heap_both ++ [some [some 9, some 9, some 9, some 9, some 9]],
          { data_ := some 3, current_size_ := 5, capacity_ := 5, data_from_new := true }) ∧
      vector.copy_ctor int_elem heap_both vec123 =
        .ret (heap_both ++ [some [some 1, some 2, some 3]],
          { data_ := some 3, current_size_ := 3, capacity_ := 3, data_from_new := true }) ∧
      vector.reserve int_elem heap_both vec12 8 =
        .ret ([none, none, some [some 1, some 2, some 3, none],
            some [some 1, some 2, none, none, none, none, none, none]],
          { data_ := some 3, current_size_ := 2, capacity_ := 8 }) ∧
      vector.reserve (throws_on 2) heap_both vec12 8 =
        .throw (.element ()) (heap_both ++ [none], vec12) ∧
      vector.assign int_elem heap_both vec12 5 (.temp 9) =
        .ret ([none, none, some [some 1, some 2, some 3, none],
            some [some 9, some 9, some 9, some 9, some 9]],
          { data_ := some 3, current_size_ := 5, capacity_ := 5 }) ∧
      vector.push_back int_elem heap_both vec12 (.temp 9) =
        .ret ([none, none, some [some 1, some 2, some 3, none],
            some [some 1, some 2, some 9, none]],
          { data_ := some 3, current_size_ := 3, capacity_ := 4 }) ∧
      vector.emplace_back int_elem heap_both vec12 (.temp 9) =
        .ret ([none, none, some [some 1, some 2, some 3, none],
            some [some 1, some 2, some 9, none]],
          { data_ := some 3, current_size_ := 3, capacity_ := 4 }) ∧
      (vector.pop_back heap_both vec12 : Outcome Unit (Heap Nat × vector)) =
        .ret (heap_both, { data_ := some 1, current_size_ := 1, capacity_ := 2 }) ∧
      vector.resize int_elem heap_both vec12 5 (.temp 9) =
        .ret ([none, none, some [some 1, some 2, some 3, none],
            some [some 9, some 9, some 9, some 9, some 9]],
          { data_ := some 3, current_size_ := 5, capacity_ := 5 }) ∧
      vector.clear int_elem heap_both vec12 =
        .ret ([none, some [some 0, some 0], some [some 1, some 2, some 3, none]],
          { data_ := some 1, current_size_ := 0, capacity_ := 2 }) ∧
      vector.shrink_to_fit int_elem 7 heap_both vec12 = .ret (heap_both, vec12) ∧
      vector.copy_assign_body int_elem heap_both vec12 vec123 =
        .ret ([none, none, some [some 1, some 2, some 3, none], some [some 1, some 2, some 3]],
          { data_ := some 3, current_size_ := 3, capacity_ := 3, data_from_new := true }) ∧
      vector.copy_assign int_elem heap_both vec12 vec123 false = .undefined ∧
      vector.move_assign int_elem .assigns heap_both vec12 vec123 false =
        .ret ([none, none, some [some 1, some 2, some 3, none]], vec123, vec123)) ∧
    (vector.default_ctor.size_le_capacity ∧
    (vector.sized_ctor int_elem heap_both 5 (.temp 9)).holds (fun s => s.2.size_le_capacity) ∧
    (vector.copy_ctor int_elem heap_both vec123).holds (fun s => s.2.size_le_capacity) ∧
    (vector.move_ctor vec123).1.size_le_capacity ∧
    (vector.move_ctor vec123).2.size_le_capacity ∧
    (vector.reserve int_elem heap_both vec12 8).holds (fun s => s.2.size_le_capacity) ∧
    (vector.assign int_elem heap_both vec12 5 (.temp 9)).holds
      (fun s => s.2.size_le_capacity) ∧
    (vector.push_back int_elem heap_both vec12 (.temp 9)).holds
      (fun s => s.2.size_le_capacity) ∧
    (vector.emplace_back int_elem heap_both vec12 (.temp 9)).holds
      (fun s => s.2.size_le_capacity) ∧
    (vector.pop_back heap_both vec12 : Outcome Unit (Heap Nat × vector)).holds
      (fun s => s.2.size_le_capacity) ∧
    (vector.resize int_elem heap_both vec12 5 (.temp 9)).holds
      (fun s => s.2.size_le_capacity) ∧
    (vector.clear int_elem heap_both vec12).holds (fun s => s.2.size_le_capacity) ∧
    (vector.shrink_to_fit int_elem 7 heap_both vec12).holds (fun s => s.2.size_le_capacity) ∧
    (vector.copy_assign int_elem heap_both vec12 vec123 false).holds
      (fun s => s.2.size_le_capacity) ∧
    (vector.copy_assign_body int_elem heap_both vec12 vec123).holds
      (fun s => s.2.size_le_capacity) ∧
    (vector.move_assign int_elem .assigns heap_both vec12 vec123 false).holds
      (fun s => s.2.1.size_le_capacity ∧ s.2.2.size_le_capacity)) :=
  ⟨⟨rfl, rfl, (by decide : (2 : Nat) ≤ 2), (by decide : (3 : Nat) ≤ 4), by decide⟩,
    ⟨rfl, rfl, rfl, rfl, rfl, rfl, rfl, rfl, rfl, rfl, rfl, rfl, rfl, rfl⟩,
    C17_size_le_capacity int_elem .assigns 7 heap_both vec12 vec123 8 5 (.temp 9) false
      (by decide : (2 : Nat) ≤ 2) (by decide : (3 : Nat) ≤ 4) (by decide)⟩

/-- C18 (defect in the code): `shrink_to_fit()` does not terminate on a vector with
`0 < size < capacity`.  On the vector of size 2 and capacity 4 left by `push_back` of 1, 2, 3
and one `pop_back`, its copy loop is still running after 2 iterations, and after any number of
them, so the call neither completes nor fails; `reserve(8)` on the same vector returns. -/
theorem C18_shrink_to_fit_runs_on :
    vector.run int_elem ([] : Heap Nat) vector.default_ctor
        [.push_back 1, .push_back 2, .push_back 3, .pop_back] =
      .ret (heap123, { data_ := some 2, current_size_ := 2, capacity_ := 4 }) ∧
    shrink_to_fit_loop int_elem (some 2) (some 3) 2 2 0 (heap123 ++ [some [none, none]]) =
      (.timeout : CopyResult Unit Nat) ∧
    (∀ fuel, shrink_to_fit_loop int_elem (some 2) (some 3) 2 fuel 0
        (heap123 ++ [some [none, none]]) = (.timeout : CopyResult Unit Nat)) ∧
    (∀ fuel, vector.shrink_to_fit int_elem fuel heap123
        { data_ := some 2, current_size_ := 2, capacity_ := 4 } = .timeout) ∧
    vector.reserve int_elem heap123 { data_ := some 2, current_size_ := 2, capacity_ := 4 } 8 =
      .ret ([none, none, none, some [some 1, some 2, none, none, none, none, none, none]],
        { data_ := some 3, current_size_ := 2, capacity_ := 8 }) := by
  refine ⟨rfl, rfl, fun fuel => ?_, fun fuel => ?_, rfl⟩
  · exact shrink_to_fit_loop_stuck int_elem heap123 2 [some 1, some 2, some 3, none] 1 2 rfl
      rfl rfl (by decide) fuel [none, none] (by decide)
  · exact shrink_to_fit_timeout int_elem fuel heap123
      { data_ := some 2, current_size_ := 2, capacity_ := 4 } rfl (by decide) (by decide)
      (by decide) (fun _ _ => rfl)

/-- C19 (defect in the code): `resize` calls `destroy` on slots that are not below the capacity
of the block.  On the vector holding 1, 2 with capacity 2, `resize(3, 7)` passes `data_ + 0`,
`data_ + 1`, `data_ + 2` to `destroy`, and index 2 is not below the capacity 2 of the block; on
the default-constructed vector it passes `data_ + 1` and `data_ + 2` on a null `data_`, which
address no block at all.  Each such call is outside every allocated block, and for an element
type with a destructor the whole call has no defined result. -/
theorem C19_resize_destroys_out_of_block :
    vec12.size_le_capacity ∧
    destroy_up_targets vec12.data_ 3 0 = [⟨some 1, 0⟩, ⟨some 1, 1⟩, ⟨some 1, 2⟩] ∧
    Heap.block_capacity heap12 ⟨some 1, 2⟩ = some 2 ∧ vec12.capacity = 2 ∧
    Heap.in_block heap12 ⟨some 1, 2⟩ = false ∧
    destroy_all owner_elem (destroy_up_targets vec12.data_ 3 0) heap12 = none ∧
    vector.resize owner_elem heap12 vec12 3 (.temp 7) = .undefined ∧
    vector.default_ctor.size_le_capacity ∧
    destroy_up_targets vector.default_ctor.data_ 3 0 = [⟨none, 0⟩, ⟨none, 1⟩, ⟨none, 2⟩] ∧
    (⟨none, 1⟩ : Ptr).is_null = false ∧
    Heap.block_capacity ([] : Heap Nat) ⟨none, 1⟩ = none ∧
    Heap.in_block ([] : Heap Nat) ⟨none, 1⟩ = false ∧
    vector.resize owner_elem ([] : Heap Nat) vector.default_ctor 3 (.temp 7) = .undefined :=
  ⟨(by decide : (2 : Nat) ≤ 2), rfl, rfl, rfl, rfl, rfl, rfl, Nat.le_refl 0, rfl, rfl, rfl, rfl,
    rfl⟩

/-- C20, the claim as stated fails: the copy of the vector holding 1, 2, 3 with capacity 4 has
capacity 3. -/
theorem C20_copy_capacity_counterexample :
    vector.copy_ctor int_elem heap123 vec123 =
      .ret ([none, none, some [some 1, some 2, some 3, none], some [some 1, some 2, some 3]],
        { data_ := some 3, current_size_ := 3, capacity_ := 3, data_from_new := true }) ∧
    vec123.capacity = 4 ∧
    ¬ (∀ (h1 : Heap Nat) (c : vector),
      vector.copy_ctor int_elem heap123 vec123 = .ret (h1, c) →
      c.capacity = vec123.capacity) := by
  refine ⟨rfl, rfl, fun hall => ?_⟩
  have := hall _ _ rfl
  exact absurd this (by decide)

/-- C20, amended: the vector produced by copy construction from a well-formed vector has a
capacity equal to the size of the source; it equals the capacity of the source exactly when the
source is full. -/
theorem C20_copy_capacity_is_size (E : Elem T ε) (h : Heap T) (src : vector)
    (hwf : src.wf h = true) :
    ∃ h1 c, vector.copy_ctor E h src = .ret (h1, c) ∧
      c.capacity = src.size ∧ c.size = src.size ∧
      (c.capacity = src.capacity ↔ src.size = src.capacity) := by
  obtain ⟨h1, c, hrun, _, hs, hc, _⟩ := copy_ctor_spec E h src hwf
  refine ⟨h1, c, hrun, hc, hs, ?_⟩
  simp only [vector.capacity, vector.size, hc]

/-- Instance of the amended C20: the copy of the vector holding 1, 2, 3 with capacity 4. -/
theorem C20_copy_capacity_is_size_witness :
    ∃ h1 c, vector.copy_ctor int_elem heap123 vec123 = .ret (h1, c) ∧
      c.capacity = vec123.size ∧ c.size = vec123.size ∧
      (c.capacity = vec123.capacity ↔ vec123.size = vec123.capacity) :=
  C20_copy_capacity_is_size int_elem heap123 vec123 rfl

end claims

end my_stl
